import Mathlib

/-!
RV32IM simulator with branch predictors: embedding and verified properties.

Shallow embedding of `branch_predictor.c` / `branch_predictor.h` and `simulate.c`.

Conventions.
* `uint32_t` values are natural numbers below `2 ^ 32`; every operation that can
  leave that range in C is followed by an explicit `% 2 ^ 32`.
* `int32_t` values (the register file) are integers in `[-2 ^ 31, 2 ^ 31)`;
  `u32` is the cast `(uint32_t)x` and `i32` the cast `(int32_t)x`.
* `int` flags such as `taken` are integers.
* The two 64-bit statistics counters of a predictor and the retired-instruction
  count are natural numbers: each call adds at most one to them.
* A pointer that may be `NULL` is an `Option`.
-/

namespace Sim

/-! ## branch_predictor.h -/

/-- The enumeration `predictor_type_t`, constructors in declaration order. -/
inductive predictor_type_t where
  | PRED_NONE
  | PRED_NT
  | PRED_BTFNT
  | PRED_BIMODAL_256
  | PRED_BIMODAL_1K
  | PRED_BIMODAL_4K
  | PRED_BIMODAL_16K
  | PRED_GSHARE_256
  | PRED_GSHARE_1K
  | PRED_GSHARE_4K
  | PRED_GSHARE_16K
  deriving DecidableEq, Repr

open predictor_type_t

/-- The integer value of an enumerator (C numbers them from 0 in order). -/
def predictor_type_t.toNat : predictor_type_t → Nat
  | PRED_NONE => 0
  | PRED_NT => 1
  | PRED_BTFNT => 2
  | PRED_BIMODAL_256 => 3
  | PRED_BIMODAL_1K => 4
  | PRED_BIMODAL_4K => 5
  | PRED_BIMODAL_16K => 6
  | PRED_GSHARE_256 => 7
  | PRED_GSHARE_1K => 8
  | PRED_GSHARE_4K => 9
  | PRED_GSHARE_16K => 10

/-- The record `predictor_stats_t`. -/
structure predictor_stats_t where
  type : predictor_type_t
  total_branches : Nat
  mispredictions : Nat
  deriving DecidableEq, Repr

/-- The record `branch_predictor_t`; `table` is the heap array of `uint8_t`
counters (`[]` for the `NULL` table of the table-less variants). -/
structure branch_predictor_t where
  type : predictor_type_t
  stats : predictor_stats_t
  table : List Nat
  table_size : Nat
  global_history : Nat
  history_bits : Nat
  deriving DecidableEq, Repr

/-! ## branch_predictor.c -/

/-- `get_table_size`: number of counters of a variant, 0 for the table-less ones. -/
def get_table_size : predictor_type_t → Nat
  | PRED_BIMODAL_256 => 256
  | PRED_GSHARE_256 => 256
  | PRED_BIMODAL_1K => 1024
  | PRED_GSHARE_1K => 1024
  | PRED_BIMODAL_4K => 4096
  | PRED_GSHARE_4K => 4096
  | PRED_BIMODAL_16K => 16384
  | PRED_GSHARE_16K => 16384
  | _ => 0

/-- The `while (size > 1) { bits++; size >>= 1; }` loop of `get_history_bits`.
The first argument bounds the number of iterations; `size` halves in each one,
so `size` iterations always suffice (`get_history_bits_loop_fuel`). -/
def get_history_bits_loop : Nat → Nat → Nat → Nat
  | 0, bits, _ => bits
  | fuel + 1, bits, size =>
    if size > 1 then get_history_bits_loop fuel (bits + 1) (size >>> 1) else bits

/-- `get_history_bits`: the number of halvings that bring `table_size` down to 1. -/
def get_history_bits (table_size : Nat) : Nat :=
  get_history_bits_loop table_size 0 table_size

/-- `predictor_create`, for the case that both allocations succeed (the result
is then non-`NULL`): zeroed statistics, every counter 2, history 0, and
`history_bits` set for the gshare variants only. -/
def predictor_create (type : predictor_type_t) : branch_predictor_t :=
  let table_size := get_table_size type
  if table_size > 0 then
    { type := type
      stats := { type := type, total_branches := 0, mispredictions := 0 }
      table := List.replicate table_size 2
      table_size := table_size
      global_history := 0
      history_bits :=
        if type.toNat ≥ PRED_GSHARE_256.toNat ∧ type.toNat ≤ PRED_GSHARE_16K.toNat then
          get_history_bits table_size
        else 0 }
  else
    { type := type
      stats := { type := type, total_branches := 0, mispredictions := 0 }
      table := []
      table_size := 0
      global_history := 0
      history_bits := 0 }

/-- The gshare table index shared by `predictor_predict` and `predictor_update`:
`pc_bits = (pc >> 2) & ((1 << index_bits) - 1)`,
`hist_bits = global_history & ((1 << index_bits) - 1)`,
`index = (pc_bits ^ hist_bits) % table_size`. -/
def gshare_index (pred : branch_predictor_t) (pc : Nat) : Nat :=
  let index_bits := pred.history_bits
  let pc_bits := (pc >>> 2) &&& ((1 <<< index_bits) - 1)
  let hist_bits := pred.global_history &&& ((1 <<< index_bits) - 1)
  (pc_bits ^^^ hist_bits) % pred.table_size

/-- `predictor_predict`: 1 for predicted taken, 0 for predicted not taken. -/
def predictor_predict (pred : Option branch_predictor_t) (pc target : Nat) : Int :=
  match pred with
  | none => 0
  | some pred =>
    if pred.type = PRED_NONE then 0
    else
      match pred.type with
      | PRED_NT => 0
      | PRED_BTFNT => if target < pc then 1 else 0
      | PRED_BIMODAL_256 | PRED_BIMODAL_1K | PRED_BIMODAL_4K | PRED_BIMODAL_16K =>
        let index := pc % pred.table_size
        let counter := pred.table.getD index 0
        if counter ≥ 2 then 1 else 0
      | PRED_GSHARE_256 | PRED_GSHARE_1K | PRED_GSHARE_4K | PRED_GSHARE_16K =>
        let index := gshare_index pred pc
        let counter := pred.table.getD index 0
        if counter ≥ 2 then 1 else 0
      | _ => 0

/-- The saturating update of one `uint8_t` counter, written twice in
`predictor_update`: `if (taken) { if (*counter < 3) (*counter)++; }
else { if (*counter > 0) (*counter)--; }`. -/
def counter_update (counter : Nat) (taken : Int) : Nat :=
  if taken ≠ 0 then
    if counter < 3 then counter + 1 else counter
  else
    if counter > 0 then counter - 1 else counter

/-- `predictor_update`: the record after the call (`none` stays `none`, a
`PRED_NONE` record is returned untouched).  The prediction is taken first, then
the two statistics counters are bumped, then the variant state is changed. -/
def predictor_update (pred : Option branch_predictor_t) (pc target : Nat) (taken : Int) :
    Option branch_predictor_t :=
  match pred with
  | none => none
  | some p =>
    if p.type = PRED_NONE then some p
    else
      let prediction := predictor_predict (some p) pc target
      let stats1 := { p.stats with total_branches := p.stats.total_branches + 1 }
      let stats2 :=
        if prediction ≠ taken then { stats1 with mispredictions := stats1.mispredictions + 1 }
        else stats1
      let p1 := { p with stats := stats2 }
      match p1.type with
      | PRED_BIMODAL_256 | PRED_BIMODAL_1K | PRED_BIMODAL_4K | PRED_BIMODAL_16K =>
        let index := pc % p1.table_size
        some { p1 with table := p1.table.set index (counter_update (p1.table.getD index 0) taken) }
      | PRED_GSHARE_256 | PRED_GSHARE_1K | PRED_GSHARE_4K | PRED_GSHARE_16K =>
        let index_bits := p1.history_bits
        let index := gshare_index p1 pc
        let table1 := p1.table.set index (counter_update (p1.table.getD index 0) taken)
        some { p1 with
          table := table1
          global_history :=
            (((p1.global_history <<< 1) % 2 ^ 32) ||| (if taken ≠ 0 then 1 else 0))
              &&& ((1 <<< index_bits) - 1) }
      | _ => some p1

/-- One call of `predictor_update`: its three value arguments. -/
structure BranchEvent where
  pc : Nat
  target : Nat
  taken : Int
  deriving DecidableEq, Repr

/-- A finite sequence of `predictor_update` calls applied to one predictor. -/
def predictor_run (pred : Option branch_predictor_t) (events : List BranchEvent) :
    Option branch_predictor_t :=
  events.foldl (fun p e => predictor_update p e.pc e.target e.taken) pred

/-- The four bimodal variants (the first group of `case` labels in
`predictor_predict` and `predictor_update`). -/
abbrev is_bimodal (type : predictor_type_t) : Prop :=
  type = PRED_BIMODAL_256 ∨ type = PRED_BIMODAL_1K ∨ type = PRED_BIMODAL_4K
    ∨ type = PRED_BIMODAL_16K

/-- The four gshare variants (the second group of `case` labels). -/
abbrev is_gshare (type : predictor_type_t) : Prop :=
  type = PRED_GSHARE_256 ∨ type = PRED_GSHARE_1K ∨ type = PRED_GSHARE_4K
    ∨ type = PRED_GSHARE_16K

/-! ## Machine integers -/

/-- The cast `(uint32_t)x`: the residue of `x` modulo `2 ^ 32`. -/
def u32 (x : Int) : Nat := (x % 2 ^ 32).toNat

/-- The cast `(int32_t)n` of a non-negative value: the low 32 bits read as two's complement. -/
def i32 (n : Nat) : Int :=
  if n % 2 ^ 32 < 2 ^ 31 then ((n % 2 ^ 32 : Nat) : Int) else ((n % 2 ^ 32 : Nat) : Int) - 2 ^ 32

/-- The result of an `int32_t` operation whose exact value is `x`, and the cast
`(int32_t)x` of a wider signed value: reduction into `[-2 ^ 31, 2 ^ 31)`. -/
def wrap32 (x : Int) : Int := i32 (u32 x)

/-- The cast `(uint64_t)x`. -/
def u64 (x : Int) : Nat := (x % 2 ^ 64).toNat

/-- The cast `(int64_t)n` of a non-negative value. -/
def i64 (n : Nat) : Int :=
  if n % 2 ^ 64 < 2 ^ 63 then ((n % 2 ^ 64 : Nat) : Int) else ((n % 2 ^ 64 : Nat) : Int) - 2 ^ 64

/-- The cast `(int8_t)n`. -/
def i8 (n : Nat) : Int :=
  if n % 2 ^ 8 < 2 ^ 7 then ((n % 2 ^ 8 : Nat) : Int) else ((n % 2 ^ 8 : Nat) : Int) - 2 ^ 8

/-- The cast `(int16_t)n`. -/
def i16 (n : Nat) : Int :=
  if n % 2 ^ 16 < 2 ^ 15 then ((n % 2 ^ 16 : Nat) : Int) else ((n % 2 ^ 16 : Nat) : Int) - 2 ^ 16

/-! ## memory.h (collaborator) -/

/-- Modelled from the spec: the memory store behind `memory.h`, which is not
among the sources.  The spec describes a byte-addressable store with
byte/half/word accessors by unsigned address, little-endian, wrapping silently
and handling unaligned accesses transparently.  `bytes a` is the byte at
address `a`. -/
structure memory where
  bytes : Nat → Nat

/-- Modelled from the spec: `memory_rd_b`, the byte at `addr`. -/
def memory_rd_b (mem : memory) (addr : Nat) : Nat :=
  mem.bytes (addr % 2 ^ 32) % 256

/-- Modelled from the spec: `memory_rd_h`, the little-endian half-word at `addr`. -/
def memory_rd_h (mem : memory) (addr : Nat) : Nat :=
  memory_rd_b mem addr + 256 * memory_rd_b mem (addr + 1)

/-- Modelled from the spec: `memory_rd_w`, the little-endian word at `addr`. -/
def memory_rd_w (mem : memory) (addr : Nat) : Nat :=
  memory_rd_b mem addr + 256 * memory_rd_b mem (addr + 1)
    + 65536 * memory_rd_b mem (addr + 2) + 16777216 * memory_rd_b mem (addr + 3)

/-- Modelled from the spec: `memory_wr_b`, store the low 8 bits of `data` at `addr`. -/
def memory_wr_b (mem : memory) (addr : Nat) (data : Nat) : memory :=
  { bytes := fun a => if a = addr % 2 ^ 32 then data % 256 else mem.bytes a }

/-- Modelled from the spec: `memory_wr_h`, store the low 16 bits of `data`, low byte first. -/
def memory_wr_h (mem : memory) (addr : Nat) (data : Nat) : memory :=
  memory_wr_b (memory_wr_b mem addr data) (addr + 1) (data / 256)

/-- Modelled from the spec: `memory_wr_w`, store the low 32 bits of `data`, low byte first. -/
def memory_wr_w (mem : memory) (addr : Nat) (data : Nat) : memory :=
  memory_wr_b (memory_wr_b (memory_wr_b (memory_wr_b mem addr data) (addr + 1) (data / 256))
    (addr + 2) (data / 65536)) (addr + 3) (data / 16777216)

/-! ## simulate.c -/

/-- `get_bits(instr, start, end)`: bits `start..end` of `instr`, right-aligned. -/
def get_bits (instr : Nat) (start stop : Nat) : Nat :=
  (instr >>> start) &&& ((1 <<< (stop - start + 1)) - 1)

/-- `sign_extend(value, bits)`: if bit `bits - 1` is set, all bits from `bits`
upwards are set (`~0U << bits`, a 32-bit value), and the result is read as `int32_t`. -/
def sign_extend (value : Nat) (bits : Nat) : Int :=
  if value &&& (1 <<< (bits - 1)) ≠ 0 then
    i32 (value ||| (((2 ^ 32 - 1) <<< bits) % 2 ^ 32))
  else i32 value

/-- `init_register`: the array `registers[32]` with every entry 0. -/
def init_register : Nat → Int := fun _ => 0

/-- `write_register(reg, value)`: ignored for register 0 and for `reg >= 32`. -/
def write_register (registers : Nat → Int) (reg : Nat) (value : Int) : Nat → Int :=
  if reg ≠ 0 ∧ reg < 32 then fun i => if i = reg then value else registers i
  else registers

/-- `read_register(reg)`: 0 for `reg >= 32`. -/
def read_register (registers : Nat → Int) (reg : Nat) : Int :=
  if reg < 32 then registers reg else 0

/-- `execute_r_type`: the register file after an OP instruction.  `result`
starts at 0 and keeps that value for every `(funct7, funct3)` without a case.
Signed `+`, `-`, `*` keep the low 32 bits; `<<` shifts the bit pattern; `>>` on
`int32_t` is the arithmetic shift; `/` and `%` truncate toward zero. -/
def execute_r_type (registers : Nat → Int) (rd rs1 rs2 funct3 funct7 : Nat) : Nat → Int :=
  let val1 := read_register registers rs1
  let val2 := read_register registers rs2
  let uval1 := u32 val1
  let uval2 := u32 val2
  let result : Int :=
    if funct7 = 0x00 then
      match funct3 with
      | 0x0 => wrap32 (val1 + val2)
      | 0x1 => i32 ((uval1 <<< (uval2 &&& 0x1F)) % 2 ^ 32)
      | 0x2 => if val1 < val2 then 1 else 0
      | 0x3 => if uval1 < uval2 then 1 else 0
      | 0x4 => i32 (uval1 ^^^ uval2)
      | 0x5 => i32 (uval1 >>> (uval2 &&& 0x1F))
      | 0x6 => i32 (uval1 ||| uval2)
      | 0x7 => i32 (uval1 &&& uval2)
      | _ => 0
    else if funct7 = 0x20 then
      match funct3 with
      | 0x0 => wrap32 (val1 - val2)
      | 0x5 => val1 >>> (uval2 &&& 0x1F)
      | _ => 0
    else if funct7 = 0x01 then
      match funct3 with
      | 0x0 => wrap32 (val1 * val2)
      | 0x1 =>
        let prod : Int := val1 * val2
        wrap32 (prod >>> (32 : Nat))
      | 0x2 =>
        let prod : Int := i64 ((u64 val1 * uval2) % 2 ^ 64)
        wrap32 (prod >>> (32 : Nat))
      | 0x3 =>
        let prod : Nat := (uval1 * uval2) % 2 ^ 64
        i32 (prod >>> 32)
      | 0x4 =>
        if val2 = 0 then -1
        else if val1 = i32 0x80000000 ∧ val2 = -1 then val1
        else Int.tdiv val1 val2
      | 0x5 =>
        if uval2 = 0 then i32 0xFFFFFFFF
        else i32 (uval1 / uval2)
      | 0x6 =>
        if val2 = 0 then val1
        else if val1 = i32 0x80000000 ∧ val2 = -1 then 0
        else Int.tmod val1 val2
      | 0x7 =>
        if uval2 = 0 then val1
        else i32 (uval1 % uval2)
      | _ => 0
    else 0
  write_register registers rd result

/-- `execute_i_type_alu`: the register file after an OP-IMM instruction. -/
def execute_i_type_alu (registers : Nat → Int) (rd rs1 funct3 : Nat) (imm : Int)
    (funct7 : Nat) : Nat → Int :=
  let val1 := read_register registers rs1
  let uval1 := u32 val1
  let result : Int :=
    match funct3 with
    | 0x0 => wrap32 (val1 + imm)
    | 0x2 => if val1 < imm then 1 else 0
    | 0x3 => if uval1 < u32 imm then 1 else 0
    | 0x4 => i32 (uval1 ^^^ u32 imm)
    | 0x6 => i32 (uval1 ||| u32 imm)
    | 0x7 => i32 (uval1 &&& u32 imm)
    | 0x1 => i32 ((uval1 <<< (u32 imm &&& 0x1F)) % 2 ^ 32)
    | 0x5 =>
      if funct7 = 0x00 then i32 (uval1 >>> (u32 imm &&& 0x1F))
      else val1 >>> (u32 imm &&& 0x1F)
    | _ => 0
  write_register registers rd result

/-- `execute_load`: the register file after a LOAD instruction. -/
def execute_load (registers : Nat → Int) (mem : memory) (rd rs1 funct3 : Nat) (imm : Int) :
    Nat → Int :=
  let base := read_register registers rs1
  let addr := u32 (base + imm)
  let result : Int :=
    match funct3 with
    | 0x0 => i8 (memory_rd_b mem addr)
    | 0x1 => i16 (memory_rd_h mem addr)
    | 0x2 => i32 (memory_rd_w mem addr)
    | 0x4 => ((memory_rd_b mem addr % 2 ^ 8 : Nat) : Int)
    | 0x5 => ((memory_rd_h mem addr % 2 ^ 16 : Nat) : Int)
    | _ => 0
  write_register registers rd result

/-- `execute_store`: the memory after a STORE instruction. -/
def execute_store (registers : Nat → Int) (mem : memory) (rs1 rs2 funct3 : Nat) (imm : Int) :
    memory :=
  let base := read_register registers rs1
  let addr := u32 (base + imm)
  let value := read_register registers rs2
  match funct3 with
  | 0x0 => memory_wr_b mem addr (u32 value % 2 ^ 8)
  | 0x1 => memory_wr_h mem addr (u32 value % 2 ^ 16)
  | 0x2 => memory_wr_w mem addr (u32 value)
  | _ => mem

/-- `execute_branch`: the pair (global `pc` after the call, return value).  `pc`
is the value of the global on entry (the driver has set it to `current_pc + 4`). -/
def execute_branch (registers : Nat → Int) (pc : Nat) (rs1 rs2 funct3 : Nat) (imm : Int)
    (current_pc : Nat) : Nat × Int :=
  let val1 := read_register registers rs1
  let val2 := read_register registers rs2
  let uval1 := u32 val1
  let uval2 := u32 val2
  let branch_taken : Int :=
    match funct3 with
    | 0x0 => if val1 = val2 then 1 else 0
    | 0x1 => if val1 ≠ val2 then 1 else 0
    | 0x4 => if val1 < val2 then 1 else 0
    | 0x5 => if val1 ≥ val2 then 1 else 0
    | 0x6 => if uval1 < uval2 then 1 else 0
    | 0x7 => if uval1 ≥ uval2 then 1 else 0
    | _ => 0
  if branch_taken ≠ 0 then (u32 (i32 current_pc + imm), 1) else (pc, 0)

/-- A message written to the error channel by `fprintf(stderr, ...)`. -/
inductive Diagnostic where
  | unknown_systemcall (syscall_num : Int)
  | unknown_instruction (instr current_pc : Nat)
  | instruction_limits_reached
  deriving DecidableEq, Repr

/-- Everything the loop of `simulate` reads and writes: the globals `registers`
and `pc`, the memory, the predictor behind the (possibly `NULL`) pointer,
`stats.insns`, the local `jump_target`, the bytes still to be read from standard
input, the bytes `putchar` has written, and the messages sent to `stderr`. -/
structure State where
  registers : Nat → Int
  pc : Nat
  mem : memory
  predictor : Option branch_predictor_t
  insns : Nat
  jump_target : Nat
  input : List Nat
  output : List Nat
  stderr : List Diagnostic

/-- `handle_ecall`: the state after the call and the return value (1 = stop).
`getchar` yields the next input byte, or -1 when the input is exhausted;
`putchar(c)` writes `c` converted to `unsigned char`. -/
def handle_ecall (s : State) : State × Int :=
  let syscall_num := read_register s.registers 17
  if syscall_num = 1 then
    let c : Int :=
      match s.input with
      | [] => -1
      | b :: _ => ((b % 256 : Nat) : Int)
    ({ s with registers := write_register s.registers 10 c, input := s.input.tail }, 0)
  else if syscall_num = 2 then
    let c := read_register s.registers 10
    ({ s with output := s.output ++ [u32 c % 256] }, 0)
  else if syscall_num = 3 ∨ syscall_num = 93 then (s, 1)
  else ({ s with stderr := s.stderr ++ [Diagnostic.unknown_systemcall syscall_num] }, 1)

/-- The locals of one loop iteration that feed the trace line. -/
structure StepLocals where
  instr : Nat
  current_pc : Nat
  is_jump_target : Bool
  reg_written : Int
  reg_value : Int
  mem_written : Int
  mem_addr : Nat
  mem_value : Int
  branch_taken : Int

/-- How one loop iteration ends: it falls through to the next iteration, it
returns from inside the `0x73` case, it returns from the `default` case, or it
leaves the loop by the `break` of the instruction-count check. -/
inductive StepExit where
  | next
  | return_ecall
  | return_unknown
  | break_limit
  deriving DecidableEq, Repr

/-- The outcome of one loop iteration. -/
structure StepResult where
  state : State
  locals : StepLocals
  exit : StepExit

/-- The tail of a loop iteration that left the `switch` by `break`: the
`if (stats.insns > 100000000)` check. -/
def step_finish (s : State) (l : StepLocals) : StepResult :=
  if s.insns > 100000000 then
    { state := { s with stderr := s.stderr ++ [Diagnostic.instruction_limits_reached] }
      locals := l
      exit := StepExit.break_limit }
  else { state := s, locals := l, exit := StepExit.next }

/-- The immediate assembled in `case 0x63` of `simulate`:
`sign_extend((get_bits(instr, 31, 31) << 12) | (get_bits(instr, 7, 7) << 11) |
(get_bits(instr, 25, 30) << 5) | (get_bits(instr, 8, 11) << 1), 13)`. -/
def branch_imm (instr : Nat) : Int :=
  sign_extend
    ((get_bits instr 31 31 <<< 12) ||| (get_bits instr 7 7 <<< 11)
      ||| (get_bits instr 25 30 <<< 5) ||| (get_bits instr 8 11 <<< 1)) 13

/-- One iteration of the `while (1)` loop of `simulate`: fetch, decode, preset
`pc = current_pc + 4`, count the instruction, dispatch on the opcode, and check
the instruction limit. -/
def step (s0 : State) : StepResult :=
  let instr := memory_rd_w s0.mem s0.pc
  let current_pc := s0.pc
  let is_jump_target : Bool := decide (current_pc = s0.jump_target)
  let opcode := get_bits instr 0 6
  let rd := get_bits instr 7 11
  let funct3 := get_bits instr 12 14
  let rs1 := get_bits instr 15 19
  let rs2 := get_bits instr 20 24
  let funct7 := get_bits instr 25 31
  let s : State := { s0 with pc := (current_pc + 4) % 2 ^ 32, insns := s0.insns + 1 }
  let l : StepLocals :=
    { instr := instr, current_pc := current_pc, is_jump_target := is_jump_target
      reg_written := -1, reg_value := 0, mem_written := 0, mem_addr := 0, mem_value := 0
      branch_taken := -1 }
  match opcode with
  | 0x33 =>
    let registers := execute_r_type s.registers rd rs1 rs2 funct3 funct7
    step_finish { s with registers := registers }
      { l with reg_written := (rd : Int), reg_value := read_register registers rd }
  | 0x13 =>
    let imm : Int :=
      if funct3 = 0x1 ∨ funct3 = 0x5 then (rs2 : Int)
      else sign_extend (get_bits instr 20 31) 12
    let registers := execute_i_type_alu s.registers rd rs1 funct3 imm funct7
    step_finish { s with registers := registers }
      { l with reg_written := (rd : Int), reg_value := read_register registers rd }
  | 0x03 =>
    let imm := sign_extend (get_bits instr 20 31) 12
    let registers := execute_load s.registers s.mem rd rs1 funct3 imm
    step_finish { s with registers := registers }
      { l with reg_written := (rd : Int), reg_value := read_register registers rd }
  | 0x23 =>
    let imm := sign_extend ((get_bits instr 25 31 <<< 5) ||| get_bits instr 7 11) 12
    let mem := execute_store s.registers s.mem rs1 rs2 funct3 imm
    step_finish { s with mem := mem }
      { l with
        mem_written := 1
        mem_addr := u32 (read_register s.registers rs1 + imm)
        mem_value := read_register s.registers rs2 }
  | 0x63 =>
    let imm := branch_imm instr
    let target_addr := u32 (i32 current_pc + imm)
    let r := execute_branch s.registers s.pc rs1 rs2 funct3 imm current_pc
    let branch_taken := r.2
    let predictor :=
      match s.predictor with
      | some p => predictor_update (some p) current_pc target_addr branch_taken
      | none => none
    let jump_target := if branch_taken ≠ 0 then r.1 else s.jump_target
    step_finish { s with pc := r.1, predictor := predictor, jump_target := jump_target }
      { l with branch_taken := branch_taken }
  | 0x6F =>
    let imm := sign_extend
      ((get_bits instr 31 31 <<< 20) ||| (get_bits instr 12 19 <<< 12)
        ||| (get_bits instr 20 20 <<< 11) ||| (get_bits instr 21 30 <<< 1)) 21
    let registers := write_register s.registers rd (i32 ((current_pc + 4) % 2 ^ 32))
    let pc := u32 (i32 current_pc + imm)
    step_finish { s with registers := registers, pc := pc, jump_target := pc }
      { l with reg_written := (rd : Int), reg_value := read_register registers rd }
  | 0x67 =>
    let imm := sign_extend (get_bits instr 20 31) 12
    let base := read_register s.registers rs1
    let target := u32 (base + imm) &&& 0xFFFFFFFE
    let registers := write_register s.registers rd (i32 ((current_pc + 4) % 2 ^ 32))
    step_finish { s with registers := registers, pc := target, jump_target := target }
      { l with reg_written := (rd : Int), reg_value := read_register registers rd }
  | 0x37 =>
    let imm := (get_bits instr 12 31 <<< 12) % 2 ^ 32
    let registers := write_register s.registers rd (i32 imm)
    step_finish { s with registers := registers }
      { l with reg_written := (rd : Int), reg_value := read_register registers rd }
  | 0x17 =>
    let imm := (get_bits instr 12 31 <<< 12) % 2 ^ 32
    let registers := write_register s.registers rd (i32 ((current_pc + imm) % 2 ^ 32))
    step_finish { s with registers := registers }
      { l with reg_written := (rd : Int), reg_value := read_register registers rd }
  | 0x73 =>
    if instr = 0x00000073 then
      let r := handle_ecall s
      if r.2 ≠ 0 then { state := r.1, locals := l, exit := StepExit.return_ecall }
      else step_finish r.1 l
    else step_finish s l
  | _ =>
    { state := { s with stderr := s.stderr ++ [Diagnostic.unknown_instruction instr current_pc] }
      locals := l
      exit := StepExit.return_unknown }

/-- The loop of `simulate` cut off after at most `n` iterations: the state when
the loop is left, or after `n` iterations if it has not been left by then. -/
def simulate_loop : Nat → State → State
  | 0, s => s
  | n + 1, s =>
    let r := step s
    match r.exit with
    | StepExit.next => simulate_loop n r.state
    | _ => r.state

/-- How the loop of `simulate` is left within at most `n` iterations: the exit of the
iteration that returns or breaks, or `none` if the loop is still running after `n`
iterations.  Same recursion as `simulate_loop`. -/
def simulate_loop_exit : Nat → State → Option StepExit
  | 0, _ => none
  | n + 1, s =>
    let r := step s
    match r.exit with
    | StepExit.next => simulate_loop_exit n r.state
    | e => some e

/-- A side-effect note at the end of a trace line: `R[n] <- value`, `M[addr] <- value`
(values printed as 32-bit patterns with `%08x`) or the branch outcome `{T}` / `{N}`. -/
inductive TraceNote where
  | reg_write (reg : Int) (value : Nat)
  | mem_write (addr : Nat) (value : Nat)
  | branch (taken : Bool)
  deriving DecidableEq, Repr

/-- The notes that the `if (log_file)` block after the `switch` of `simulate` prints for
one iteration when a log file is given, in printing order.  An iteration that returns
inside the `switch` never reaches that block and prints none. -/
def trace_notes (r : StepResult) : List TraceNote :=
  match r.exit with
  | StepExit.return_ecall => []
  | StepExit.return_unknown => []
  | _ =>
    (if r.locals.reg_written ≥ 0 then
        [TraceNote.reg_write r.locals.reg_written (u32 r.locals.reg_value)] else [])
      ++ (if r.locals.mem_written ≠ 0 then
        [TraceNote.mem_write r.locals.mem_addr (u32 r.locals.mem_value)] else [])
      ++ (if r.locals.branch_taken ≥ 0 then
        [TraceNote.branch (decide (r.locals.branch_taken ≠ 0))] else [])

/-- The state on entry to the loop of `simulate`: `init_register()`,
`pc = (uint32_t)start_addr`, `stats.insns = 0`, `jump_target = 0`. -/
def simulate_init (mem : memory) (start_addr : Int) (predictor : Option branch_predictor_t)
    (input : List Nat) : State :=
  { registers := init_register
    pc := u32 start_addr
    mem := mem
    predictor := predictor
    insns := 0
    jump_target := 0
    input := input
    output := []
    stderr := [] }

/-- `simulate`: the final state; its `insns` field is the returned `stats.insns`.
Every iteration adds one to `insns` and the loop is left once `insns` exceeds
100000000, so 100000001 iterations are always enough. -/
def simulate (mem : memory) (start_addr : Int) (predictor : Option branch_predictor_t)
    (input : List Nat) : State :=
  simulate_loop 100000001 (simulate_init mem start_addr predictor input)

/-- A memory image for concrete programs: the 32-bit words `words` stored little-endian
from address `base` upwards, every other byte 0. -/
def memory_of_words (base : Nat) (words : List Nat) : memory :=
  { bytes := fun a =>
      if a < base then 0
      else (words.getD ((a - base) / 4) 0 >>> (8 * ((a - base) % 4))) % 256 }

/-! ## Auxiliary facts about the predictor -/

theorem counter_update_le (c : Nat) (taken : Int) (h : c ≤ 3) : counter_update c taken ≤ 3 := by
  unfold counter_update
  split <;> split <;> omega

theorem counter_update_taken (c : Nat) (taken : Int) (h : c ≤ 3) (ht : taken ≠ 0) :
    counter_update c taken = min (c + 1) 3 := by
  unfold counter_update
  rw [if_pos ht]
  split <;> omega

theorem counter_update_not_taken (c : Nat) : counter_update c 0 = max (c - 1) 0 := by
  unfold counter_update
  simp only [ne_eq, not_true_eq_false, if_false]
  split <;> omega

theorem getD_le_of_forall_le (l : List Nat) (i : Nat) (h : ∀ c ∈ l, c ≤ 3) : l.getD i 0 ≤ 3 := by
  by_cases hi : i < l.length
  · rw [List.getD_eq_getElem l 0 hi]
    exact h _ (List.getElem_mem hi)
  · rw [List.getD_eq_default l 0 (Nat.le_of_not_lt hi)]
    omega

theorem set_forall_le (l : List Nat) (i v : Nat) (h : ∀ c ∈ l, c ≤ 3) (hv : v ≤ 3) :
    ∀ c ∈ l.set i v, c ≤ 3 := by
  intro c hc
  rcases List.mem_or_eq_of_mem_set hc with h1 | h1
  · exact h c h1
  · omega

theorem mask_eq (b : Nat) : (1 <<< b) - 1 = 2 ^ b - 1 := by
  rw [Nat.one_shiftLeft]

theorem and_mask_lt (x b : Nat) : x &&& ((1 <<< b) - 1) < 2 ^ b := by
  rw [mask_eq, Nat.and_pow_two_sub_one_eq_mod]
  exact Nat.mod_lt _ (Nat.two_pow_pos b)

/-- A call of `predictor_update` on a non-`NULL` record always yields a record,
and never changes the variant, the table size, the table length or `history_bits`. -/
theorem predictor_update_frame (p : branch_predictor_t) (pc target : Nat) (taken : Int) :
    ∃ q, predictor_update (some p) pc target taken = some q ∧ q.type = p.type
      ∧ q.table_size = p.table_size ∧ q.history_bits = p.history_bits
      ∧ q.table.length = p.table.length := by
  rcases p with ⟨ty, st, tb, ts, gh, hb⟩
  cases ty <;> simp [predictor_update]

/-- The effect of `predictor_update` on the two statistics counters. -/
theorem predictor_update_stats (p : branch_predictor_t) (pc target : Nat) (taken : Int)
    (hty : p.type ≠ PRED_NONE) :
    ∃ q, predictor_update (some p) pc target taken = some q
      ∧ q.type = p.type
      ∧ q.stats.total_branches = p.stats.total_branches + 1
      ∧ q.stats.mispredictions = p.stats.mispredictions
          + (if predictor_predict (some p) pc target ≠ taken then 1 else 0) := by
  rcases p with ⟨ty, st, tb, ts, gh, hb⟩
  cases ty <;> simp_all [predictor_update] <;> split <;> simp_all

/-- Induction over a sequence of calls: a property of records that every call
preserves holds after every sequence of calls. -/
theorem predictor_run_induct (P : branch_predictor_t → Prop)
    (hstep : ∀ p pc target taken, P p →
      ∃ q, predictor_update (some p) pc target taken = some q ∧ P q)
    (events : List BranchEvent) :
    ∀ p, P p → ∃ q, predictor_run (some p) events = some q ∧ P q := by
  induction events with
  | nil => intro p hp; exact ⟨p, rfl, hp⟩
  | cons e es ih =>
    intro p hp
    obtain ⟨q, hq, hPq⟩ := hstep p e.pc e.target e.taken hp
    obtain ⟨r, hr, hPr⟩ := ih q hPq
    refine ⟨r, ?_, hPr⟩
    simp only [predictor_run, List.foldl_cons] at hr ⊢
    rw [hq]
    exact hr

theorem predictor_run_cons (pred : Option branch_predictor_t) (e : BranchEvent)
    (es : List BranchEvent) :
    predictor_run pred (e :: es)
      = predictor_run (predictor_update pred e.pc e.target e.taken) es := by
  simp [predictor_run]

/-- Every call keeps all counters at most 3 and the table length unchanged. -/
theorem predictor_update_counters (p : branch_predictor_t) (pc target : Nat) (taken : Int)
    (h : ∀ c ∈ p.table, c ≤ 3) :
    ∃ q, predictor_update (some p) pc target taken = some q
      ∧ (∀ c ∈ q.table, c ≤ 3) := by
  rcases p with ⟨ty, st, tb, ts, gh, hb⟩
  have key : ∀ i, ∀ c ∈ tb.set i (counter_update (tb.getD i 0) taken), c ≤ 3 := fun i =>
    set_forall_le tb i _ h (counter_update_le _ _ (getD_le_of_forall_le tb i h))
  simp only [List.getD_eq_getElem?_getD] at key
  simp only at h
  cases ty <;> simp [predictor_update] <;> first | exact h | exact key _

/-- Every call keeps the global history below `2 ^ history_bits`. -/
theorem predictor_update_history (p : branch_predictor_t) (pc target : Nat) (taken : Int)
    (h : p.global_history < 2 ^ p.history_bits) :
    ∃ q, predictor_update (some p) pc target taken = some q
      ∧ q.global_history < 2 ^ q.history_bits := by
  rcases p with ⟨ty, st, tb, ts, gh, hb⟩
  simp only at h
  cases ty <;> simp [predictor_update] <;> first | exact h | exact and_mask_lt _ _

theorem predictor_create_table (type : predictor_type_t) :
    (predictor_create type).table.length = get_table_size type
      ∧ (∀ c ∈ (predictor_create type).table, c = 2)
      ∧ (predictor_create type).table_size = get_table_size type
      ∧ (predictor_create type).type = type
      ∧ (predictor_create type).global_history = 0
      ∧ (predictor_create type).stats.total_branches = 0
      ∧ (predictor_create type).stats.mispredictions = 0 := by
  unfold predictor_create
  by_cases h : get_table_size type > 0
  · rw [if_pos h]
    exact ⟨List.length_replicate _ _, fun c hc => (List.mem_replicate.mp hc).2,
      rfl, rfl, rfl, rfl, rfl⟩
  · rw [if_neg h]
    have h0 : get_table_size type = 0 := by omega
    exact ⟨h0.symm, fun c hc => absurd hc (List.not_mem_nil c), h0.symm, rfl, rfl, rfl, rfl⟩

theorem predictor_update_none_type (p : branch_predictor_t) (pc target : Nat) (taken : Int)
    (hty : p.type = PRED_NONE) : predictor_update (some p) pc target taken = some p := by
  simp [predictor_update, hty]

/-- C2: for every variant other than None, every predictor record and every pc, target and
outcome, `predictor_update` adds exactly 1 to `total_branches`, and adds exactly 1 to
`mispredictions` if `predictor_predict` on the record before the call differs from the
outcome and leaves `mispredictions` unchanged otherwise. -/
theorem predictor_update_counts (p : branch_predictor_t) (pc target : Nat) (taken : Int)
    (hty : p.type ≠ PRED_NONE) :
    ∃ q, predictor_update (some p) pc target taken = some q
      ∧ q.stats.total_branches = p.stats.total_branches + 1
      ∧ (predictor_predict (some p) pc target ≠ taken →
          q.stats.mispredictions = p.stats.mispredictions + 1)
      ∧ (predictor_predict (some p) pc target = taken →
          q.stats.mispredictions = p.stats.mispredictions) := by
  obtain ⟨q, hq, -, htot, hmis⟩ := predictor_update_stats p pc target taken hty
  refine ⟨q, hq, htot, ?_, ?_⟩
  · intro hne
    rw [hmis, if_pos hne]
  · intro heq
    rw [hmis, if_neg (not_not.mpr heq), Nat.add_zero]

theorem predictor_update_counts_witness :
    (predictor_create PRED_BIMODAL_256).type ≠ PRED_NONE
      ∧ ∃ q, predictor_update (some (predictor_create PRED_BIMODAL_256)) 0x10074 0x10060 0
            = some q
          ∧ q.stats.total_branches = (predictor_create PRED_BIMODAL_256).stats.total_branches + 1
          ∧ (predictor_predict (some (predictor_create PRED_BIMODAL_256)) 0x10074 0x10060 ≠ 0 →
              q.stats.mispredictions
                = (predictor_create PRED_BIMODAL_256).stats.mispredictions + 1)
          ∧ (predictor_predict (some (predictor_create PRED_BIMODAL_256)) 0x10074 0x10060 = 0 →
              q.stats.mispredictions
                = (predictor_create PRED_BIMODAL_256).stats.mispredictions) :=
  ⟨by decide, predictor_update_counts (predictor_create PRED_BIMODAL_256) 0x10074 0x10060 0
    (by decide)⟩

/-- C3: after every finite sequence of `predictor_update` calls on a predictor returned by
`predictor_create`, the counter table still has its `get_table_size` entries (256, 1024,
4096 or 16384 for the bimodal and gshare variants) and every entry is at most 3, that is,
one of 0, 1, 2, 3. -/
theorem counters_in_range (type : predictor_type_t) (events : List BranchEvent) :
    ∃ q, predictor_run (some (predictor_create type)) events = some q
      ∧ q.table.length = get_table_size type
      ∧ ∀ c ∈ q.table, c ≤ 3 := by
  refine predictor_run_induct
    (fun q => q.table.length = get_table_size type ∧ ∀ c ∈ q.table, c ≤ 3) ?_ events
    (predictor_create type) ?_
  · intro p pc target taken hp
    obtain ⟨q, hq, -, -, -, hlen⟩ := predictor_update_frame p pc target taken
    obtain ⟨q2, hq2, hc⟩ := predictor_update_counters p pc target taken hp.2
    rw [hq] at hq2
    cases hq2
    exact ⟨q, hq, hlen.trans hp.1, hc⟩
  · obtain ⟨h1, h2, -⟩ := predictor_create_table type
    exact ⟨h1, fun c hc => by rw [h2 c hc]; omega⟩

/-- C4: for each of the eleven variants, after every finite sequence of `predictor_update`
calls on the predictor returned by `predictor_create`, `mispredictions <= total_branches`. -/
theorem mispredictions_le_total (type : predictor_type_t) (events : List BranchEvent) :
    ∃ q, predictor_run (some (predictor_create type)) events = some q
      ∧ q.stats.mispredictions ≤ q.stats.total_branches := by
  refine predictor_run_induct
    (fun q => q.stats.mispredictions ≤ q.stats.total_branches) ?_ events
    (predictor_create type) ?_
  · intro p pc target taken hp
    by_cases hty : p.type = PRED_NONE
    · exact ⟨p, predictor_update_none_type p pc target taken hty, hp⟩
    · obtain ⟨q, hq, -, htot, hmis⟩ := predictor_update_stats p pc target taken hty
      refine ⟨q, hq, ?_⟩
      show q.stats.mispredictions ≤ q.stats.total_branches
      rw [htot, hmis]
      split <;> omega
  · obtain ⟨-, -, -, -, -, h1, h2⟩ := predictor_create_table type
    show (predictor_create type).stats.mispredictions
      ≤ (predictor_create type).stats.total_branches
    omega

/-- A gshare predictor whose history is below `2 ^ history_bits` keeps `history_bits` and
that bound through every sequence of calls. -/
theorem predictor_run_history (p : branch_predictor_t) (events : List BranchEvent)
    (h : p.global_history < 2 ^ p.history_bits) :
    ∃ q, predictor_run (some p) events = some q
      ∧ q.history_bits = p.history_bits
      ∧ q.global_history < 2 ^ q.history_bits := by
  refine predictor_run_induct
    (fun q => q.history_bits = p.history_bits ∧ q.global_history < 2 ^ q.history_bits)
    ?_ events p ⟨rfl, h⟩
  intro r pc target taken hr
  obtain ⟨q, hq, -, -, hbits, -⟩ := predictor_update_frame r pc target taken
  obtain ⟨q2, hq2, hlt⟩ := predictor_update_history r pc target taken hr.2
  rw [hq] at hq2
  cases hq2
  exact ⟨q, hq, hbits.trans hr.1, hlt⟩

theorem testBit_false_of_lt_two_pow (x b : Nat) (h : x < 2 ^ b) (i : Nat) (hi : b ≤ i) :
    x.testBit i = false :=
  Nat.testBit_lt_two_pow (lt_of_lt_of_le h (Nat.pow_le_pow_right (by decide) hi))

/-- C5: for each of gshare-256, gshare-1K, gshare-4K and gshare-16K, after every finite
sequence of `predictor_update` calls on the predictor returned by `predictor_create`,
`history_bits` is 8, 10, 12, 14 respectively, the global history register is below the
table size 256, 1024, 4096, 16384, and all its bits at positions `>= history_bits` are 0. -/
theorem gshare_history_bounded (events : List BranchEvent) :
    (∃ q, predictor_run (some (predictor_create PRED_GSHARE_256)) events = some q
        ∧ q.history_bits = 8 ∧ q.table_size = 256 ∧ q.global_history < 256
        ∧ ∀ i, 8 ≤ i → q.global_history.testBit i = false)
    ∧ (∃ q, predictor_run (some (predictor_create PRED_GSHARE_1K)) events = some q
        ∧ q.history_bits = 10 ∧ q.table_size = 1024 ∧ q.global_history < 1024
        ∧ ∀ i, 10 ≤ i → q.global_history.testBit i = false)
    ∧ (∃ q, predictor_run (some (predictor_create PRED_GSHARE_4K)) events = some q
        ∧ q.history_bits = 12 ∧ q.table_size = 4096 ∧ q.global_history < 4096
        ∧ ∀ i, 12 ≤ i → q.global_history.testBit i = false)
    ∧ (∃ q, predictor_run (some (predictor_create PRED_GSHARE_16K)) events = some q
        ∧ q.history_bits = 14 ∧ q.table_size = 16384 ∧ q.global_history < 16384
        ∧ ∀ i, 14 ≤ i → q.global_history.testBit i = false) := by
  have key : ∀ (type : predictor_type_t) (b : Nat),
      (predictor_create type).history_bits = b →
      (predictor_create type).global_history = 0 →
      ∃ q, predictor_run (some (predictor_create type)) events = some q
        ∧ q.history_bits = b ∧ q.table_size = (predictor_create type).table_size
        ∧ q.global_history < 2 ^ b
        ∧ ∀ i, b ≤ i → q.global_history.testBit i = false := by
    intro type b hb h0
    obtain ⟨q, hq, hbits, hlt⟩ := predictor_run_history (predictor_create type) events
      (by rw [h0]; exact Nat.two_pow_pos _)
    obtain ⟨q2, hq2, hsz⟩ := predictor_run_induct
      (fun r => r.table_size = (predictor_create type).table_size)
      (fun r pc target taken hr => by
        obtain ⟨r2, hr2, -, hts, -, -⟩ := predictor_update_frame r pc target taken
        exact ⟨r2, hr2, hts.trans hr⟩) events (predictor_create type) rfl
    rw [hq] at hq2
    cases hq2
    rw [hbits, hb] at hlt
    exact ⟨q, hq, hbits.trans hb, hsz, hlt, testBit_false_of_lt_two_pow _ _ hlt⟩
  refine ⟨?_, ?_, ?_, ?_⟩
  · exact key PRED_GSHARE_256 8 (by decide) (by decide)
  · exact key PRED_GSHARE_1K 10 (by decide) (by decide)
  · exact key PRED_GSHARE_4K 12 (by decide) (by decide)
  · exact key PRED_GSHARE_16K 14 (by decide) (by decide)

theorem getD_set_self (l : List Nat) (i v : Nat) (h : i < l.length) :
    (l.set i v).getD i 0 = v := by
  simp [List.getD_eq_getElem?_getD, List.getElem?_set, h]

theorem getD_set_ne (l : List Nat) (i j v : Nat) (h : j ≠ i) :
    (l.set i v).getD j 0 = l.getD j 0 := by
  simp [List.getD_eq_getElem?_getD, List.getElem?_set, Ne.symm h]

theorem predictor_predict_bimodal (p : branch_predictor_t) (pc target : Nat)
    (hty : is_bimodal p.type) :
    predictor_predict (some p) pc target
      = if p.table.getD (pc % p.table_size) 0 ≥ 2 then 1 else 0 := by
  rcases p with ⟨ty, st, tb, ts, gh, hb⟩
  simp only [is_bimodal] at hty
  rcases hty with h | h | h | h <;> subst h <;> simp [predictor_predict]

theorem predictor_update_bimodal (p : branch_predictor_t) (pc target : Nat) (taken : Int)
    (hty : is_bimodal p.type) :
    ∃ q, predictor_update (some p) pc target taken = some q
      ∧ q.table = p.table.set (pc % p.table_size)
          (counter_update (p.table.getD (pc % p.table_size) 0) taken)
      ∧ q.global_history = p.global_history := by
  rcases p with ⟨ty, st, tb, ts, gh, hb⟩
  simp only [is_bimodal] at hty
  rcases hty with h | h | h | h <;> subst h <;> simp [predictor_update]

theorem predictor_predict_gshare (p : branch_predictor_t) (pc target : Nat)
    (hty : is_gshare p.type) :
    predictor_predict (some p) pc target
      = if p.table.getD (gshare_index p pc) 0 ≥ 2 then 1 else 0 := by
  rcases p with ⟨ty, st, tb, ts, gh, hb⟩
  simp only [is_gshare] at hty
  rcases hty with h | h | h | h <;> subst h <;> simp [predictor_predict]

theorem predictor_update_gshare (p : branch_predictor_t) (pc target : Nat) (taken : Int)
    (hty : is_gshare p.type) :
    ∃ q, predictor_update (some p) pc target taken = some q
      ∧ q.table = p.table.set (gshare_index p pc)
          (counter_update (p.table.getD (gshare_index p pc) 0) taken)
      ∧ q.global_history
          = (((p.global_history <<< 1) % 2 ^ 32) ||| (if taken ≠ 0 then 1 else 0))
              &&& ((1 <<< p.history_bits) - 1) := by
  rcases p with ⟨ty, st, tb, ts, gh, hb⟩
  simp only [is_gshare] at hty
  rcases hty with h | h | h | h <;> subst h <;> simp [predictor_update, gshare_index]

/-- C6: for a bimodal predictor whose table has `table_size > 0` entries, all in 0..3, and
every pc, target and outcome: `predictor_predict` returns 1 (taken) iff the counter at
`pc mod table_size` is at least 2 and returns 0 otherwise; `predictor_update` replaces that
counter `c` by `min (c + 1) 3` when the outcome is taken and by `max (c - 1) 0` when it is
not taken (so 3 stays 3 on taken and 0 stays 0 on not taken), and leaves every other table
entry, the table length and the global history register unchanged. -/
theorem bimodal_step_semantics (p : branch_predictor_t) (pc target : Nat) (taken : Int)
    (hty : is_bimodal p.type) (hpos : 0 < p.table_size)
    (hlen : p.table.length = p.table_size) (hc : ∀ c ∈ p.table, c ≤ 3) :
    (predictor_predict (some p) pc target = 1 ↔ p.table.getD (pc % p.table_size) 0 ≥ 2)
    ∧ (predictor_predict (some p) pc target = 0 ↔ p.table.getD (pc % p.table_size) 0 < 2)
    ∧ ∃ q, predictor_update (some p) pc target taken = some q
        ∧ (taken ≠ 0 → ((q.table.getD (pc % p.table_size) 0 : Nat) : Int)
            = min (((p.table.getD (pc % p.table_size) 0 : Nat) : Int) + 1) 3)
        ∧ (taken = 0 → ((q.table.getD (pc % p.table_size) 0 : Nat) : Int)
            = max (((p.table.getD (pc % p.table_size) 0 : Nat) : Int) - 1) 0)
        ∧ (taken ≠ 0 → p.table.getD (pc % p.table_size) 0 = 3 →
            q.table.getD (pc % p.table_size) 0 = 3)
        ∧ (taken = 0 → p.table.getD (pc % p.table_size) 0 = 0 →
            q.table.getD (pc % p.table_size) 0 = 0)
        ∧ (∀ j, j ≠ pc % p.table_size → q.table.getD j 0 = p.table.getD j 0)
        ∧ q.table.length = p.table.length
        ∧ q.global_history = p.global_history := by
  have hidx : pc % p.table_size < p.table.length := by
    rw [hlen]; exact Nat.mod_lt _ hpos
  have hle := getD_le_of_forall_le p.table (pc % p.table_size) hc
  refine ⟨?_, ?_, ?_⟩
  · rw [predictor_predict_bimodal p pc target hty]
    split <;> simp_all
  · rw [predictor_predict_bimodal p pc target hty]
    split <;> simp_all
  · obtain ⟨q, hq, htab, hgh⟩ := predictor_update_bimodal p pc target taken hty
    refine ⟨q, hq, ?_, ?_, ?_, ?_, ?_, ?_, hgh⟩
    · intro ht
      rw [htab, getD_set_self _ _ _ hidx, counter_update_taken _ _ hle ht]
      omega
    · intro ht
      rw [htab, getD_set_self _ _ _ hidx, ht, counter_update_not_taken]
      omega
    · intro ht h3
      rw [htab, getD_set_self _ _ _ hidx, counter_update_taken _ _ hle ht, h3]
      rfl
    · intro ht h0
      rw [htab, getD_set_self _ _ _ hidx, ht, counter_update_not_taken, h0]
      rfl
    · intro j hj
      rw [htab, getD_set_ne _ _ _ _ hj]
    · rw [htab, List.length_set]

theorem bimodal_step_semantics_witness :
    is_bimodal (predictor_create PRED_BIMODAL_256).type
      ∧ 0 < (predictor_create PRED_BIMODAL_256).table_size
      ∧ (predictor_create PRED_BIMODAL_256).table.length
          = (predictor_create PRED_BIMODAL_256).table_size
      ∧ (∀ c ∈ (predictor_create PRED_BIMODAL_256).table, c ≤ 3)
      ∧ (predictor_predict (some (predictor_create PRED_BIMODAL_256)) 0x10074 0x10060 = 1
          ↔ (predictor_create PRED_BIMODAL_256).table.getD
              (0x10074 % (predictor_create PRED_BIMODAL_256).table_size) 0 ≥ 2) :=
  have hlen : (predictor_create PRED_BIMODAL_256).table.length
      = (predictor_create PRED_BIMODAL_256).table_size :=
    (predictor_create_table PRED_BIMODAL_256).1.trans
      (predictor_create_table PRED_BIMODAL_256).2.2.1.symm
  have hc : ∀ c ∈ (predictor_create PRED_BIMODAL_256).table, c ≤ 3 := fun c h =>
    le_of_eq_of_le ((predictor_create_table PRED_BIMODAL_256).2.1 c h) (by decide)
  ⟨by decide, by decide, hlen, hc,
    (bimodal_step_semantics (predictor_create PRED_BIMODAL_256) 0x10074 0x10060 1
      (by decide) (by decide) hlen hc).1⟩

/-- With `table_size = 2 ^ history_bits` and the history below the table size, the gshare
index is the XOR itself: both masks act as `mod 2 ^ history_bits` and the final
`% table_size` changes nothing. -/
theorem gshare_index_eq (p : branch_predictor_t) (pc : Nat)
    (hb : 2 ^ p.history_bits = p.table_size) (hg : p.global_history < p.table_size) :
    gshare_index p pc = ((pc >>> 2) % 2 ^ p.history_bits) ^^^ p.global_history
      ∧ gshare_index p pc < p.table_size := by
  have h1 : (pc >>> 2) &&& ((1 <<< p.history_bits) - 1) = (pc >>> 2) % 2 ^ p.history_bits := by
    rw [mask_eq, Nat.and_pow_two_sub_one_eq_mod]
  have h2 : p.global_history &&& ((1 <<< p.history_bits) - 1) = p.global_history := by
    rw [mask_eq, Nat.and_pow_two_sub_one_eq_mod, Nat.mod_eq_of_lt (by rw [hb]; exact hg)]
  have h3 : ((pc >>> 2) % 2 ^ p.history_bits) ^^^ p.global_history < 2 ^ p.history_bits :=
    Nat.xor_lt_two_pow (Nat.mod_lt _ (Nat.two_pow_pos _)) (by rw [hb]; exact hg)
  have h4 : gshare_index p pc = ((pc >>> 2) % 2 ^ p.history_bits) ^^^ p.global_history := by
    unfold gshare_index
    simp only [h1, h2]
    rw [← hb]
    exact Nat.mod_eq_of_lt h3
  exact ⟨h4, by rw [h4, ← hb]; exact h3⟩

/-- C7: for a gshare predictor with `table_size = 2 ^ history_bits` entries, all in 0..3,
`history_bits < 32` and the history register below the table size, and every pc, target and
outcome: with `i = ((pc >> 2) mod 2 ^ history_bits) XOR GHR` (GHR before the call),
`i < table_size`; `predictor_predict` returns 1 iff counter `i` is at least 2;
`predictor_update` replaces counter `i` = `c` by `min (c + 1) 3` on taken and by
`max (c - 1) 0` on not taken, leaves every other counter unchanged, and sets GHR to
`((GHR << 1) | t) mod 2 ^ history_bits` where `t` is 1 on taken and 0 on not taken. -/
theorem gshare_step_semantics (p : branch_predictor_t) (pc target : Nat) (taken : Int)
    (hty : is_gshare p.type) (hb : 2 ^ p.history_bits = p.table_size)
    (hb32 : p.history_bits < 32) (hlen : p.table.length = p.table_size)
    (hg : p.global_history < p.table_size) (hc : ∀ c ∈ p.table, c ≤ 3) :
    ((pc >>> 2) % 2 ^ p.history_bits) ^^^ p.global_history < p.table_size
    ∧ (predictor_predict (some p) pc target = 1 ↔
        p.table.getD (((pc >>> 2) % 2 ^ p.history_bits) ^^^ p.global_history) 0 ≥ 2)
    ∧ (predictor_predict (some p) pc target = 0 ↔
        p.table.getD (((pc >>> 2) % 2 ^ p.history_bits) ^^^ p.global_history) 0 < 2)
    ∧ ∃ q, predictor_update (some p) pc target taken = some q
        ∧ (taken ≠ 0 →
            ((q.table.getD (((pc >>> 2) % 2 ^ p.history_bits) ^^^ p.global_history) 0 : Nat)
              : Int)
            = min (((p.table.getD (((pc >>> 2) % 2 ^ p.history_bits) ^^^ p.global_history) 0
                : Nat) : Int) + 1) 3)
        ∧ (taken = 0 →
            ((q.table.getD (((pc >>> 2) % 2 ^ p.history_bits) ^^^ p.global_history) 0 : Nat)
              : Int)
            = max (((p.table.getD (((pc >>> 2) % 2 ^ p.history_bits) ^^^ p.global_history) 0
                : Nat) : Int) - 1) 0)
        ∧ (∀ j, j ≠ ((pc >>> 2) % 2 ^ p.history_bits) ^^^ p.global_history →
            q.table.getD j 0 = p.table.getD j 0)
        ∧ q.table.length = p.table.length
        ∧ q.global_history
            = ((p.global_history <<< 1) ||| (if taken ≠ 0 then 1 else 0))
                % 2 ^ p.history_bits := by
  obtain ⟨hi, hilt⟩ := gshare_index_eq p pc hb hg
  rw [hi] at hilt
  have hidx : ((pc >>> 2) % 2 ^ p.history_bits) ^^^ p.global_history < p.table.length := by
    rw [hlen]; exact hilt
  have hle := getD_le_of_forall_le p.table
    (((pc >>> 2) % 2 ^ p.history_bits) ^^^ p.global_history) hc
  refine ⟨hilt, ?_, ?_, ?_⟩
  · rw [predictor_predict_gshare p pc target hty, hi]
    split <;> simp_all
  · rw [predictor_predict_gshare p pc target hty, hi]
    split <;> simp_all
  · obtain ⟨q, hq, htab, hgh⟩ := predictor_update_gshare p pc target taken hty
    rw [hi] at htab
    refine ⟨q, hq, ?_, ?_, ?_, ?_, ?_⟩
    · intro ht
      rw [htab, getD_set_self _ _ _ hidx, counter_update_taken _ _ hle ht]
      omega
    · intro ht
      rw [htab, getD_set_self _ _ _ hidx, ht, counter_update_not_taken]
      omega
    · intro j hj
      rw [htab, getD_set_ne _ _ _ _ hj]
    · rw [htab, List.length_set]
    · rw [hgh, mask_eq, Nat.and_pow_two_sub_one_eq_mod]
      have hsmall : p.global_history <<< 1 < 2 ^ 32 := by
        rw [Nat.shiftLeft_eq, pow_one]
        have h31 : 2 ^ p.history_bits ≤ 2 ^ 31 :=
          Nat.pow_le_pow_right (by decide) (by omega)
        have : p.global_history < 2 ^ p.history_bits := by rw [hb]; exact hg
        omega
      rw [Nat.mod_eq_of_lt hsmall]

theorem gshare_step_semantics_witness :
    is_gshare (predictor_create PRED_GSHARE_256).type
      ∧ 2 ^ (predictor_create PRED_GSHARE_256).history_bits
          = (predictor_create PRED_GSHARE_256).table_size
      ∧ (predictor_create PRED_GSHARE_256).history_bits < 32
      ∧ (predictor_create PRED_GSHARE_256).table.length
          = (predictor_create PRED_GSHARE_256).table_size
      ∧ (predictor_create PRED_GSHARE_256).global_history
          < (predictor_create PRED_GSHARE_256).table_size
      ∧ (∀ c ∈ (predictor_create PRED_GSHARE_256).table, c ≤ 3)
      ∧ ((0x10074 >>> 2) % 2 ^ (predictor_create PRED_GSHARE_256).history_bits)
            ^^^ (predictor_create PRED_GSHARE_256).global_history
          < (predictor_create PRED_GSHARE_256).table_size :=
  have hlen : (predictor_create PRED_GSHARE_256).table.length
      = (predictor_create PRED_GSHARE_256).table_size :=
    (predictor_create_table PRED_GSHARE_256).1.trans
      (predictor_create_table PRED_GSHARE_256).2.2.1.symm
  have hc : ∀ c ∈ (predictor_create PRED_GSHARE_256).table, c ≤ 3 := fun c h =>
    le_of_eq_of_le ((predictor_create_table PRED_GSHARE_256).2.1 c h) (by decide)
  ⟨by decide, by decide, by decide, hlen, by decide, hc,
    (gshare_step_semantics (predictor_create PRED_GSHARE_256) 0x10074 0x10060 1
      (by decide) (by decide) (by decide) hlen (by decide) hc).1⟩

theorem predictor_predict_btfnt (p : branch_predictor_t) (pc target : Nat)
    (hty : p.type = PRED_BTFNT) :
    predictor_predict (some p) pc target = if target < pc then 1 else 0 := by
  simp [predictor_predict, hty]

theorem predictor_predict_nt (p : branch_predictor_t) (pc target : Nat)
    (hty : p.type = PRED_NT) : predictor_predict (some p) pc target = 0 := by
  simp [predictor_predict, hty]

/-- Counting law for a variant whose prediction is a fixed function `f` of pc and target:
after a sequence of calls the counters have grown by the number of calls and by the number
of calls whose outcome differs from `f pc target`. -/
theorem predictor_run_static (type : predictor_type_t) (f : Nat → Nat → Int)
    (hne : type ≠ PRED_NONE)
    (hf : ∀ p pc target, p.type = type → predictor_predict (some p) pc target = f pc target)
    (events : List BranchEvent) :
    ∀ p, p.type = type →
      ∃ q, predictor_run (some p) events = some q ∧ q.type = type
        ∧ q.stats.total_branches = p.stats.total_branches + events.length
        ∧ q.stats.mispredictions = p.stats.mispredictions
            + events.countP (fun e => decide (f e.pc e.target ≠ e.taken)) := by
  induction events with
  | nil => intro p hp; exact ⟨p, rfl, hp, rfl, rfl⟩
  | cons e es ih =>
    intro p hp
    obtain ⟨q, hq, hqt, htot, hmis⟩ :=
      predictor_update_stats p e.pc e.target e.taken (by rw [hp]; exact hne)
    obtain ⟨r, hr, hrt, hrtot, hrmis⟩ := ih q (hqt.trans hp)
    refine ⟨r, ?_, hrt, ?_, ?_⟩
    · rw [predictor_run_cons, hq]; exact hr
    · rw [hrtot, htot, List.length_cons]; omega
    · rw [hrmis, hmis, hf p e.pc e.target hp, List.countP_cons]
      by_cases h : f e.pc e.target ≠ e.taken
      · rw [if_pos h, if_pos (decide_eq_true h)]; omega
      · rw [if_neg h, if_neg (by rw [decide_eq_true_eq]; exact h)]; omega

/-- C8: BTFNT is stateless.  Every BTFNT record predicts taken (1) iff `target < pc`,
whatever its other fields; after every sequence of `predictor_update` calls on the BTFNT
predictor returned by `predictor_create` this is still the prediction for every pc and
target, `total_branches` is the number of calls, and `mispredictions` is the number of calls
whose outcome differs from `(target < pc)`; if all calls are taken with `target < pc`,
`mispredictions` is 0 (for instance after 10 taken backward branches). -/
theorem btfnt_stateless (events : List BranchEvent) :
    (∀ (p : branch_predictor_t) (pc target : Nat), p.type = PRED_BTFNT →
        predictor_predict (some p) pc target = if target < pc then 1 else 0)
    ∧ (∃ q, predictor_run (some (predictor_create PRED_BTFNT)) events = some q
        ∧ (∀ pc target, predictor_predict (some q) pc target = if target < pc then 1 else 0)
        ∧ q.stats.total_branches = events.length
        ∧ q.stats.mispredictions
            = events.countP (fun e => decide ((if e.target < e.pc then (1 : Int) else 0) ≠ e.taken))
        ∧ ((∀ e ∈ events, e.taken = 1 ∧ e.target < e.pc) → q.stats.mispredictions = 0)) := by
  refine ⟨predictor_predict_btfnt, ?_⟩
  obtain ⟨q, hq, hqt, htot, hmis⟩ := predictor_run_static PRED_BTFNT
    (fun pc target => if target < pc then 1 else 0) (by decide)
    predictor_predict_btfnt events (predictor_create PRED_BTFNT) rfl
  have h0 : (predictor_create PRED_BTFNT).stats.total_branches = 0 := rfl
  have h1 : (predictor_create PRED_BTFNT).stats.mispredictions = 0 := rfl
  rw [h0, Nat.zero_add] at htot
  rw [h1, Nat.zero_add] at hmis
  refine ⟨q, hq, fun pc target => predictor_predict_btfnt q pc target hqt, htot, hmis, ?_⟩
  intro hall
  rw [hmis, List.countP_eq_zero]
  intro e he
  obtain ⟨ht, hlt⟩ := hall e he
  simp [ht, hlt]

theorem btfnt_stateless_witness :
    predictor_predict (some (predictor_create PRED_BTFNT)) 0x10074 0x10060 = 1 :=
  (btfnt_stateless []).1 (predictor_create PRED_BTFNT) 0x10074 0x10060 rfl

/-- C9: for the NT predictor returned by `predictor_create` and every finite sequence of
`predictor_update` calls, `total_branches` is the length of the sequence and
`mispredictions` is the number of calls whose outcome is taken (non-zero; with outcomes in
0, 1: equal to 1).  Ten taken branches give `mispredictions = 10`. -/
theorem nt_mispredictions (events : List BranchEvent) :
    ∃ q, predictor_run (some (predictor_create PRED_NT)) events = some q
      ∧ q.stats.total_branches = events.length
      ∧ q.stats.mispredictions = events.countP (fun e => decide (e.taken ≠ 0))
      ∧ ((∀ e ∈ events, e.taken = 0 ∨ e.taken = 1) →
          q.stats.mispredictions = events.countP (fun e => decide (e.taken = 1)))
      ∧ ((∀ e ∈ events, e.taken = 1) → events.length = 10 → q.stats.mispredictions = 10) := by
  obtain ⟨q, hq, hqt, htot, hmis⟩ := predictor_run_static PRED_NT
    (fun _ _ => 0) (by decide) predictor_predict_nt events (predictor_create PRED_NT) rfl
  have h0 : (predictor_create PRED_NT).stats.total_branches = 0 := rfl
  have h1 : (predictor_create PRED_NT).stats.mispredictions = 0 := rfl
  rw [h0, Nat.zero_add] at htot
  rw [h1, Nat.zero_add] at hmis
  have hmis2 : q.stats.mispredictions = events.countP (fun e => decide (e.taken ≠ 0)) := by
    rw [hmis]
    apply List.countP_congr
    intro e _
    by_cases h : e.taken = 0
    · simp [h]
    · have h2 : ¬ (0 = e.taken) := fun h3 => h h3.symm
      simp [h, h2]
  refine ⟨q, hq, htot, hmis2, ?_, ?_⟩
  · intro h01
    rw [hmis2]
    apply List.countP_congr
    intro e he
    rcases h01 e he with h | h <;> simp [h]
  · intro hall hlen
    rw [hmis2, ← hlen, List.countP_eq_length]
    intro e he
    simp [hall e he]

/-- C10 fails as stated: on the None predictor one `predictor_update` call with outcome
taken (pc 0x10074, target 0x10060) leaves `mispredictions` at 0, while the number of taken
calls in the sequence is 1. -/
theorem none_mispredictions_counterexample :
    ∃ q, predictor_run (some (predictor_create PRED_NONE)) [⟨0x10074, 0x10060, 1⟩] = some q
      ∧ q.stats.mispredictions = 0
      ∧ List.countP (fun e => decide (e.taken ≠ 0)) [(⟨0x10074, 0x10060, 1⟩ : BranchEvent)] = 1
      ∧ q.stats.mispredictions
          ≠ List.countP (fun e => decide (e.taken ≠ 0)) [(⟨0x10074, 0x10060, 1⟩ : BranchEvent)] :=
  ⟨predictor_create PRED_NONE, by decide, by decide, by decide, by decide⟩

/-- C10 as amended: for the None predictor returned by `predictor_create`, every finite
sequence of `predictor_update` calls returns at the `PRED_NONE` guard each time and leaves
the record exactly as created, so `total_branches` and `mispredictions` both stay 0
whatever the outcomes are. -/
theorem none_predictor_unchanged (events : List BranchEvent) :
    predictor_run (some (predictor_create PRED_NONE)) events
        = some (predictor_create PRED_NONE)
      ∧ (predictor_create PRED_NONE).stats.total_branches = 0
      ∧ (predictor_create PRED_NONE).stats.mispredictions = 0 := by
  refine ⟨?_, rfl, rfl⟩
  induction events with
  | nil => rfl
  | cons e es ih =>
    rw [predictor_run_cons, predictor_update_none_type _ _ _ _ rfl]
    exact ih

/-! ## Register 0 -/

theorem write_register_zero (registers : Nat → Int) (reg : Nat) (value : Int) :
    write_register registers reg value 0 = registers 0 := by
  unfold write_register
  split
  · rename_i h
    have h0 : ¬ (0 = reg) := fun h1 => h.1 h1.symm
    simp [h0]
  · rfl

theorem execute_r_type_zero (registers : Nat → Int) (rd rs1 rs2 funct3 funct7 : Nat) :
    execute_r_type registers rd rs1 rs2 funct3 funct7 0 = registers 0 := by
  unfold execute_r_type
  exact write_register_zero _ _ _

theorem execute_i_type_alu_zero (registers : Nat → Int) (rd rs1 funct3 : Nat) (imm : Int)
    (funct7 : Nat) : execute_i_type_alu registers rd rs1 funct3 imm funct7 0 = registers 0 := by
  unfold execute_i_type_alu
  exact write_register_zero _ _ _

theorem execute_load_zero (registers : Nat → Int) (mem : memory) (rd rs1 funct3 : Nat)
    (imm : Int) : execute_load registers mem rd rs1 funct3 imm 0 = registers 0 := by
  unfold execute_load
  exact write_register_zero _ _ _

theorem handle_ecall_zero (s : State) : (handle_ecall s).1.registers 0 = s.registers 0 := by
  unfold handle_ecall
  simp only []
  split
  · dsimp only
    exact write_register_zero _ _ _
  · split
    · rfl
    · split <;> rfl

theorem step_finish_registers (s : State) (l : StepLocals) :
    (step_finish s l).state.registers = s.registers := by
  unfold step_finish
  split <;> rfl

/-- One loop iteration never changes what `registers[0]` holds. -/
theorem step_registers_zero (s : State) : (step s).state.registers 0 = s.registers 0 := by
  unfold step
  simp only []
  split
  case h_10 =>
    split
    · split
      · exact handle_ecall_zero _
      · rw [step_finish_registers]; exact handle_ecall_zero _
    · rw [step_finish_registers]
  case h_1 => rw [step_finish_registers]; exact execute_r_type_zero _ _ _ _ _ _
  case h_2 => rw [step_finish_registers]; exact execute_i_type_alu_zero _ _ _ _ _ _
  case h_3 => rw [step_finish_registers]; exact execute_load_zero _ _ _ _ _ _
  case h_4 => rw [step_finish_registers]
  case h_5 => rw [step_finish_registers]
  case h_6 => rw [step_finish_registers]; exact write_register_zero _ _ _
  case h_7 => rw [step_finish_registers]; exact write_register_zero _ _ _
  case h_8 => rw [step_finish_registers]; exact write_register_zero _ _ _
  case h_9 => rw [step_finish_registers]; exact write_register_zero _ _ _
  case h_11 => rfl

theorem simulate_loop_registers_zero (n : Nat) :
    ∀ s : State, (simulate_loop n s).registers 0 = s.registers 0 := by
  induction n with
  | zero => intro s; rfl
  | succ n ih =>
    intro s
    unfold simulate_loop
    simp only []
    split
    · rw [ih, step_registers_zero]
    · rw [step_registers_zero]

theorem read_register_zero (registers : Nat → Int) : read_register registers 0 = registers 0 := by
  simp [read_register]

/-- C1: register 0 invariant.  For every state whose `registers[0]` is 0 (any memory, hence
any fetched instruction word, and any PC), after one loop iteration of `simulate`
`read_register(0)` is still 0; consequently, in every run started by `simulate` (registers
initialised by `init_register`), `read_register(0)` is 0 after any number of iterations and
in the final state. -/
theorem register_zero_invariant :
    (∀ s : State, s.registers 0 = 0 → read_register (step s).state.registers 0 = 0)
    ∧ (∀ (mem : memory) (start_addr : Int) (predictor : Option branch_predictor_t)
        (input : List Nat) (n : Nat),
        read_register (simulate_loop n (simulate_init mem start_addr predictor input)).registers 0
          = 0)
    ∧ (∀ (mem : memory) (start_addr : Int) (predictor : Option branch_predictor_t)
        (input : List Nat),
        read_register (simulate mem start_addr predictor input).registers 0 = 0) := by
  refine ⟨?_, ?_, ?_⟩
  · intro s h
    rw [read_register_zero, step_registers_zero, h]
  · intro mem start_addr predictor input n
    rw [read_register_zero, simulate_loop_registers_zero]
    rfl
  · intro mem start_addr predictor input
    unfold simulate
    rw [read_register_zero, simulate_loop_registers_zero]
    rfl

theorem register_zero_invariant_witness :
    (simulate_init { bytes := fun _ => 0x13 } 0x10000 none []).registers 0 = 0
      ∧ read_register
          (step (simulate_init { bytes := fun _ => 0x13 } 0x10000 none [])).state.registers 0
        = 0 :=
  ⟨rfl, register_zero_invariant.1 (simulate_init { bytes := fun _ => 0x13 } 0x10000 none []) rfl⟩

theorem get_history_bits_loop_succ (fuel : Nat) :
    ∀ size bits, size ≤ fuel →
      get_history_bits_loop (fuel + 1) bits size = get_history_bits_loop fuel bits size := by
  induction fuel with
  | zero =>
    intro size bits h
    have h0 : size = 0 := by omega
    subst h0
    simp [get_history_bits_loop]
  | succ fuel ih =>
    intro size bits h
    have e1 : get_history_bits_loop (fuel + 1 + 1) bits size
        = if size > 1 then get_history_bits_loop (fuel + 1) (bits + 1) (size >>> 1)
          else bits := rfl
    have e2 : get_history_bits_loop (fuel + 1) bits size
        = if size > 1 then get_history_bits_loop fuel (bits + 1) (size >>> 1)
          else bits := rfl
    rw [e1, e2]
    split
    · apply ih
      rw [Nat.shiftRight_eq_div_pow]
      omega
    · rfl

/-- The iteration bound of `get_history_bits_loop` is never reached: any bound of at least
`size` gives the same result as the bound `size` used by `get_history_bits`. -/
theorem get_history_bits_loop_fuel (extra size bits : Nat) :
    get_history_bits_loop (size + extra) bits size = get_history_bits_loop size bits size := by
  induction extra with
  | zero => rfl
  | succ k ih =>
    rw [← Nat.add_assoc, get_history_bits_loop_succ (size + k) size bits (by omega), ih]

/-! ## The loop scenario -/

theorem predictor_run_append (pred : Option branch_predictor_t) (es fs : List BranchEvent) :
    predictor_run pred (es ++ fs) = predictor_run (predictor_run pred es) fs := by
  simp [predictor_run, List.foldl_append]

/-- One taken update at `pc` on a bimodal record whose counter for `pc` is at least 2 is
predicted correctly: only `total_branches` grows, and the counter stays at least 2. -/
theorem bimodal_taken_step (p : branch_predictor_t) (pc target : Nat)
    (hty : is_bimodal p.type) (hpos : 0 < p.table_size) (hlen : p.table.length = p.table_size)
    (h2 : 2 ≤ p.table.getD (pc % p.table_size) 0) :
    ∃ q, predictor_update (some p) pc target 1 = some q
      ∧ is_bimodal q.type ∧ 0 < q.table_size ∧ q.table.length = q.table_size
      ∧ 2 ≤ q.table.getD (pc % q.table_size) 0
      ∧ q.stats.total_branches = p.stats.total_branches + 1
      ∧ q.stats.mispredictions = p.stats.mispredictions := by
  have hne : p.type ≠ PRED_NONE := by
    rcases hty with h | h | h | h <;> rw [h] <;> decide
  have hidx : pc % p.table_size < p.table.length := by
    rw [hlen]; exact Nat.mod_lt _ hpos
  obtain ⟨q, hq, hqt, hts, -, hql⟩ := predictor_update_frame p pc target 1
  obtain ⟨q1, hq1, -, htot, hmis⟩ := predictor_update_stats p pc target 1 hne
  obtain ⟨q2, hq2, htab, -⟩ := predictor_update_bimodal p pc target 1 hty
  rw [hq] at hq1 hq2
  cases hq1
  cases hq2
  have hpred : predictor_predict (some p) pc target = 1 := by
    rw [predictor_predict_bimodal p pc target hty, if_pos h2]
  refine ⟨q, hq, by rw [hqt]; exact hty, by rw [hts]; exact hpos,
    by rw [hql, hts]; exact hlen, ?_, htot, ?_⟩
  · rw [hts, htab, getD_set_self _ _ _ hidx]
    unfold counter_update
    rw [if_pos (by decide)]
    split <;> omega
  · rw [hmis, hpred, if_neg (by decide), Nat.add_zero]

/-- After `k` taken updates at `pc` the counter for `pc` is still at least 2, `k` branches
have been counted and no misprediction. -/
theorem bimodal_taken_run (pc target : Nat) (k : Nat) :
    ∀ p : branch_predictor_t, is_bimodal p.type → 0 < p.table_size →
      p.table.length = p.table_size → 2 ≤ p.table.getD (pc % p.table_size) 0 →
      ∃ q, predictor_run (some p) (List.replicate k ⟨pc, target, 1⟩) = some q
        ∧ is_bimodal q.type ∧ 0 < q.table_size ∧ q.table.length = q.table_size
        ∧ 2 ≤ q.table.getD (pc % q.table_size) 0
        ∧ q.stats.total_branches = p.stats.total_branches + k
        ∧ q.stats.mispredictions = p.stats.mispredictions := by
  induction k with
  | zero =>
    intro p hty hpos hlen h2
    exact ⟨p, rfl, hty, hpos, hlen, h2, rfl, rfl⟩
  | succ k ih =>
    intro p hty hpos hlen h2
    obtain ⟨q, hq, hqty, hqpos, hqlen, hq2, hqtot, hqmis⟩ :=
      bimodal_taken_step p pc target hty hpos hlen h2
    obtain ⟨r, hr, hrty, hrpos, hrlen, hr2, hrtot, hrmis⟩ := ih q hqty hqpos hqlen hq2
    refine ⟨r, ?_, hrty, hrpos, hrlen, hr2, ?_, ?_⟩
    · rw [List.replicate_succ, predictor_run_cons, hq]
      exact hr
    · rw [hrtot, hqtot]; omega
    · rw [hrmis, hqmis]

theorem predictor_create_bimodal (type : predictor_type_t) (hty : is_bimodal type) (i : Nat) :
    is_bimodal (predictor_create type).type ∧ 0 < (predictor_create type).table_size
      ∧ (predictor_create type).table.length = (predictor_create type).table_size
      ∧ (predictor_create type).table.getD (i % (predictor_create type).table_size) 0 = 2 := by
  obtain ⟨hlen, hall, hts, htype, -, -, -⟩ := predictor_create_table type
  have hpos : 0 < get_table_size type := by
    rcases hty with h | h | h | h <;> rw [h] <;> decide
  have hidx : i % (predictor_create type).table_size < (predictor_create type).table.length := by
    rw [hlen, hts]; exact Nat.mod_lt _ hpos
  refine ⟨by rw [htype]; exact hty, by rw [hts]; exact hpos, by rw [hlen, hts], ?_⟩
  rw [List.getD_eq_getElem _ 0 hidx]
  exact hall _ (List.getElem_mem hidx)

/-- C11: loop scenario.  For a freshly created bimodal predictor of any of the four sizes,
any pc, any targets and any `k` (in particular every `k >= 1`), `k` updates with outcome
taken at that pc followed by one update with outcome not taken at the same pc give
`total_branches = k + 1` and `mispredictions = 1`. -/
theorem bimodal_loop_scenario (type : predictor_type_t) (hty : is_bimodal type)
    (pc target target2 : Nat) (k : Nat) :
    ∃ q, predictor_run (some (predictor_create type))
          (List.replicate k ⟨pc, target, 1⟩ ++ [⟨pc, target2, 0⟩]) = some q
      ∧ q.stats.total_branches = k + 1
      ∧ q.stats.mispredictions = 1 := by
  obtain ⟨h1, h2, h3, h4⟩ := predictor_create_bimodal type hty pc
  obtain ⟨q, hq, hqty, hqpos, hqlen, hq2, hqtot, hqmis⟩ :=
    bimodal_taken_run pc target k (predictor_create type) h1 h2 h3 (by rw [h4])
  have hne : q.type ≠ PRED_NONE := by
    rcases hqty with h | h | h | h <;> rw [h] <;> decide
  obtain ⟨r, hr, -, hrtot, hrmis⟩ := predictor_update_stats q pc target2 0 hne
  have hpred : predictor_predict (some q) pc target2 = 1 := by
    rw [predictor_predict_bimodal q pc target2 hqty, if_pos hq2]
  obtain ⟨-, -, -, -, -, z1, z2⟩ := predictor_create_table type
  refine ⟨r, ?_, ?_, ?_⟩
  · rw [predictor_run_append, hq]
    simp only [predictor_run, List.foldl_cons, List.foldl_nil]
    exact hr
  · rw [hrtot, hqtot, z1]; omega
  · rw [hrmis, hqmis, z2, hpred, if_pos (by decide)]

theorem bimodal_loop_scenario_witness :
    is_bimodal PRED_BIMODAL_256
      ∧ ∃ q, predictor_run (some (predictor_create PRED_BIMODAL_256))
            (List.replicate 10 ⟨0x10074, 0x10060, 1⟩ ++ [⟨0x10074, 0x10060, 0⟩]) = some q
          ∧ q.stats.total_branches = 10 + 1
          ∧ q.stats.mispredictions = 1 :=
  ⟨by decide, bimodal_loop_scenario PRED_BIMODAL_256 (by decide) 0x10074 0x10060 0x10060 10⟩

/-! ## Arithmetic of `execute_r_type` -/

theorem write_register_self (registers : Nat → Int) (rd : Nat) (value : Int)
    (hrd : rd ≠ 0) (hrd32 : rd < 32) : write_register registers rd value rd = value := by
  unfold write_register
  rw [if_pos ⟨hrd, hrd32⟩]
  simp

theorem write_register_other (registers : Nat → Int) (rd i : Nat) (value : Int)
    (hi : i ≠ rd) : write_register registers rd value i = registers i := by
  unfold write_register
  split
  · simp [hi]
  · rfl

theorem i32_of_lt (n : Nat) (h : n < 2 ^ 32) : u32 (i32 n) = n := by
  unfold u32 i32
  split <;> omega

theorem u32_lt (x : Int) : u32 x < 2 ^ 32 := by
  unfold u32
  omega

theorem wrap32_of_range (x : Int) (h1 : -2 ^ 31 ≤ x) (h2 : x < 2 ^ 31) : wrap32 x = x := by
  unfold wrap32 i32 u32
  split <;> omega

/-- The truncated quotient of two `int32_t` values is again an `int32_t` value, except
for `INT32_MIN / -1`. -/
theorem tdiv_range (a b : Int) (ha1 : -2 ^ 31 ≤ a) (ha2 : a < 2 ^ 31)
    (hov : ¬ (a = -2 ^ 31 ∧ b = -1)) :
    -2 ^ 31 ≤ Int.tdiv a b ∧ Int.tdiv a b < 2 ^ 31 := by
  have hq : (Int.tdiv a b).natAbs = a.natAbs / b.natAbs := Int.natAbs_tdiv a b
  have hle : a.natAbs / b.natAbs ≤ a.natAbs := Nat.div_le_self _ _
  by_cases hb2 : 2 ≤ b.natAbs
  · have h3 : a.natAbs / b.natAbs ≤ a.natAbs / 2 :=
      Nat.div_le_div_left hb2 (by decide)
    omega
  · rcases Int.lt_trichotomy b 0 with hb | hb | hb
    · have hb1 : b = -1 := by omega
      subst hb1
      have : Int.tdiv a (-1) = -a := by
        rw [Int.tdiv_neg, Int.tdiv_one]
      omega
    · subst hb
      rw [Int.tdiv_zero]
      omega
    · have hb1 : b = 1 := by omega
      subst hb1
      rw [Int.tdiv_one]
      omega

theorem i32_int_min : i32 0x80000000 = -2 ^ 31 := by decide

theorem execute_r_type_div (registers : Nat → Int) (rd rs1 rs2 : Nat) :
    execute_r_type registers rd rs1 rs2 0x4 0x01
      = write_register registers rd
          (if read_register registers rs2 = 0 then -1
           else if read_register registers rs1 = i32 0x80000000
              ∧ read_register registers rs2 = -1 then read_register registers rs1
           else Int.tdiv (read_register registers rs1) (read_register registers rs2)) := rfl

theorem execute_r_type_divu (registers : Nat → Int) (rd rs1 rs2 : Nat) :
    execute_r_type registers rd rs1 rs2 0x5 0x01
      = write_register registers rd
          (if u32 (read_register registers rs2) = 0 then i32 0xFFFFFFFF
           else i32 (u32 (read_register registers rs1) / u32 (read_register registers rs2))) :=
  rfl

theorem execute_r_type_rem (registers : Nat → Int) (rd rs1 rs2 : Nat) :
    execute_r_type registers rd rs1 rs2 0x6 0x01
      = write_register registers rd
          (if read_register registers rs2 = 0 then read_register registers rs1
           else if read_register registers rs1 = i32 0x80000000
              ∧ read_register registers rs2 = -1 then 0
           else Int.tmod (read_register registers rs1) (read_register registers rs2)) := rfl

theorem execute_r_type_remu (registers : Nat → Int) (rd rs1 rs2 : Nat) :
    execute_r_type registers rd rs1 rs2 0x7 0x01
      = write_register registers rd
          (if u32 (read_register registers rs2) = 0 then read_register registers rs1
           else i32 (u32 (read_register registers rs1) % u32 (read_register registers rs2))) :=
  rfl

theorem tdiv_sign (a b : Int) :
    (0 ≤ a → 0 ≤ b → 0 ≤ Int.tdiv a b) ∧ (0 ≤ a → b ≤ 0 → Int.tdiv a b ≤ 0)
      ∧ (a ≤ 0 → 0 ≤ b → Int.tdiv a b ≤ 0) ∧ (a ≤ 0 → b ≤ 0 → 0 ≤ Int.tdiv a b) := by
  refine ⟨Int.tdiv_nonneg, Int.tdiv_nonpos, ?_, ?_⟩
  · intro ha hb
    have h := Int.tdiv_nonneg (a := -a) (b := b) (by omega) hb
    rw [Int.neg_tdiv] at h
    omega
  · intro ha hb
    have h := Int.tdiv_nonneg (a := -a) (b := -b) (by omega) (by omega)
    rw [Int.neg_tdiv_neg] at h
    exact h

/-- C12: division corner cases of `execute_r_type` with `funct7 = 0x01`, for `int32_t`
register values `a` (rs1) and `b` (rs2) and a destination `rd` in 1..31.  With `b = 0`:
div writes -1, rem writes `a`, divu writes the pattern 0xFFFFFFFF, remu writes `a`.  With
`a = INT32_MIN`, `b = -1`: div writes `INT32_MIN`, rem writes 0.  In every other case div
writes the quotient truncated toward zero (magnitude `|a| / |b|`, sign of the exact
quotient, an `int32_t` value) and rem the matching remainder `a - b * q`.  With `b != 0`,
divu and remu write the unsigned quotient and remainder of the 32-bit patterns. -/
theorem division_corner_cases (registers : Nat → Int) (rd rs1 rs2 : Nat) (a b : Int)
    (hrd : rd ≠ 0) (hrd32 : rd < 32)
    (ha : read_register registers rs1 = a) (hb : read_register registers rs2 = b)
    (ha1 : -2 ^ 31 ≤ a) (ha2 : a < 2 ^ 31) (hb1 : -2 ^ 31 ≤ b) (hb2 : b < 2 ^ 31) :
    (b = 0 →
        execute_r_type registers rd rs1 rs2 0x4 0x01 rd = -1
      ∧ execute_r_type registers rd rs1 rs2 0x6 0x01 rd = a
      ∧ u32 (execute_r_type registers rd rs1 rs2 0x5 0x01 rd) = 0xFFFFFFFF
      ∧ execute_r_type registers rd rs1 rs2 0x7 0x01 rd = a)
    ∧ (a = -2 ^ 31 → b = -1 →
        execute_r_type registers rd rs1 rs2 0x4 0x01 rd = -2 ^ 31
      ∧ execute_r_type registers rd rs1 rs2 0x6 0x01 rd = 0)
    ∧ (b ≠ 0 → ¬ (a = -2 ^ 31 ∧ b = -1) →
        execute_r_type registers rd rs1 rs2 0x4 0x01 rd = Int.tdiv a b
      ∧ execute_r_type registers rd rs1 rs2 0x6 0x01 rd = Int.tmod a b
      ∧ (Int.tdiv a b).natAbs = a.natAbs / b.natAbs
      ∧ (0 ≤ a → 0 ≤ b → 0 ≤ Int.tdiv a b) ∧ (0 ≤ a → b ≤ 0 → Int.tdiv a b ≤ 0)
      ∧ (a ≤ 0 → 0 ≤ b → Int.tdiv a b ≤ 0) ∧ (a ≤ 0 → b ≤ 0 → 0 ≤ Int.tdiv a b)
      ∧ -2 ^ 31 ≤ Int.tdiv a b ∧ Int.tdiv a b < 2 ^ 31
      ∧ Int.tmod a b = a - b * Int.tdiv a b)
    ∧ (b ≠ 0 →
        u32 (execute_r_type registers rd rs1 rs2 0x5 0x01 rd) = u32 a / u32 b
      ∧ u32 (execute_r_type registers rd rs1 rs2 0x7 0x01 rd) = u32 a % u32 b) := by
  have hmin : i32 0x80000000 = -2 ^ 31 := i32_int_min
  have hub : u32 b = 0 ↔ b = 0 := by
    unfold u32
    omega
  rw [execute_r_type_div, execute_r_type_divu, execute_r_type_rem, execute_r_type_remu,
    write_register_self _ _ _ hrd hrd32, write_register_self _ _ _ hrd hrd32,
    write_register_self _ _ _ hrd hrd32, write_register_self _ _ _ hrd hrd32, ha, hb, hmin]
  refine ⟨?_, ?_, ?_, ?_⟩
  · intro h0
    have hu0 : u32 b = 0 := hub.mpr h0
    rw [if_pos h0, if_pos h0, if_pos hu0, if_pos hu0]
    exact ⟨rfl, rfl, by decide, rfl⟩
  · intro h1 h2
    have hne : b ≠ 0 := by omega
    rw [if_neg hne, if_neg hne, if_pos ⟨h1, h2⟩, if_pos ⟨h1, h2⟩]
    exact ⟨h1, rfl⟩
  · intro hne hov
    rw [if_neg hne, if_neg hne, if_neg hov, if_neg hov]
    obtain ⟨s1, s2, s3, s4⟩ := tdiv_sign a b
    obtain ⟨r1, r2⟩ := tdiv_range a b ha1 ha2 hov
    exact ⟨rfl, rfl, Int.natAbs_tdiv a b, s1, s2, s3, s4, r1, r2, Int.tmod_def a b⟩
  · intro hne
    have hu0 : ¬ (u32 b = 0) := fun h => hne (hub.mp h)
    rw [if_neg hu0, if_neg hu0]
    have hlt := u32_lt a
    have hpos : 0 < u32 b := Nat.pos_of_ne_zero hu0
    constructor
    · apply i32_of_lt
      exact lt_of_le_of_lt (Nat.div_le_self _ _) hlt
    · apply i32_of_lt
      exact lt_of_le_of_lt (Nat.mod_le _ _) hlt

theorem division_corner_cases_witness :
    u32 (execute_r_type (fun i => if i = 2 then -7 else 0) 1 2 3 0x5 0x01 1) = 0xFFFFFFFF
      ∧ execute_r_type (fun i => if i = 2 then -7 else 0) 1 2 3 0x6 0x01 1 = -7 :=
  have h := (division_corner_cases (fun i => if i = 2 then -7 else 0) 1 2 3 (-7) 0
    (by decide) (by decide) (by decide) (by decide) (by decide) (by decide) (by decide)
    (by decide)).1 rfl
  ⟨h.2.2.1, h.2.1⟩

theorem execute_r_type_mul (registers : Nat → Int) (rd rs1 rs2 : Nat) :
    execute_r_type registers rd rs1 rs2 0x0 0x01
      = write_register registers rd
          (wrap32 (read_register registers rs1 * read_register registers rs2)) := rfl

theorem execute_r_type_mulh (registers : Nat → Int) (rd rs1 rs2 : Nat) :
    execute_r_type registers rd rs1 rs2 0x1 0x01
      = write_register registers rd
          (wrap32 ((read_register registers rs1 * read_register registers rs2) >>> (32 : Nat))) := rfl

theorem execute_r_type_mulhsu (registers : Nat → Int) (rd rs1 rs2 : Nat) :
    execute_r_type registers rd rs1 rs2 0x2 0x01
      = write_register registers rd
          (wrap32 ((i64 ((u64 (read_register registers rs1)
              * u32 (read_register registers rs2)) % 2 ^ 64)) >>> (32 : Nat))) := rfl

theorem execute_r_type_mulhu (registers : Nat → Int) (rd rs1 rs2 : Nat) :
    execute_r_type registers rd rs1 rs2 0x3 0x01
      = write_register registers rd
          (i32 (((u32 (read_register registers rs1) * u32 (read_register registers rs2))
              % 2 ^ 64) >>> 32)) := rfl

/-- The product of an `int32_t` and a value in `(-2 ^ 32, 2 ^ 32)` fits in `int64_t`. -/
theorem mul_bound (a b : Int) (ha1 : -2 ^ 31 ≤ a) (ha2 : a < 2 ^ 31)
    (hb1 : -2 ^ 32 < b) (hb2 : b < 2 ^ 32) : -2 ^ 63 < a * b ∧ a * b < 2 ^ 63 := by
  have h1 : (a * b).natAbs = a.natAbs * b.natAbs := Int.natAbs_mul a b
  have h2 : a.natAbs ≤ 2 ^ 31 := by omega
  have h3 : b.natAbs ≤ 2 ^ 32 - 1 := by omega
  have h4 : a.natAbs * b.natAbs ≤ 2 ^ 31 * (2 ^ 32 - 1) := Nat.mul_le_mul h2 h3
  have h5 : (a * b).natAbs ≤ 2 ^ 31 * (2 ^ 32 - 1) := by rw [h1]; exact h4
  generalize a * b = P at h5 ⊢
  omega

/-- The mixed product of `mulhsu`, computed modulo `2 ^ 64` on the converted operands and
read back as `int64_t`, is the exact product. -/
theorem i64_u64_mul (a : Int) (ub : Nat) (ha1 : -2 ^ 31 ≤ a) (ha2 : a < 2 ^ 31)
    (hb : ub < 2 ^ 32) : i64 ((u64 a * ub) % 2 ^ 64) = a * (ub : Int) := by
  obtain ⟨p1, p2⟩ := mul_bound a (ub : Int) ha1 ha2 (by omega) (by omega)
  have hcast : (((u64 a * ub) % 2 ^ 64 : Nat) : Int) = (a * (ub : Int)) % 2 ^ 64 := by
    have hu : ((u64 a : Nat) : Int) = a % 2 ^ 64 := by
      unfold u64
      omega
    simp only [Int.natCast_mod, Nat.cast_mul, Nat.cast_pow, Nat.cast_ofNat]
    rw [hu, Int.emod_def a (2 ^ 64)]
    have : (a - 2 ^ 64 * (a / 2 ^ 64)) * (ub : Int)
        = a * (ub : Int) + 2 ^ 64 * (-(a / 2 ^ 64) * (ub : Int)) := by ring
    rw [this, Int.add_mul_emod_self_left]
  unfold i64
  rw [Nat.mod_mod]
  generalize a * (ub : Int) = P at hcast p1 p2 ⊢
  generalize (u64 a * ub) % 2 ^ 64 = N at hcast ⊢
  split <;> omega

/-- C13: multiplication in `execute_r_type` with `funct7 = 0x01`, for `int32_t` register
values `a` (rs1) and `b` (rs2) and a destination `rd` in 1..31.  mul writes the low 32 bits
of the exact product `a * b`; mulh writes bits 63..32 of the 64-bit two's-complement form of
`a * b` (signed times signed); mulhsu writes bits 63..32 of `a * unsigned(b)`; mulhu writes
bits 63..32 of `unsigned(a) * unsigned(b)`.  The three wide products are exact: each fits
its 64-bit type, and the signed results equal the exact product divided by `2 ^ 32`,
rounded down. -/
theorem multiplication_semantics (registers : Nat → Int) (rd rs1 rs2 : Nat) (a b : Int)
    (hrd : rd ≠ 0) (hrd32 : rd < 32)
    (ha : read_register registers rs1 = a) (hb : read_register registers rs2 = b)
    (ha1 : -2 ^ 31 ≤ a) (ha2 : a < 2 ^ 31) (hb1 : -2 ^ 31 ≤ b) (hb2 : b < 2 ^ 31) :
    u32 (execute_r_type registers rd rs1 rs2 0x0 0x01 rd) = u32 (a * b)
    ∧ u32 (execute_r_type registers rd rs1 rs2 0x1 0x01 rd) = u64 (a * b) / 2 ^ 32
    ∧ execute_r_type registers rd rs1 rs2 0x1 0x01 rd = (a * b) / 2 ^ 32
    ∧ (-2 ^ 63 < a * b ∧ a * b < 2 ^ 63)
    ∧ u32 (execute_r_type registers rd rs1 rs2 0x2 0x01 rd)
        = u64 (a * (u32 b : Int)) / 2 ^ 32
    ∧ execute_r_type registers rd rs1 rs2 0x2 0x01 rd = (a * (u32 b : Int)) / 2 ^ 32
    ∧ (-2 ^ 63 < a * (u32 b : Int) ∧ a * (u32 b : Int) < 2 ^ 63)
    ∧ u32 (execute_r_type registers rd rs1 rs2 0x3 0x01 rd) = (u32 a * u32 b) / 2 ^ 32
    ∧ u32 a * u32 b < 2 ^ 64 := by
  have hub := u32_lt b
  have hua := u32_lt a
  obtain ⟨p1, p2⟩ := mul_bound a b ha1 ha2 (by omega) (by omega)
  obtain ⟨q1, q2⟩ := mul_bound a (u32 b : Int) ha1 ha2 (by omega) (by omega)
  have hprod : u32 a * u32 b < 2 ^ 64 := by
    have : u32 a * u32 b < 2 ^ 32 * 2 ^ 32 :=
      Nat.mul_lt_mul'' hua hub
    omega
  have hc : ((2 ^ 32 : Nat) : Int) = 2 ^ 32 := by norm_num
  rw [execute_r_type_mul, execute_r_type_mulh, execute_r_type_mulhsu, execute_r_type_mulhu,
    write_register_self _ _ _ hrd hrd32, write_register_self _ _ _ hrd hrd32,
    write_register_self _ _ _ hrd hrd32, write_register_self _ _ _ hrd hrd32, ha, hb,
    i64_u64_mul a (u32 b) ha1 ha2 hub, Nat.mod_eq_of_lt hprod,
    Int.shiftRight_eq_div_pow, Int.shiftRight_eq_div_pow, Nat.shiftRight_eq_div_pow, hc]
  have hw : ∀ P : Int, -2 ^ 63 < P → P < 2 ^ 63 →
      wrap32 (P / 2 ^ 32) = P / 2 ^ 32 ∧ u32 (P / 2 ^ 32) = u64 P / 2 ^ 32 := by
    intro P h1 h2
    refine ⟨wrap32_of_range _ (by omega) (by omega), ?_⟩
    unfold u32 u64
    omega
  obtain ⟨w1, w2⟩ := hw (a * b) p1 p2
  obtain ⟨w3, w4⟩ := hw (a * (u32 b : Int)) q1 q2
  refine ⟨?_, ?_, w1, ⟨p1, p2⟩, ?_, w3, ⟨q1, q2⟩, ?_, hprod⟩
  · unfold wrap32
    exact i32_of_lt _ (u32_lt _)
  · rw [w1, w2]
  · rw [w3, w4]
  · apply i32_of_lt
    omega

theorem multiplication_semantics_witness :
    execute_r_type (fun i => if i = 2 then -3 else if i = 3 then 5 else 0) 1 2 3 0x1 0x01 1
      = (-3 * 5) / 2 ^ 32 :=
  (multiplication_semantics (fun i => if i = 2 then -3 else if i = 3 then 5 else 0) 1 2 3
    (-3) 5 (by decide) (by decide) (by decide) (by decide) (by decide) (by decide)
    (by decide) (by decide)).2.2.1

/-! ## Shifts -/

theorem and_0x1F (x : Nat) : x &&& 0x1F = x % 32 :=
  Nat.and_pow_two_sub_one_eq_mod x 5

theorem execute_r_type_sll (registers : Nat → Int) (rd rs1 rs2 : Nat) :
    execute_r_type registers rd rs1 rs2 0x1 0x00
      = write_register registers rd
          (i32 ((u32 (read_register registers rs1)
            <<< (u32 (read_register registers rs2) &&& 0x1F)) % 2 ^ 32)) := rfl

theorem execute_r_type_srl (registers : Nat → Int) (rd rs1 rs2 : Nat) :
    execute_r_type registers rd rs1 rs2 0x5 0x00
      = write_register registers rd
          (i32 (u32 (read_register registers rs1)
            >>> (u32 (read_register registers rs2) &&& 0x1F))) := rfl

theorem execute_r_type_sra (registers : Nat → Int) (rd rs1 rs2 : Nat) :
    execute_r_type registers rd rs1 rs2 0x5 0x20
      = write_register registers rd
          (read_register registers rs1 >>> (u32 (read_register registers rs2) &&& 0x1F)) := rfl

theorem u32_natCast_of_lt (n : Nat) (h : n < 2 ^ 32) : u32 (n : Int) = n := by
  unfold u32
  omega

/-- An arithmetic right shift of an `int32_t` value is the floor of the division by a power
of two; it keeps the sign and stays an `int32_t` value. -/
theorem sra_range (a : Int) (n : Nat) (ha1 : -2 ^ 31 ≤ a) (ha2 : a < 2 ^ 31) :
    a >>> n = a / 2 ^ n ∧ (a < 0 → a / 2 ^ n < 0) ∧ (0 ≤ a → 0 ≤ a / 2 ^ n)
      ∧ -2 ^ 31 ≤ a / 2 ^ n ∧ a / 2 ^ n < 2 ^ 31 := by
  have hd : (0 : Int) < 2 ^ n := by positivity
  have h1 : a >>> n = a / 2 ^ n := by
    rw [Int.shiftRight_eq_div_pow]
    norm_num
  have hneg : a < 0 → a / 2 ^ n < 0 := fun h => Int.ediv_neg' h hd
  have hpos : 0 ≤ a → 0 ≤ a / 2 ^ n := fun h => Int.ediv_nonneg h (le_of_lt hd)
  refine ⟨h1, hneg, hpos, ?_, ?_⟩
  · by_cases h : 0 ≤ a
    · have := hpos h
      omega
    · apply Int.le_ediv_of_mul_le hd
      have h2 : (1 : Int) ≤ 2 ^ n := by omega
      nlinarith
  · by_cases h : 0 ≤ a
    · have := Int.ediv_le_self (2 ^ n) h
      omega
    · have := hneg (by omega)
      omega

/-- C14: shift amounts use only the low 5 bits of rs2.  For sll, srl and sra in
`execute_r_type`, an `int32_t` value `a` in rs1, any value `s` in rs2 and a destination `rd`
in 1..31, the value written is the same as with the shift operand `s mod 32` (the low five
bits of `s`) in rs2: sll writes the low 32 bits of `a * 2 ^ (s mod 32)`, srl writes the
pattern of `a` divided by `2 ^ (s mod 32)` (zeros shifted in), and sra writes the floor of
`a / 2 ^ (s mod 32)` (the sign bit replicated: negative stays negative). -/
theorem shift_amount_low_five_bits (registers registers2 : Nat → Int) (rd rs1 rs2 : Nat)
    (a s : Int) (hrd : rd ≠ 0) (hrd32 : rd < 32)
    (ha : read_register registers rs1 = a) (hs : read_register registers rs2 = s)
    (ha' : read_register registers2 rs1 = a)
    (hs' : read_register registers2 rs2 = ((u32 s % 32 : Nat) : Int))
    (ha1 : -2 ^ 31 ≤ a) (ha2 : a < 2 ^ 31) :
    execute_r_type registers rd rs1 rs2 0x1 0x00 rd
        = execute_r_type registers2 rd rs1 rs2 0x1 0x00 rd
    ∧ execute_r_type registers rd rs1 rs2 0x5 0x00 rd
        = execute_r_type registers2 rd rs1 rs2 0x5 0x00 rd
    ∧ execute_r_type registers rd rs1 rs2 0x5 0x20 rd
        = execute_r_type registers2 rd rs1 rs2 0x5 0x20 rd
    ∧ u32 (execute_r_type registers rd rs1 rs2 0x1 0x00 rd)
        = (u32 a * 2 ^ (u32 s % 32)) % 2 ^ 32
    ∧ u32 (execute_r_type registers rd rs1 rs2 0x5 0x00 rd) = u32 a / 2 ^ (u32 s % 32)
    ∧ execute_r_type registers rd rs1 rs2 0x5 0x20 rd = a / 2 ^ (u32 s % 32)
    ∧ (a < 0 → execute_r_type registers rd rs1 rs2 0x5 0x20 rd < 0)
    ∧ (0 ≤ a → 0 ≤ execute_r_type registers rd rs1 rs2 0x5 0x20 rd) := by
  have hamt : u32 ((u32 s % 32 : Nat) : Int) % 32 = u32 s % 32 := by
    rw [u32_natCast_of_lt _ (by omega), Nat.mod_mod]
  obtain ⟨r1, r2, r3, -, -⟩ := sra_range a (u32 s % 32) ha1 ha2
  simp only [execute_r_type_sll, execute_r_type_srl, execute_r_type_sra,
    write_register_self _ _ _ hrd hrd32, ha, hs, ha', hs', and_0x1F, hamt, r1]
  refine ⟨trivial, trivial, trivial, ?_, ?_, trivial, r2, r3⟩
  · rw [i32_of_lt _ (Nat.mod_lt _ (by decide)), Nat.shiftLeft_eq]
  · rw [i32_of_lt _ ?_, Nat.shiftRight_eq_div_pow]
    rw [Nat.shiftRight_eq_div_pow]
    exact lt_of_le_of_lt (Nat.div_le_self _ _) (u32_lt a)

theorem shift_amount_low_five_bits_witness :
    execute_r_type (fun i => if i = 2 then -8 else if i = 3 then 33 else 0) 1 2 3 0x5 0x20 1
      = execute_r_type (fun i => if i = 2 then -8 else if i = 3 then 1 else 0) 1 2 3 0x5 0x20 1 :=
  (shift_amount_low_five_bits (fun i => if i = 2 then -8 else if i = 3 then 33 else 0)
    (fun i => if i = 2 then -8 else if i = 3 then 1 else 0) 1 2 3 (-8) 33
    (by decide) (by decide) (by decide) (by decide) (by decide) (by decide) (by decide)
    (by decide)).2.2.1

/-! ## Immediate shifts -/

theorem step_op_imm (s : State) (h : get_bits (memory_rd_w s.mem s.pc) 0 6 = 0x13) :
    (step s).state.registers
      = execute_i_type_alu s.registers (get_bits (memory_rd_w s.mem s.pc) 7 11)
          (get_bits (memory_rd_w s.mem s.pc) 15 19) (get_bits (memory_rd_w s.mem s.pc) 12 14)
          (if get_bits (memory_rd_w s.mem s.pc) 12 14 = 0x1
              ∨ get_bits (memory_rd_w s.mem s.pc) 12 14 = 0x5
            then ((get_bits (memory_rd_w s.mem s.pc) 20 24 : Nat) : Int)
            else sign_extend (get_bits (memory_rd_w s.mem s.pc) 20 31) 12)
          (get_bits (memory_rd_w s.mem s.pc) 25 31) := by
  unfold step
  simp only [h]
  rw [step_finish_registers]

theorem get_bits_eq (x start stop : Nat) :
    get_bits x start stop = x / 2 ^ start % 2 ^ (stop - start + 1) := by
  unfold get_bits
  rw [mask_eq, Nat.and_pow_two_sub_one_eq_mod, Nat.shiftRight_eq_div_pow]

theorem get_bits_lt (x start stop : Nat) : get_bits x start stop < 2 ^ (stop - start + 1) :=
  and_mask_lt _ _

theorem execute_i_type_alu_sr (registers : Nat → Int) (rd rs1 : Nat) (imm : Int) (funct7 : Nat) :
    execute_i_type_alu registers rd rs1 0x5 imm funct7
      = write_register registers rd
          (if funct7 = 0x00 then i32 (u32 (read_register registers rs1) >>> (u32 imm &&& 0x1F))
           else read_register registers rs1 >>> (u32 imm &&& 0x1F)) := rfl

/-- C15 fails as stated: the word 0x02115093 has opcode 0x13, funct3 5, rd 1, rs1 2, shift
amount 1 and bit 30 clear (funct7 = 0x01).  With x2 = -2 the step writes -1 to x1, the
arithmetic shift, whereas the logical shift of the pattern 0xFFFFFFFE by 1 is 0x7FFFFFFF. -/
theorem shift_right_immediate_counterexample :
    get_bits 0x02115093 0 6 = 0x13 ∧ get_bits 0x02115093 12 14 = 0x5
      ∧ get_bits 0x02115093 30 30 = 0
      ∧ memory_rd_w (memory_of_words 0x10000 [0x02115093]) 0x10000 = 0x02115093
      ∧ (step { registers := fun i => if i = 2 then -2 else 0
                pc := 0x10000
                mem := memory_of_words 0x10000 [0x02115093]
                predictor := none
                insns := 0
                jump_target := 0
                input := []
                output := []
                stderr := [] }).state.registers 1 = -1
      ∧ i32 (u32 (-2) >>> 1) = 0x7FFFFFFF := by
  refine ⟨by decide, by decide, by decide, by decide, by decide, by decide⟩

/-- C15 as amended: for a fetched word `w` with opcode 0x13, funct3 5 and rd not 0, and an
`int32_t` value `a` in rs1, the shift amount is bits 24..20 of `w`; the step writes the
logical right shift (pattern of `a` divided by `2 ^ shamt`) if funct7, bits 31..25 of `w`, is
0, and the arithmetic right shift (floor of `a / 2 ^ shamt`) for every other funct7.  So when
bits 31 and 29..25 are clear, bit 30 set gives the arithmetic and bit 30 clear the logical
shift. -/
theorem shift_right_immediate (s : State) (w : Nat) (a : Int)
    (hw : memory_rd_w s.mem s.pc = w)
    (hop : get_bits w 0 6 = 0x13) (hf3 : get_bits w 12 14 = 0x5)
    (hrd : get_bits w 7 11 ≠ 0)
    (ha : read_register s.registers (get_bits w 15 19) = a)
    (ha1 : -2 ^ 31 ≤ a) (ha2 : a < 2 ^ 31) :
    (get_bits w 25 31 = 0 →
        u32 ((step s).state.registers (get_bits w 7 11)) = u32 a / 2 ^ get_bits w 20 24)
    ∧ (get_bits w 25 31 ≠ 0 →
        (step s).state.registers (get_bits w 7 11) = a / 2 ^ get_bits w 20 24)
    ∧ (get_bits w 31 31 = 0 → get_bits w 25 29 = 0 → get_bits w 30 30 = 1 →
        (step s).state.registers (get_bits w 7 11) = a / 2 ^ get_bits w 20 24)
    ∧ (get_bits w 31 31 = 0 → get_bits w 25 29 = 0 → get_bits w 30 30 = 0 →
        u32 ((step s).state.registers (get_bits w 7 11)) = u32 a / 2 ^ get_bits w 20 24) := by
  have hrd32 : get_bits w 7 11 < 32 := get_bits_lt w 7 11
  have hsh : get_bits w 20 24 < 32 := get_bits_lt w 20 24
  have hamt : u32 ((get_bits w 20 24 : Nat) : Int) &&& 0x1F = get_bits w 20 24 := by
    rw [and_0x1F, u32_natCast_of_lt _ (by omega)]
    omega
  have hstep : (step s).state.registers (get_bits w 7 11)
      = if get_bits w 25 31 = 0x00 then i32 (u32 a >>> get_bits w 20 24)
        else a >>> get_bits w 20 24 := by
    rw [step_op_imm s (by rw [hw]; exact hop), hw, hf3, if_pos (Or.inr rfl),
      execute_i_type_alu_sr, write_register_self _ _ _ hrd hrd32, ha, hamt]
  have hlog : get_bits w 25 31 = 0 →
      u32 ((step s).state.registers (get_bits w 7 11)) = u32 a / 2 ^ get_bits w 20 24 := by
    intro h7
    rw [hstep, if_pos h7, Nat.shiftRight_eq_div_pow]
    exact i32_of_lt _ (lt_of_le_of_lt (Nat.div_le_self _ _) (u32_lt a))
  have hari : get_bits w 25 31 ≠ 0 →
      (step s).state.registers (get_bits w 7 11) = a / 2 ^ get_bits w 20 24 := by
    intro h7
    rw [hstep, if_neg h7]
    exact (sra_range a _ ha1 ha2).1
  have e7 := get_bits_eq w 25 31
  have e31 := get_bits_eq w 31 31
  have e30 := get_bits_eq w 30 30
  have e25 := get_bits_eq w 25 29
  norm_num at e7 e31 e30 e25
  refine ⟨hlog, hari, ?_, ?_⟩
  · intro h31 h25 h30
    apply hari
    omega
  · intro h31 h25 h30
    apply hlog
    omega

theorem shift_right_immediate_witness :
    (step { registers := fun i => if i = 2 then -2 else 0
            pc := 0x10000
            mem := memory_of_words 0x10000 [0x02115093]
            predictor := none
            insns := 0
            jump_target := 0
            input := []
            output := []
            stderr := [] }).state.registers (get_bits 0x02115093 7 11)
      = -2 / 2 ^ get_bits 0x02115093 20 24 :=
  (shift_right_immediate
    { registers := fun i => if i = 2 then -2 else 0, pc := 0x10000,
      mem := memory_of_words 0x10000 [0x02115093], predictor := none, insns := 0,
      jump_target := 0, input := [], output := [], stderr := [] }
    0x02115093 (-2) (by decide) (by decide) (by decide) (by decide) (by decide) (by decide)
    (by decide)).2.1 (by decide)

/-! ## Sign extension and immediates -/

theorem and_two_pow_ne_zero (x k : Nat) (hx : x < 2 ^ (k + 1)) :
    x &&& (1 <<< k) ≠ 0 ↔ 2 ^ k ≤ x := by
  rw [Nat.one_shiftLeft]
  have hpos : 0 < 2 ^ k := Nat.two_pow_pos k
  have hdiv : x / 2 ^ k < 2 := by
    rw [Nat.div_lt_iff_lt_mul hpos]
    rw [pow_succ] at hx
    omega
  have hbit : x.testBit k = decide (x / 2 ^ k % 2 = 1) := Nat.testBit_to_div_mod
  have hle : 2 ^ k ≤ x ↔ x / 2 ^ k % 2 = 1 := by
    rw [← Nat.one_le_div_iff hpos]
    generalize x / 2 ^ k = q at hdiv
    omega
  constructor
  · intro h
    by_contra hlt
    apply h
    apply Nat.eq_of_testBit_eq
    intro i
    rw [Nat.testBit_and, Nat.testBit_two_pow, Nat.zero_testBit]
    by_cases hki : k = i
    · subst hki
      rw [hbit]
      have : ¬ (x / 2 ^ k % 2 = 1) := fun h1 => hlt (hle.mpr h1)
      simp [this]
    · simp [hki]
  · intro h hz
    have h1 : (x &&& 2 ^ k).testBit k = true := by
      rw [Nat.testBit_and, Nat.testBit_two_pow, hbit]
      simp [hle.mp h]
    rw [hz, Nat.zero_testBit] at h1
    exact Bool.false_ne_true h1

theorem or_high_mask (x bits : Nat) (hx : x < 2 ^ bits) (hb : bits ≤ 32) :
    x ||| (((2 ^ 32 - 1) <<< bits) % 2 ^ 32) = x + (2 ^ 32 - 2 ^ bits) := by
  have hsplit : 2 ^ bits * 2 ^ (32 - bits) = 2 ^ 32 := by
    rw [← pow_add]
    congr 1
    omega
  have hp1 : 0 < 2 ^ bits := Nat.two_pow_pos bits
  have hp2 : 0 < 2 ^ (32 - bits) := Nat.two_pow_pos _
  have hmask : ((2 ^ 32 - 1) <<< bits) % 2 ^ 32 = 2 ^ bits * (2 ^ (32 - bits) - 1) := by
    rw [Nat.shiftLeft_eq, Nat.mul_sub, Nat.mul_one, hsplit]
    have hle : 2 ^ bits ≤ 2 ^ 32 := Nat.pow_le_pow_right (by decide) hb
    generalize 2 ^ bits = P at hp1 hle ⊢
    omega
  rw [hmask, Nat.or_comm, ← Nat.mul_add_lt_is_or hx, Nat.mul_sub, Nat.mul_one, hsplit]
  omega

/-- `sign_extend` reads a `bits`-bit field as a two's-complement number. -/
theorem sign_extend_eq (value bits : Nat) (hb1 : 1 ≤ bits) (hb2 : bits ≤ 31)
    (hv : value < 2 ^ bits) :
    sign_extend value bits
      = if value < 2 ^ (bits - 1) then (value : Int) else (value : Int) - 2 ^ bits := by
  have hk : bits - 1 + 1 = bits := by omega
  have htest := and_two_pow_ne_zero value (bits - 1) (by rw [hk]; exact hv)
  have hpow : 2 ^ bits = 2 * 2 ^ (bits - 1) := by
    conv_lhs => rw [← hk, pow_succ]
    omega
  have hle : 2 ^ bits ≤ 2 ^ 31 := Nat.pow_le_pow_right (by decide) hb2
  unfold sign_extend
  by_cases hlt : value < 2 ^ (bits - 1)
  · have hz : ¬ (value &&& (1 <<< (bits - 1)) ≠ 0) := fun h => by
      have := htest.mp h
      omega
    rw [if_neg hz, if_pos hlt]
    unfold i32
    split <;> omega
  · have hnz : value &&& (1 <<< (bits - 1)) ≠ 0 := htest.mpr (by omega)
    rw [if_pos hnz, if_neg hlt, or_high_mask value bits hv (by omega)]
    have hcast : ((2 ^ bits : Nat) : Int) = 2 ^ bits := by norm_num
    unfold i32
    generalize 2 ^ bits = P at hv hpow hle hcast
    split <;> omega
theorem and_clear_bit0 (x : Nat) (hx : x < 2 ^ 32) : x &&& 0xFFFFFFFE = x - x % 2 := by
  have hm : (0xFFFFFFFE : Nat) = (2 ^ 31 - 1) <<< 1 := by decide
  have hr : x - x % 2 = (x >>> 1) <<< 1 := by
    rw [Nat.shiftLeft_eq, Nat.shiftRight_eq_div_pow]
    omega
  rw [hm, hr]
  apply Nat.eq_of_testBit_eq
  intro i
  rw [Nat.testBit_and, Nat.testBit_shiftLeft, Nat.testBit_shiftLeft, Nat.testBit_shiftRight,
    Nat.testBit_two_pow_sub_one]
  by_cases h0 : i ≥ 1
  · have e : 1 + (i - 1) = i := by omega
    rw [e]
    by_cases h32 : i - 1 < 31
    · simp [h0, h32]
    · have : x.testBit i = false :=
        Nat.testBit_lt_two_pow (lt_of_lt_of_le hx (Nat.pow_le_pow_right (by decide) (by omega)))
      simp [this]
  · simp [h0]

theorem step_finish_pc (s : State) (l : StepLocals) : (step_finish s l).state.pc = s.pc := by
  unfold step_finish
  split <;> rfl

theorem step_finish_mem (s : State) (l : StepLocals) : (step_finish s l).state.mem = s.mem := by
  unfold step_finish
  split <;> rfl

theorem step_finish_predictor (s : State) (l : StepLocals) :
    (step_finish s l).state.predictor = s.predictor := by
  unfold step_finish
  split <;> rfl

theorem step_finish_locals (s : State) (l : StepLocals) : (step_finish s l).locals = l := by
  unfold step_finish
  split <;> rfl

theorem step_jalr (s : State) (h : get_bits (memory_rd_w s.mem s.pc) 0 6 = 0x67) :
    (step s).state.pc
        = u32 (read_register s.registers (get_bits (memory_rd_w s.mem s.pc) 15 19)
            + sign_extend (get_bits (memory_rd_w s.mem s.pc) 20 31) 12) &&& 0xFFFFFFFE
      ∧ (step s).state.registers
        = write_register s.registers (get_bits (memory_rd_w s.mem s.pc) 7 11)
            (i32 ((s.pc + 4) % 2 ^ 32))
      ∧ (step s).state.mem = s.mem := by
  unfold step
  simp only [h]
  rw [step_finish_pc, step_finish_registers, step_finish_mem]
  exact ⟨rfl, rfl, rfl⟩

/-- C16: JALR.  For every state whose fetched word `w` has opcode 0x67, with `base` the value
rs1 holds before the step: the immediate is bits 31..20 of `w` read as a 12-bit
two's-complement number; the new PC is `(base + imm) mod 2 ^ 32` with bit 0 cleared (hence
even); rd, if not 0, receives `current_pc + 4` (as a 32-bit value); every other register
and the memory are unchanged.  The target is computed from the pre-step value of rs1, also
when rd = rs1. -/
theorem jalr_semantics (s : State) (w : Nat) (base : Int)
    (hw : memory_rd_w s.mem s.pc = w) (hop : get_bits w 0 6 = 0x67)
    (hbase : read_register s.registers (get_bits w 15 19) = base) :
    sign_extend (get_bits w 20 31) 12
        = (if get_bits w 20 31 < 2048 then (get_bits w 20 31 : Int)
           else (get_bits w 20 31 : Int) - 4096)
    ∧ (step s).state.pc
        = u32 (base + sign_extend (get_bits w 20 31) 12)
            - u32 (base + sign_extend (get_bits w 20 31) 12) % 2
    ∧ (step s).state.pc % 2 = 0
    ∧ (get_bits w 7 11 ≠ 0 →
        u32 ((step s).state.registers (get_bits w 7 11)) = (s.pc + 4) % 2 ^ 32)
    ∧ (∀ i, i ≠ get_bits w 7 11 → (step s).state.registers i = s.registers i)
    ∧ (get_bits w 7 11 = 0 → (step s).state.registers = s.registers)
    ∧ (step s).state.mem = s.mem := by
  obtain ⟨hpc, hregs, hmem⟩ := step_jalr s (by rw [hw]; exact hop)
  rw [hw] at hpc hregs
  rw [hbase] at hpc
  have hrd32 : get_bits w 7 11 < 32 := get_bits_lt w 7 11
  have himm := sign_extend_eq (get_bits w 20 31) 12 (by decide) (by decide)
    (get_bits_lt w 20 31)
  have hclear := and_clear_bit0 _ (u32_lt (base + sign_extend (get_bits w 20 31) 12))
  refine ⟨?_, ?_, ?_, ?_, ?_, ?_, hmem⟩
  · rw [himm]
    norm_num
  · rw [hpc, hclear]
  · rw [hpc, hclear]
    omega
  · intro hrd
    rw [hregs, write_register_self _ _ _ hrd hrd32]
    exact i32_of_lt _ (Nat.mod_lt _ (by decide))
  · intro i hi
    rw [hregs, write_register_other _ _ _ _ hi]
  · intro hrd
    rw [hregs, hrd]
    unfold write_register
    simp

theorem jalr_semantics_witness :
    (step { registers := fun i => if i = 1 then 0x10007 else 0
            pc := 0x10000
            mem := memory_of_words 0x10000 [0x000080E7]
            predictor := none
            insns := 0
            jump_target := 0
            input := []
            output := []
            stderr := [] }).state.pc
      = u32 (0x10007 + sign_extend (get_bits 0x000080E7 20 31) 12)
          - u32 (0x10007 + sign_extend (get_bits 0x000080E7 20 31) 12) % 2 :=
  (jalr_semantics
    { registers := fun i => if i = 1 then 0x10007 else 0, pc := 0x10000,
      mem := memory_of_words 0x10000 [0x000080E7], predictor := none, insns := 0,
      jump_target := 0, input := [], output := [], stderr := [] }
    0x000080E7 0x10007 (by decide) (by decide) (by decide)).2.1

/-! ## The B-type immediate -/

theorem or_shift_add (a i r : Nat) (hr : r < 2 ^ i) : (a <<< i) ||| r = a * 2 ^ i + r := by
  rw [Nat.shiftLeft_eq, Nat.mul_comm a (2 ^ i), ← Nat.mul_add_lt_is_or hr]

/-- The four fields of a B-type word, OR-ed together at their positions, add up. -/
theorem branch_field_sum (w : Nat) :
    (get_bits w 31 31 <<< 12) ||| (get_bits w 7 7 <<< 11)
        ||| (get_bits w 25 30 <<< 5) ||| (get_bits w 8 11 <<< 1)
      = get_bits w 31 31 * 4096 + get_bits w 7 7 * 2048 + get_bits w 25 30 * 32
          + get_bits w 8 11 * 2 := by
  have h1 : get_bits w 31 31 < 2 := get_bits_lt w 31 31
  have h2 : get_bits w 7 7 < 2 := get_bits_lt w 7 7
  have h3 : get_bits w 25 30 < 64 := get_bits_lt w 25 30
  have h4 : get_bits w 8 11 < 16 := get_bits_lt w 8 11
  have e4 : get_bits w 8 11 <<< 1 = get_bits w 8 11 * 2 := by
    rw [Nat.shiftLeft_eq, pow_one]
  rw [Nat.or_assoc, Nat.or_assoc, e4,
    or_shift_add (get_bits w 25 30) 5 _ (by omega),
    or_shift_add (get_bits w 7 7) 11 _ (by omega),
    or_shift_add (get_bits w 31 31) 12 _ (by omega)]
  omega

/-- The B-type immediate of a word, from its fields read by division and remainder. -/
theorem branch_imm_eq (w : Nat) :
    branch_imm w
      = (if (w / 2 ^ 31 % 2) * 4096 + (w / 2 ^ 7 % 2) * 2048 + (w / 2 ^ 25 % 64) * 32
              + (w / 2 ^ 8 % 16) * 2 < 4096
         then (((w / 2 ^ 31 % 2) * 4096 + (w / 2 ^ 7 % 2) * 2048 + (w / 2 ^ 25 % 64) * 32
              + (w / 2 ^ 8 % 16) * 2 : Nat) : Int)
         else (((w / 2 ^ 31 % 2) * 4096 + (w / 2 ^ 7 % 2) * 2048 + (w / 2 ^ 25 % 64) * 32
              + (w / 2 ^ 8 % 16) * 2 : Nat) : Int) - 8192) := by
  have e1 : get_bits w 31 31 = w / 2 ^ 31 % 2 := get_bits_eq w 31 31
  have e2 : get_bits w 7 7 = w / 2 ^ 7 % 2 := get_bits_eq w 7 7
  have e3 : get_bits w 25 30 = w / 2 ^ 25 % 64 := get_bits_eq w 25 30
  have e4 : get_bits w 8 11 = w / 2 ^ 8 % 16 := get_bits_eq w 8 11
  unfold branch_imm
  rw [branch_field_sum, e1, e2, e3, e4,
    sign_extend_eq _ 13 (by decide) (by decide) (by norm_num; omega)]
  norm_num

/-- A B-type word built from its four immediate fields holds them at their positions. -/
theorem branch_word_fields (a b c d : Nat) (ha : a < 2) (hb : b < 2) (hc : c < 64)
    (hd : d < 16) :
    a * 2 ^ 31 + c * 2 ^ 25 + d * 2 ^ 8 + b * 2 ^ 7 + 0x63 < 2 ^ 32
      ∧ get_bits (a * 2 ^ 31 + c * 2 ^ 25 + d * 2 ^ 8 + b * 2 ^ 7 + 0x63) 0 6 = 0x63
      ∧ (a * 2 ^ 31 + c * 2 ^ 25 + d * 2 ^ 8 + b * 2 ^ 7 + 0x63) / 2 ^ 31 % 2 = a
      ∧ (a * 2 ^ 31 + c * 2 ^ 25 + d * 2 ^ 8 + b * 2 ^ 7 + 0x63) / 2 ^ 7 % 2 = b
      ∧ (a * 2 ^ 31 + c * 2 ^ 25 + d * 2 ^ 8 + b * 2 ^ 7 + 0x63) / 2 ^ 25 % 64 = c
      ∧ (a * 2 ^ 31 + c * 2 ^ 25 + d * 2 ^ 8 + b * 2 ^ 7 + 0x63) / 2 ^ 8 % 16 = d := by
  refine ⟨by omega, ?_, by omega, by omega, by omega, by omega⟩
  rw [get_bits_eq]
  norm_num
  omega

/-- C17: B-type immediate decoding.  For every word `w`, the immediate assembled for opcode
0x63 is the 13-bit two's-complement value of the bit string
bit31, bit7, bits 30..25, bits 11..8, 0; it is even and lies in [-4096, 4094]; and for
every even `v` in that range, every word whose bits 31, 7, 30..25 and 11..8 hold bits 12,
11, 10..5 and 4..1 of `v` decodes to `v`, such a 32-bit word with opcode 0x63 existing. -/
theorem branch_imm_decoding (w : Nat) :
    branch_imm w
      = (if (w / 2 ^ 31 % 2) * 4096 + (w / 2 ^ 7 % 2) * 2048 + (w / 2 ^ 25 % 64) * 32
              + (w / 2 ^ 8 % 16) * 2 < 4096
         then (((w / 2 ^ 31 % 2) * 4096 + (w / 2 ^ 7 % 2) * 2048 + (w / 2 ^ 25 % 64) * 32
              + (w / 2 ^ 8 % 16) * 2 : Nat) : Int)
         else (((w / 2 ^ 31 % 2) * 4096 + (w / 2 ^ 7 % 2) * 2048 + (w / 2 ^ 25 % 64) * 32
              + (w / 2 ^ 8 % 16) * 2 : Nat) : Int) - 8192)
    ∧ branch_imm w % 2 = 0 ∧ -4096 ≤ branch_imm w ∧ branch_imm w ≤ 4094
    ∧ (∀ v : Int, v % 2 = 0 → -4096 ≤ v → v ≤ 4094 →
        w / 2 ^ 31 % 2 = (v % 8192).toNat / 4096 % 2 →
        w / 2 ^ 7 % 2 = (v % 8192).toNat / 2048 % 2 →
        w / 2 ^ 25 % 64 = (v % 8192).toNat / 32 % 64 →
        w / 2 ^ 8 % 16 = (v % 8192).toNat / 2 % 16 →
        branch_imm w = v)
    ∧ (∀ v : Int, v % 2 = 0 → -4096 ≤ v → v ≤ 4094 →
        ∃ w2 : Nat, w2 < 2 ^ 32 ∧ get_bits w2 0 6 = 0x63
          ∧ w2 / 2 ^ 31 % 2 = (v % 8192).toNat / 4096 % 2
          ∧ w2 / 2 ^ 7 % 2 = (v % 8192).toNat / 2048 % 2
          ∧ w2 / 2 ^ 25 % 64 = (v % 8192).toNat / 32 % 64
          ∧ w2 / 2 ^ 8 % 16 = (v % 8192).toNat / 2 % 16
          ∧ branch_imm w2 = v) := by
  have key : ∀ (x : Nat) (v : Int), v % 2 = 0 → -4096 ≤ v → v ≤ 4094 →
      x / 2 ^ 31 % 2 = (v % 8192).toNat / 4096 % 2 →
      x / 2 ^ 7 % 2 = (v % 8192).toNat / 2048 % 2 →
      x / 2 ^ 25 % 64 = (v % 8192).toNat / 32 % 64 →
      x / 2 ^ 8 % 16 = (v % 8192).toNat / 2 % 16 →
      branch_imm x = v := by
    intro x v hv h1 h2 f1 f2 f3 f4
    rw [branch_imm_eq x, f1, f2, f3, f4]
    clear f1 f2 f3 f4
    have hu : ((v % 8192).toNat : Int) = v % 8192 := by omega
    have hu2 : (v % 8192).toNat % 2 = 0 := by omega
    have hu3 : (v % 8192).toNat < 8192 := by omega
    generalize (v % 8192).toNat = u at hu hu2 hu3 ⊢
    have d1 : u / 4096 % 2 = u / 4096 := by omega
    have d2 : u % 4096 = 2048 * (u / 2048 % 2) + u % 2048 := by omega
    have d3 : u % 2048 = 32 * (u / 32 % 64) + u % 32 := by omega
    have d4 : u % 32 = 2 * (u / 2 % 16) := by omega
    have d5 : (u / 4096 % 2) * 4096 + (u / 2048 % 2) * 2048 + (u / 32 % 64) * 32
        + (u / 2 % 16) * 2 = u := by omega
    rw [d5]
    split <;> omega
  have h := branch_imm_eq w
  refine ⟨h, ?_, ?_, ?_, key w, ?_⟩
  · rw [h]; split <;> omega
  · rw [h]; split <;> omega
  · rw [h]; split <;> omega
  · intro v hv h1 h2
    obtain ⟨g1, g2, g3, g4, g5, g6⟩ := branch_word_fields
      ((v % 8192).toNat / 4096 % 2) ((v % 8192).toNat / 2048 % 2)
      ((v % 8192).toNat / 32 % 64) ((v % 8192).toNat / 2 % 16)
      (Nat.mod_lt _ (by decide)) (Nat.mod_lt _ (by decide)) (Nat.mod_lt _ (by decide))
      (Nat.mod_lt _ (by decide))
    exact ⟨_, g1, g2, g3, g4, g5, g6, key _ v hv h1 h2 g3 g4 g5 g6⟩

theorem branch_imm_decoding_witness : branch_imm 0xFE000EE3 = -4 :=
  (branch_imm_decoding 0xFE000EE3).2.2.2.2.1 (-4) (by decide) (by decide) (by decide)
    (by decide) (by decide) (by decide) (by decide)

/-! ## Conditional branches -/

theorem step_branch (s : State) (h : get_bits (memory_rd_w s.mem s.pc) 0 6 = 0x63) :
    (step s).state.pc
        = (execute_branch s.registers ((s.pc + 4) % 2 ^ 32)
            (get_bits (memory_rd_w s.mem s.pc) 15 19) (get_bits (memory_rd_w s.mem s.pc) 20 24)
            (get_bits (memory_rd_w s.mem s.pc) 12 14) (branch_imm (memory_rd_w s.mem s.pc))
            s.pc).1
      ∧ (step s).locals.branch_taken
        = (execute_branch s.registers ((s.pc + 4) % 2 ^ 32)
            (get_bits (memory_rd_w s.mem s.pc) 15 19) (get_bits (memory_rd_w s.mem s.pc) 20 24)
            (get_bits (memory_rd_w s.mem s.pc) 12 14) (branch_imm (memory_rd_w s.mem s.pc))
            s.pc).2
      ∧ (step s).state.predictor
        = (match s.predictor with
          | some p => predictor_update (some p) s.pc
              (u32 (i32 s.pc + branch_imm (memory_rd_w s.mem s.pc)))
              (execute_branch s.registers ((s.pc + 4) % 2 ^ 32)
                (get_bits (memory_rd_w s.mem s.pc) 15 19)
                (get_bits (memory_rd_w s.mem s.pc) 20 24)
                (get_bits (memory_rd_w s.mem s.pc) 12 14)
                (branch_imm (memory_rd_w s.mem s.pc)) s.pc).2
          | none => none)
      ∧ (step s).state.registers = s.registers
      ∧ (step s).state.mem = s.mem := by
  unfold step
  simp only [h]
  rw [step_finish_pc, step_finish_registers, step_finish_mem, step_finish_predictor,
    step_finish_locals]
  exact ⟨rfl, rfl, rfl, rfl, rfl⟩

theorem u32_i32_add (n : Nat) (x : Int) : u32 (i32 n + x) = u32 ((n : Int) + x) := by
  unfold u32 i32
  split <;> omega

/-- `execute_branch` as a function of the predicate value. -/
theorem execute_branch_eq (registers : Nat → Int) (pc rs1 rs2 funct3 : Nat) (imm : Int)
    (current_pc : Nat) :
    ((execute_branch registers pc rs1 rs2 funct3 imm current_pc).2 = 1
        ∨ (execute_branch registers pc rs1 rs2 funct3 imm current_pc).2 = 0)
      ∧ ((execute_branch registers pc rs1 rs2 funct3 imm current_pc).2 = 1 →
          (execute_branch registers pc rs1 rs2 funct3 imm current_pc).1
            = u32 ((current_pc : Int) + imm))
      ∧ ((execute_branch registers pc rs1 rs2 funct3 imm current_pc).2 = 0 →
          (execute_branch registers pc rs1 rs2 funct3 imm current_pc).1 = pc) := by
  unfold execute_branch
  simp only []
  generalize (match funct3 with
    | 0x0 => if read_register registers rs1 = read_register registers rs2 then (1 : Int) else 0
    | 0x1 => if read_register registers rs1 ≠ read_register registers rs2 then 1 else 0
    | 0x4 => if read_register registers rs1 < read_register registers rs2 then 1 else 0
    | 0x5 => if read_register registers rs1 ≥ read_register registers rs2 then 1 else 0
    | 0x6 => if u32 (read_register registers rs1) < u32 (read_register registers rs2)
        then 1 else 0
    | 0x7 => if u32 (read_register registers rs1) ≥ u32 (read_register registers rs2)
        then 1 else 0
    | _ => 0) = bt
  by_cases h : bt ≠ 0
  · rw [if_pos h]
    exact ⟨Or.inl rfl, fun _ => u32_i32_add _ _,
      fun h0 => absurd (show (1 : Int) = 0 from h0) (by decide)⟩
  · rw [if_neg h]
    exact ⟨Or.inr rfl, fun h1 => absurd (show (0 : Int) = 1 from h1) (by decide),
      fun _ => rfl⟩

theorem execute_branch_taken (registers : Nat → Int) (pc rs1 rs2 : Nat) (imm : Int)
    (current_pc : Nat) :
    ((execute_branch registers pc rs1 rs2 0x0 imm current_pc).2 = 1
        ↔ read_register registers rs1 = read_register registers rs2)
      ∧ ((execute_branch registers pc rs1 rs2 0x1 imm current_pc).2 = 1
        ↔ read_register registers rs1 ≠ read_register registers rs2)
      ∧ ((execute_branch registers pc rs1 rs2 0x4 imm current_pc).2 = 1
        ↔ read_register registers rs1 < read_register registers rs2)
      ∧ ((execute_branch registers pc rs1 rs2 0x5 imm current_pc).2 = 1
        ↔ read_register registers rs1 ≥ read_register registers rs2)
      ∧ ((execute_branch registers pc rs1 rs2 0x6 imm current_pc).2 = 1
        ↔ u32 (read_register registers rs1) < u32 (read_register registers rs2))
      ∧ ((execute_branch registers pc rs1 rs2 0x7 imm current_pc).2 = 1
        ↔ u32 (read_register registers rs1) ≥ u32 (read_register registers rs2)) := by
  unfold execute_branch
  simp only []
  refine ⟨?_, ?_, ?_, ?_, ?_, ?_⟩ <;>
  · constructor
    · intro h
      by_contra hc
      simp [hc] at h
    · intro h
      simp [h]

/-- C19: conditional branch semantics.  For every state whose fetched word `w` has opcode
0x63, with `a`, `b` the values of rs1, rs2 and `taken` the local `branch_taken` of the
step: `taken` is 1 or 0, and it is 1 iff the predicate of funct3 holds (0 beq `a = b`,
1 bne `a != b`, 4 blt and 5 bge signed, 6 bltu and 7 bgeu on the unsigned patterns); the new
PC is `(current_pc + imm) mod 2 ^ 32` if taken and `current_pc + 4` (32-bit) otherwise; no
register and no memory byte changes; and a present predictor is updated by
`predictor_update(current_pc, (current_pc + imm) mod 2 ^ 32, taken)`. -/
theorem branch_semantics (s : State) (w : Nat) (a b : Int)
    (hw : memory_rd_w s.mem s.pc = w) (hop : get_bits w 0 6 = 0x63)
    (ha : read_register s.registers (get_bits w 15 19) = a)
    (hb : read_register s.registers (get_bits w 20 24) = b) :
    ((step s).locals.branch_taken = 1 ∨ (step s).locals.branch_taken = 0)
    ∧ (get_bits w 12 14 = 0x0 → ((step s).locals.branch_taken = 1 ↔ a = b))
    ∧ (get_bits w 12 14 = 0x1 → ((step s).locals.branch_taken = 1 ↔ a ≠ b))
    ∧ (get_bits w 12 14 = 0x4 → ((step s).locals.branch_taken = 1 ↔ a < b))
    ∧ (get_bits w 12 14 = 0x5 → ((step s).locals.branch_taken = 1 ↔ a ≥ b))
    ∧ (get_bits w 12 14 = 0x6 → ((step s).locals.branch_taken = 1 ↔ u32 a < u32 b))
    ∧ (get_bits w 12 14 = 0x7 → ((step s).locals.branch_taken = 1 ↔ u32 a ≥ u32 b))
    ∧ ((step s).locals.branch_taken = 1 →
        (step s).state.pc = u32 ((s.pc : Int) + branch_imm w))
    ∧ ((step s).locals.branch_taken = 0 → (step s).state.pc = (s.pc + 4) % 2 ^ 32)
    ∧ (step s).state.registers = s.registers
    ∧ (step s).state.mem = s.mem
    ∧ (step s).state.predictor
        = (match s.predictor with
          | some p => predictor_update (some p) s.pc (u32 ((s.pc : Int) + branch_imm w))
              (step s).locals.branch_taken
          | none => none) := by
  obtain ⟨hpc, hbt, hpred, hregs, hmem⟩ := step_branch s (by rw [hw]; exact hop)
  rw [hw] at hpc hbt hpred
  obtain ⟨e1, e2, e3⟩ := execute_branch_eq s.registers ((s.pc + 4) % 2 ^ 32)
    (get_bits w 15 19) (get_bits w 20 24) (get_bits w 12 14) (branch_imm w) s.pc
  obtain ⟨t0, t1, t4, t5, t6, t7⟩ := execute_branch_taken s.registers ((s.pc + 4) % 2 ^ 32)
    (get_bits w 15 19) (get_bits w 20 24) (branch_imm w) s.pc
  rw [ha, hb] at t0 t1 t4 t5 t6 t7
  rw [hpc, hbt, hpred, u32_i32_add]
  refine ⟨e1, ?_, ?_, ?_, ?_, ?_, ?_, e2, e3, hregs, hmem, rfl⟩
  · intro hf; rw [hf]; exact t0
  · intro hf; rw [hf]; exact t1
  · intro hf; rw [hf]; exact t4
  · intro hf; rw [hf]; exact t5
  · intro hf; rw [hf]; exact t6
  · intro hf; rw [hf]; exact t7

theorem branch_semantics_witness :
    (step { registers := fun _ => 0
            pc := 0x10004
            mem := memory_of_words 0x10004 [0xFE000EE3]
            predictor := some (predictor_create PRED_NT)
            insns := 0
            jump_target := 0
            input := []
            output := []
            stderr := [] }).state.pc = u32 ((0x10004 : Int) + branch_imm 0xFE000EE3) :=
  have h := branch_semantics
    { registers := fun _ => 0, pc := 0x10004, mem := memory_of_words 0x10004 [0xFE000EE3],
      predictor := some (predictor_create PRED_NT), insns := 0, jump_target := 0,
      input := [], output := [], stderr := [] }
    0xFE000EE3 0 0 (by decide) (by decide) (by decide) (by decide)
  h.2.2.2.2.2.2.2.1 ((h.2.1 (by decide)).mpr rfl)

/-! ## Alignment of the program counter -/

theorem shiftLeft_even (a k : Nat) (hk : 1 ≤ k) : (a <<< k) % 2 = 0 := by
  obtain ⟨j, rfl⟩ : ∃ j, k = j + 1 := ⟨k - 1, by omega⟩
  rw [Nat.shiftLeft_eq, pow_succ, ← Nat.mul_assoc]
  omega

theorem or_even (x y : Nat) (hx : x % 2 = 0) (hy : y % 2 = 0) : (x ||| y) % 2 = 0 := by
  have h := @Nat.or_mod_two_eq_one x y
  omega

theorem shiftLeft_lt (a k n : Nat) (ha : a < 2 ^ n) : a <<< k < 2 ^ (n + k) := by
  rw [Nat.shiftLeft_eq, pow_add]
  exact Nat.mul_lt_mul_of_pos_right ha (Nat.two_pow_pos k)

/-- The J-type field value assembled in `case 0x6F` is even and below `2 ^ 21`. -/
theorem jal_field (w : Nat) :
    ((get_bits w 31 31 <<< 20) ||| (get_bits w 12 19 <<< 12)
        ||| (get_bits w 20 20 <<< 11) ||| (get_bits w 21 30 <<< 1)) % 2 = 0
      ∧ (get_bits w 31 31 <<< 20) ||| (get_bits w 12 19 <<< 12)
        ||| (get_bits w 20 20 <<< 11) ||| (get_bits w 21 30 <<< 1) < 2 ^ 21 := by
  have mono : ∀ {x n : Nat}, x < 2 ^ n → n ≤ 21 → x < 2 ^ 21 := fun h hn =>
    lt_of_lt_of_le h (Nat.pow_le_pow_right (by decide) hn)
  have b1 := mono (shiftLeft_lt _ 20 _ (get_bits_lt w 31 31)) (by decide)
  have b2 := mono (shiftLeft_lt _ 12 _ (get_bits_lt w 12 19)) (by decide)
  have b3 := mono (shiftLeft_lt _ 11 _ (get_bits_lt w 20 20)) (by decide)
  have b4 := mono (shiftLeft_lt _ 1 _ (get_bits_lt w 21 30)) (by decide)
  constructor
  · exact or_even _ _ (or_even _ _ (or_even _ _ (shiftLeft_even _ _ (by decide))
      (shiftLeft_even _ _ (by decide))) (shiftLeft_even _ _ (by decide)))
      (shiftLeft_even _ _ (by decide))
  · exact Nat.or_lt_two_pow (Nat.or_lt_two_pow (Nat.or_lt_two_pow b1 b2) b3) b4

theorem sign_extend_even (value bits : Nat) (hb1 : 2 ≤ bits) (hb2 : bits ≤ 31)
    (hv : value < 2 ^ bits) (he : value % 2 = 0) : sign_extend value bits % 2 = 0 := by
  rw [sign_extend_eq value bits (by omega) hb2 hv]
  have hp : (2 : Int) ^ bits % 2 = 0 := by
    obtain ⟨j, rfl⟩ : ∃ j, bits = j + 1 := ⟨bits - 1, by omega⟩
    rw [pow_succ]
    omega
  split <;> omega

theorem u32_add_even (n : Nat) (x : Int) (hn : n % 2 = 0) (hx : x % 2 = 0) :
    u32 (i32 n + x) % 2 = 0 := by
  unfold u32 i32
  split <;> omega

theorem handle_ecall_pc (s : State) : (handle_ecall s).1.pc = s.pc := by
  unfold handle_ecall
  simp only []
  split
  · rfl
  · split
    · rfl
    · split <;> rfl

theorem branch_imm_even (w : Nat) : branch_imm w % 2 = 0 := by
  rw [branch_imm_eq w]
  split <;> omega

/-- One loop iteration keeps the program counter even. -/
theorem step_pc_even (s : State) (h : s.pc % 2 = 0) : (step s).state.pc % 2 = 0 := by
  have hseq : (s.pc + 4) % 2 ^ 32 % 2 = 0 := by omega
  unfold step
  simp only []
  split
  case h_5 =>
    rw [step_finish_pc]
    obtain ⟨e1, e2, e3⟩ := execute_branch_eq s.registers ((s.pc + 4) % 2 ^ 32)
      (get_bits (memory_rd_w s.mem s.pc) 15 19) (get_bits (memory_rd_w s.mem s.pc) 20 24)
      (get_bits (memory_rd_w s.mem s.pc) 12 14) (branch_imm (memory_rd_w s.mem s.pc)) s.pc
    rcases e1 with e | e
    · show (execute_branch _ _ _ _ _ _ _).1 % 2 = 0
      rw [e2 e, ← u32_i32_add]
      exact u32_add_even _ _ h (branch_imm_even _)
    · show (execute_branch _ _ _ _ _ _ _).1 % 2 = 0
      rw [e3 e]
      exact hseq
  case h_6 =>
    rw [step_finish_pc]
    obtain ⟨j1, j2⟩ := jal_field (memory_rd_w s.mem s.pc)
    exact u32_add_even _ _ h (sign_extend_even _ 21 (by decide) (by decide) j2 j1)
  case h_7 =>
    rw [step_finish_pc]
    show (u32 _ &&& 0xFFFFFFFE) % 2 = 0
    rw [and_clear_bit0 _ (u32_lt _)]
    omega
  case h_10 =>
    split
    · split
      · rw [handle_ecall_pc]; exact hseq
      · rw [step_finish_pc, handle_ecall_pc]; exact hseq
    · rw [step_finish_pc]; exact hseq
  case h_11 => exact hseq
  all_goals (rw [step_finish_pc]; exact hseq)

/-- A loop iteration whose opcode is not BRANCH, JAL or JALR leaves `pc = current_pc + 4`. -/
theorem step_pc_sequential (s : State)
    (h1 : get_bits (memory_rd_w s.mem s.pc) 0 6 ≠ 0x63)
    (h2 : get_bits (memory_rd_w s.mem s.pc) 0 6 ≠ 0x6F)
    (h3 : get_bits (memory_rd_w s.mem s.pc) 0 6 ≠ 0x67) :
    (step s).state.pc = (s.pc + 4) % 2 ^ 32 := by
  unfold step
  simp only []
  split
  case h_5 heq => exact absurd heq h1
  case h_6 heq => exact absurd heq h2
  case h_7 heq => exact absurd heq h3
  case h_10 =>
    split
    · split
      · rw [handle_ecall_pc]
      · rw [step_finish_pc, handle_ecall_pc]
    · rw [step_finish_pc]
  case h_11 => rfl
  all_goals rw [step_finish_pc]

theorem simulate_loop_pc_even (n : Nat) :
    ∀ s : State, s.pc % 2 = 0 → (simulate_loop n s).pc % 2 = 0 := by
  induction n with
  | zero => intro s h; exact h
  | succ n ih =>
    intro s h
    unfold simulate_loop
    simp only []
    split
    · exact ih _ (step_pc_even s h)
    · exact step_pc_even s h

/-- C18 fails as stated: the word 0x0020006F is `jal x0, 2`.  Started at the 4-aligned
entry address 0x10000, the first step ends with `pc = 0x10002` and the loop goes on, so the
second step starts at a PC that is 2 modulo 4. -/
theorem pc_alignment_counterexample :
    (0x10000 : Int) % 4 = 0
      ∧ get_bits 0x0020006F 0 6 = 0x6F
      ∧ (step (simulate_init (memory_of_words 0x10000 [0x0020006F]) 0x10000 none [])).exit
          = StepExit.next
      ∧ (simulate_loop 1
          (simulate_init (memory_of_words 0x10000 [0x0020006F]) 0x10000 none [])).pc = 0x10002
      ∧ (simulate_loop 1
          (simulate_init (memory_of_words 0x10000 [0x0020006F]) 0x10000 none [])).pc % 4 = 2 := by
  refine ⟨by decide, by decide, by decide, by decide, by decide⟩

/-! ## Loads -/

theorem step_load (s : State) (h : get_bits (memory_rd_w s.mem s.pc) 0 6 = 0x03) :
    (step s).state.registers
        = execute_load s.registers s.mem (get_bits (memory_rd_w s.mem s.pc) 7 11)
            (get_bits (memory_rd_w s.mem s.pc) 15 19) (get_bits (memory_rd_w s.mem s.pc) 12 14)
            (sign_extend (get_bits (memory_rd_w s.mem s.pc) 20 31) 12)
      ∧ (step s).state.mem = s.mem := by
  unfold step
  simp only [h]
  rw [step_finish_registers, step_finish_mem]
  exact ⟨rfl, rfl⟩

theorem memory_rd_b_lt (mem : memory) (addr : Nat) : memory_rd_b mem addr < 256 := by
  unfold memory_rd_b
  omega

theorem memory_rd_h_lt (mem : memory) (addr : Nat) : memory_rd_h mem addr < 65536 := by
  have h1 := memory_rd_b_lt mem addr
  have h2 := memory_rd_b_lt mem (addr + 1)
  unfold memory_rd_h
  omega

theorem memory_rd_w_lt (mem : memory) (addr : Nat) : memory_rd_w mem addr < 2 ^ 32 := by
  have h1 := memory_rd_b_lt mem addr
  have h2 := memory_rd_b_lt mem (addr + 1)
  have h3 := memory_rd_b_lt mem (addr + 2)
  have h4 := memory_rd_b_lt mem (addr + 3)
  unfold memory_rd_w
  omega

theorem execute_load_result (registers : Nat → Int) (mem : memory) (rd rs1 : Nat) (imm : Int)
    (hrd : rd ≠ 0) (hrd32 : rd < 32) :
    execute_load registers mem rd rs1 0x0 imm rd
        = i8 (memory_rd_b mem (u32 (read_register registers rs1 + imm)))
      ∧ execute_load registers mem rd rs1 0x1 imm rd
        = i16 (memory_rd_h mem (u32 (read_register registers rs1 + imm)))
      ∧ execute_load registers mem rd rs1 0x2 imm rd
        = i32 (memory_rd_w mem (u32 (read_register registers rs1 + imm)))
      ∧ execute_load registers mem rd rs1 0x4 imm rd
        = ((memory_rd_b mem (u32 (read_register registers rs1 + imm)) % 2 ^ 8 : Nat) : Int)
      ∧ execute_load registers mem rd rs1 0x5 imm rd
        = ((memory_rd_h mem (u32 (read_register registers rs1 + imm)) % 2 ^ 16 : Nat) : Int) := by
  unfold execute_load
  simp only []
  refine ⟨?_, ?_, ?_, ?_, ?_⟩ <;> exact write_register_self _ _ _ hrd hrd32

/-- C20: load extension.  For every state whose fetched word `w` has opcode 0x03 and rd not
0, with `base` the value of rs1 and `addr = (base + sign-extended imm) mod 2 ^ 32`: lb
(funct3 0) writes the byte at `addr` sign-extended, a value in [-128, 127]; lbu (4) writes
the byte itself, in [0, 255]; lh (1) writes the half-word sign-extended; lhu (5) the
half-word itself; lw (2) the word, read as `int32_t`.  A byte 0xFF gives the pattern
0xFFFFFFFF under lb and 0x000000FF under lbu.  The memory is unchanged. -/
theorem load_semantics (s : State) (w : Nat) (base : Int) (addr : Nat)
    (hw : memory_rd_w s.mem s.pc = w) (hop : get_bits w 0 6 = 0x03)
    (hrd : get_bits w 7 11 ≠ 0)
    (hbase : read_register s.registers (get_bits w 15 19) = base)
    (haddr : addr = u32 (base + sign_extend (get_bits w 20 31) 12)) :
    (get_bits w 12 14 = 0x0 →
        (step s).state.registers (get_bits w 7 11)
          = (if memory_rd_b s.mem addr < 128 then (memory_rd_b s.mem addr : Int)
             else (memory_rd_b s.mem addr : Int) - 256)
        ∧ -128 ≤ (step s).state.registers (get_bits w 7 11)
        ∧ (step s).state.registers (get_bits w 7 11) ≤ 127
        ∧ (memory_rd_b s.mem addr = 0xFF →
            u32 ((step s).state.registers (get_bits w 7 11)) = 0xFFFFFFFF))
    ∧ (get_bits w 12 14 = 0x4 →
        (step s).state.registers (get_bits w 7 11) = (memory_rd_b s.mem addr : Int)
        ∧ 0 ≤ (step s).state.registers (get_bits w 7 11)
        ∧ (step s).state.registers (get_bits w 7 11) ≤ 255
        ∧ (memory_rd_b s.mem addr = 0xFF →
            u32 ((step s).state.registers (get_bits w 7 11)) = 0x000000FF))
    ∧ (get_bits w 12 14 = 0x1 →
        (step s).state.registers (get_bits w 7 11)
          = (if memory_rd_h s.mem addr < 32768 then (memory_rd_h s.mem addr : Int)
             else (memory_rd_h s.mem addr : Int) - 65536)
        ∧ -32768 ≤ (step s).state.registers (get_bits w 7 11)
        ∧ (step s).state.registers (get_bits w 7 11) ≤ 32767)
    ∧ (get_bits w 12 14 = 0x5 →
        (step s).state.registers (get_bits w 7 11) = (memory_rd_h s.mem addr : Int)
        ∧ 0 ≤ (step s).state.registers (get_bits w 7 11)
        ∧ (step s).state.registers (get_bits w 7 11) ≤ 65535)
    ∧ (get_bits w 12 14 = 0x2 →
        u32 ((step s).state.registers (get_bits w 7 11)) = memory_rd_w s.mem addr)
    ∧ (step s).state.mem = s.mem := by
  obtain ⟨hregs, hmem⟩ := step_load s (by rw [hw]; exact hop)
  rw [hw] at hregs
  have hrd32 : get_bits w 7 11 < 32 := get_bits_lt w 7 11
  obtain ⟨l0, l1, l2, l4, l5⟩ := execute_load_result s.registers s.mem (get_bits w 7 11)
    (get_bits w 15 19) (sign_extend (get_bits w 20 31) 12) hrd hrd32
  rw [hbase, ← haddr] at l0 l1 l2 l4 l5
  have hb := memory_rd_b_lt s.mem addr
  have hh := memory_rd_h_lt s.mem addr
  have hword := memory_rd_w_lt s.mem addr
  rw [hregs]
  refine ⟨?_, ?_, ?_, ?_, ?_, hmem⟩
  · intro hf
    rw [hf, l0]
    unfold i8 u32
    refine ⟨?_, ?_, ?_, ?_⟩
    · split <;> split <;> omega
    · split <;> omega
    · split <;> omega
    · intro hff
      rw [hff]
      decide
  · intro hf
    rw [hf, l4]
    refine ⟨by omega, by omega, by omega, ?_⟩
    intro hff
    rw [hff]
    decide
  · intro hf
    rw [hf, l1]
    unfold i16
    refine ⟨?_, ?_, ?_⟩
    · split <;> split <;> omega
    · split <;> omega
    · split <;> omega
  · intro hf
    rw [hf, l5]
    refine ⟨by omega, by omega, by omega⟩
  · intro hf
    rw [hf, l2]
    exact i32_of_lt _ hword

theorem load_semantics_witness :
    u32 ((step { registers := fun i => if i = 2 then 0x10004 else 0
                 pc := 0x10000
                 mem := memory_of_words 0x10000 [0x00010083, 0x000000FF]
                 predictor := none
                 insns := 0
                 jump_target := 0
                 input := []
                 output := []
                 stderr := [] }).state.registers (get_bits 0x00010083 7 11)) = 0xFFFFFFFF :=
  ((load_semantics
    { registers := fun i => if i = 2 then 0x10004 else 0, pc := 0x10000,
      mem := memory_of_words 0x10000 [0x00010083, 0x000000FF], predictor := none, insns := 0,
      jump_target := 0, input := [], output := [], stderr := [] }
    0x00010083 0x10004 0x10004 (by decide) (by decide) (by decide) (by decide)
    (by decide)).1 (by decide)).2.2.2 (by decide)

/-! ## Ends of a run -/

theorem step_insns (s : State) : (step s).state.insns = s.insns + 1 := by
  have hf : ∀ (t : State) (l : StepLocals), (step_finish t l).state.insns = t.insns := by
    intro t l
    unfold step_finish
    split <;> rfl
  have he : ∀ t : State, (handle_ecall t).1.insns = t.insns := by
    intro t
    unfold handle_ecall
    simp only []
    split
    · rfl
    · split
      · rfl
      · split <;> rfl
  unfold step
  simp only []
  split
  case h_10 =>
    split
    · split
      · rw [he]
      · rw [hf, he]
    · rw [hf]
  case h_11 => rfl
  all_goals rw [hf]

theorem step_unknown (s : State)
    (h : get_bits (memory_rd_w s.mem s.pc) 0 6
      ∉ [0x33, 0x13, 0x03, 0x23, 0x63, 0x6F, 0x67, 0x37, 0x17, 0x73]) :
    (step s).exit = StepExit.return_unknown
      ∧ (step s).state
        = { s with
            pc := (s.pc + 4) % 2 ^ 32
            insns := s.insns + 1
            stderr := s.stderr
              ++ [Diagnostic.unknown_instruction (memory_rd_w s.mem s.pc) s.pc] } := by
  simp only [List.mem_cons, List.mem_singleton, List.not_mem_nil, not_or, or_false] at h
  obtain ⟨h1, h2, h3, h4, h5, h6, h7, h8, h9, h10⟩ := h
  unfold step
  simp only []
  exact ⟨trivial, trivial⟩

theorem simulate_loop_succ (n : Nat) (s : State) :
    simulate_loop (n + 1) s
      = (match (step s).exit with
        | StepExit.next => simulate_loop n (step s).state
        | _ => (step s).state) := rfl

/-- C22: unrecognized opcode.  For every state whose fetched word `w` has bits 0..6 outside
0x33, 0x13, 0x03, 0x23, 0x63, 0x6F, 0x67, 0x37, 0x17, 0x73, the step returns from the
`default` case: the run ends there (the loop yields the state of this step for every
iteration bound), no register, no memory byte and no predictor field changes (so
`predictor_update` is not called), the diagnostic names `w` and the PC, and `insns` has
counted this instruction. -/
theorem unknown_opcode_ends_run (s : State) (w : Nat)
    (hw : memory_rd_w s.mem s.pc = w)
    (hop : get_bits w 0 6 ∉ [0x33, 0x13, 0x03, 0x23, 0x63, 0x6F, 0x67, 0x37, 0x17, 0x73]) :
    (step s).exit = StepExit.return_unknown
    ∧ (step s).state.registers = s.registers
    ∧ (step s).state.mem = s.mem
    ∧ (step s).state.predictor = s.predictor
    ∧ (step s).state.insns = s.insns + 1
    ∧ (step s).state.stderr = s.stderr ++ [Diagnostic.unknown_instruction w s.pc]
    ∧ (∀ n, simulate_loop (n + 1) s = (step s).state)
    ∧ (∀ n, (simulate_loop (n + 1) s).insns = s.insns + 1) := by
  obtain ⟨hexit, hstate⟩ := step_unknown s (by rw [hw]; exact hop)
  have hloop : ∀ n, simulate_loop (n + 1) s = (step s).state := by
    intro n
    rw [simulate_loop_succ, hexit]
  refine ⟨hexit, ?_, ?_, ?_, ?_, ?_, hloop, ?_⟩
  · rw [hstate]
  · rw [hstate]
  · rw [hstate]
  · rw [hstate]
  · rw [hstate, hw]
  · intro n
    rw [hloop n, hstate]

theorem unknown_opcode_ends_run_witness :
    (step (simulate_init (memory_of_words 0x10000 [0x0000007F]) 0x10000
        (some (predictor_create PRED_NT)) [])).exit = StepExit.return_unknown :=
  (unknown_opcode_ends_run
    (simulate_init (memory_of_words 0x10000 [0x0000007F]) 0x10000
      (some (predictor_create PRED_NT)) [])
    0x0000007F (by decide) (by decide)).1

/-! ## The ecall instruction -/

theorem step_finish_exit (s : State) (l : StepLocals) :
    (step_finish s l).exit
      = if s.insns > 100000000 then StepExit.break_limit else StepExit.next := by
  unfold step_finish
  split <;> rfl

theorem step_finish_input (s : State) (l : StepLocals) :
    (step_finish s l).state.input = s.input := by
  unfold step_finish
  split <;> rfl

theorem step_finish_output (s : State) (l : StepLocals) :
    (step_finish s l).state.output = s.output := by
  unfold step_finish
  split <;> rfl

theorem step_finish_insns (s : State) (l : StepLocals) :
    (step_finish s l).state.insns = s.insns := by
  unfold step_finish
  split <;> rfl

/-- The loop iteration on the word 0x00000073 in terms of `handle_ecall`. -/
theorem step_ecall_eq (s : State) (h : memory_rd_w s.mem s.pc = 0x00000073) :
    step s
      = if (handle_ecall { s with pc := (s.pc + 4) % 2 ^ 32, insns := s.insns + 1 }).2 ≠ 0 then
          { state := (handle_ecall { s with pc := (s.pc + 4) % 2 ^ 32, insns := s.insns + 1 }).1
            locals :=
              { instr := 0x00000073, current_pc := s.pc
                is_jump_target := decide (s.pc = s.jump_target)
                reg_written := -1, reg_value := 0, mem_written := 0, mem_addr := 0
                mem_value := 0, branch_taken := -1 }
            exit := StepExit.return_ecall }
        else
          step_finish (handle_ecall { s with pc := (s.pc + 4) % 2 ^ 32, insns := s.insns + 1 }).1
            { instr := 0x00000073, current_pc := s.pc
              is_jump_target := decide (s.pc = s.jump_target)
              reg_written := -1, reg_value := 0, mem_written := 0, mem_addr := 0
              mem_value := 0, branch_taken := -1 } := by
  have hop : get_bits 0x00000073 0 6 = 0x73 := by decide
  unfold step
  simp only [h, hop]
  rfl

/-- The four outcomes of `handle_ecall`, by the value of x17. -/
theorem handle_ecall_cases (s : State) :
    (read_register s.registers 17 = 1 →
        (handle_ecall s).2 = 0
        ∧ (handle_ecall s).1
          = { s with
              registers := write_register s.registers 10
                (match s.input with
                | [] => -1
                | b :: _ => ((b % 256 : Nat) : Int))
              input := s.input.tail })
    ∧ (read_register s.registers 17 = 2 →
        (handle_ecall s).2 = 0
        ∧ (handle_ecall s).1
          = { s with output := s.output ++ [u32 (read_register s.registers 10) % 256] })
    ∧ (read_register s.registers 17 = 3 ∨ read_register s.registers 17 = 93 →
        (handle_ecall s).2 = 1 ∧ (handle_ecall s).1 = s)
    ∧ (read_register s.registers 17 ≠ 1 → read_register s.registers 17 ≠ 2 →
        read_register s.registers 17 ≠ 3 → read_register s.registers 17 ≠ 93 →
        (handle_ecall s).2 = 1
        ∧ (handle_ecall s).1
          = { s with stderr := s.stderr
                ++ [Diagnostic.unknown_systemcall (read_register s.registers 17)] }) := by
  unfold handle_ecall
  simp only []
  refine ⟨?_, ?_, ?_, ?_⟩
  · intro h
    rw [if_pos h]
    exact ⟨rfl, rfl⟩
  · intro h
    rw [if_neg (by rw [h]; decide), if_pos h]
    exact ⟨rfl, rfl⟩
  · intro h
    have h1 : read_register s.registers 17 ≠ 1 := by rcases h with h | h <;> rw [h] <;> decide
    have h2 : read_register s.registers 17 ≠ 2 := by rcases h with h | h <;> rw [h] <;> decide
    rw [if_neg h1, if_neg h2, if_pos h]
    exact ⟨rfl, rfl⟩
  · intro h1 h2 h3 h93
    rw [if_neg h1, if_neg h2, if_neg (by simp [h3, h93])]
    exact ⟨rfl, rfl⟩

/-- C21 fails as stated: with x17 = 2 and 100,000,000 instructions already counted, the
step on the word 0x00000073 is the one that exceeds the instruction limit; it leaves the
loop by the `break` of the limit check, so the run ends at this ecall although x17 is 2
(the loop, allowed three more iterations, has executed just this one). -/
theorem ecall_dispatch_counterexample :
    memory_rd_w (memory_of_words 0x10000 [0x00000073]) 0x10000 = 0x00000073
      ∧ read_register (fun i => if i = 17 then 2 else if i = 10 then 65 else 0) 17 = 2
      ∧ (step { registers := fun i => if i = 17 then 2 else if i = 10 then 65 else 0
                pc := 0x10000
                mem := memory_of_words 0x10000 [0x00000073]
                predictor := none
                insns := 100000000
                jump_target := 0
                input := []
                output := []
                stderr := [] }).exit = StepExit.break_limit
      ∧ (simulate_loop 3
            { registers := fun i => if i = 17 then 2 else if i = 10 then 65 else 0
              pc := 0x10000
              mem := memory_of_words 0x10000 [0x00000073]
              predictor := none
              insns := 100000000
              jump_target := 0
              input := []
              output := []
              stderr := [] }).insns = 100000001 := by
  refine ⟨by decide, by decide, by decide, by decide⟩

/-- C21 as amended: for every state whose fetched word is 0x00000073, with x17 the value of
register 17: the step returns from the ecall case, ending the run at that instruction, iff
x17 is neither 1 nor 2 (3 and 93 exit silently with the state untouched, every other value
reports an unknown system call).  With x17 = 2 all registers are unchanged, the PC is
`current_pc + 4` and the low 8 bits of x10 are appended to the output; with x17 = 1 only
x10 changes, receiving the next input byte or -1 when the input is exhausted.  In these two
cases the run continues, unless this instruction is the one that takes `insns` above
100,000,000, where the limit check ends the run. -/
theorem ecall_dispatch (s : State) (hw : memory_rd_w s.mem s.pc = 0x00000073) :
    ((step s).exit = StepExit.return_ecall ↔
        (read_register s.registers 17 ≠ 1 ∧ read_register s.registers 17 ≠ 2))
    ∧ (read_register s.registers 17 = 3 ∨ read_register s.registers 17 = 93 →
        (step s).exit = StepExit.return_ecall
        ∧ (step s).state = { s with pc := (s.pc + 4) % 2 ^ 32, insns := s.insns + 1 })
    ∧ (read_register s.registers 17 ≠ 1 → read_register s.registers 17 ≠ 2 →
        read_register s.registers 17 ≠ 3 → read_register s.registers 17 ≠ 93 →
        (step s).exit = StepExit.return_ecall
        ∧ (step s).state.registers = s.registers
        ∧ (step s).state.stderr
          = s.stderr ++ [Diagnostic.unknown_systemcall (read_register s.registers 17)])
    ∧ (read_register s.registers 17 = 2 →
        (step s).exit
          = (if s.insns + 1 > 100000000 then StepExit.break_limit else StepExit.next)
        ∧ (step s).state.registers = s.registers
        ∧ (step s).state.pc = (s.pc + 4) % 2 ^ 32
        ∧ (step s).state.mem = s.mem
        ∧ (step s).state.output = s.output ++ [u32 (read_register s.registers 10) % 256])
    ∧ (read_register s.registers 17 = 1 →
        (step s).exit
          = (if s.insns + 1 > 100000000 then StepExit.break_limit else StepExit.next)
        ∧ (∀ i, i ≠ 10 → (step s).state.registers i = s.registers i)
        ∧ (step s).state.registers 10
          = (match s.input with
            | [] => -1
            | b :: _ => ((b % 256 : Nat) : Int))
        ∧ (step s).state.input = s.input.tail
        ∧ (step s).state.pc = (s.pc + 4) % 2 ^ 32
        ∧ (step s).state.mem = s.mem
        ∧ (step s).state.output = s.output) := by
  have heq := step_ecall_eq s hw
  obtain ⟨c1, c2, c3, c4⟩ :=
    handle_ecall_cases { s with pc := (s.pc + 4) % 2 ^ 32, insns := s.insns + 1 }
  have hcont : ∀ t : State, ∀ l : StepLocals,
      (step_finish t l).exit ≠ StepExit.return_ecall := by
    intro t l
    rw [step_finish_exit]
    split <;> decide
  have k3 : read_register s.registers 17 = 3 ∨ read_register s.registers 17 = 93 →
      (step s).exit = StepExit.return_ecall
      ∧ (step s).state = { s with pc := (s.pc + 4) % 2 ^ 32, insns := s.insns + 1 } := by
    intro h
    obtain ⟨r2, r1⟩ := c3 h
    rw [heq, if_pos (by rw [r2]; decide), r1]
    exact ⟨rfl, rfl⟩
  have k4 : read_register s.registers 17 ≠ 1 → read_register s.registers 17 ≠ 2 →
      read_register s.registers 17 ≠ 3 → read_register s.registers 17 ≠ 93 →
      (step s).exit = StepExit.return_ecall
      ∧ (step s).state.registers = s.registers
      ∧ (step s).state.stderr
        = s.stderr ++ [Diagnostic.unknown_systemcall (read_register s.registers 17)] := by
    intro h1 h2 h3 h93
    obtain ⟨r2, r1⟩ := c4 h1 h2 h3 h93
    rw [heq, if_pos (by rw [r2]; decide), r1]
    exact ⟨rfl, rfl, rfl⟩
  have k2 : read_register s.registers 17 = 2 →
      (step s).exit
        = (if s.insns + 1 > 100000000 then StepExit.break_limit else StepExit.next)
      ∧ (step s).state.registers = s.registers
      ∧ (step s).state.pc = (s.pc + 4) % 2 ^ 32
      ∧ (step s).state.mem = s.mem
      ∧ (step s).state.output = s.output ++ [u32 (read_register s.registers 10) % 256] := by
    intro h
    obtain ⟨r2, r1⟩ := c2 h
    rw [heq, if_neg (by rw [r2]; decide), r1, step_finish_exit, step_finish_registers,
      step_finish_pc, step_finish_mem, step_finish_output]
    exact ⟨rfl, rfl, rfl, rfl, rfl⟩
  have k1 : read_register s.registers 17 = 1 →
      (step s).exit
        = (if s.insns + 1 > 100000000 then StepExit.break_limit else StepExit.next)
      ∧ (∀ i, i ≠ 10 → (step s).state.registers i = s.registers i)
      ∧ (step s).state.registers 10
        = (match s.input with
          | [] => -1
          | b :: _ => ((b % 256 : Nat) : Int))
      ∧ (step s).state.input = s.input.tail
      ∧ (step s).state.pc = (s.pc + 4) % 2 ^ 32
      ∧ (step s).state.mem = s.mem
      ∧ (step s).state.output = s.output := by
    intro h
    obtain ⟨r2, r1⟩ := c1 h
    rw [heq, if_neg (by rw [r2]; decide), r1, step_finish_exit, step_finish_registers,
      step_finish_pc, step_finish_mem, step_finish_output, step_finish_input]
    refine ⟨rfl, ?_, ?_, rfl, rfl, rfl, rfl⟩
    · intro i hi
      exact write_register_other _ _ _ _ hi
    · exact write_register_self s.registers 10 _ (by decide) (by decide)
  refine ⟨?_, k3, k4, k2, k1⟩
  constructor
  · intro hexit
    constructor
    · intro h
      rw [(k1 h).1] at hexit
      split at hexit <;> exact absurd hexit (by decide)
    · intro h
      rw [(k2 h).1] at hexit
      split at hexit <;> exact absurd hexit (by decide)
  · intro ⟨h1, h2⟩
    by_cases h3 : read_register s.registers 17 = 3 ∨ read_register s.registers 17 = 93
    · exact (k3 h3).1
    · exact (k4 h1 h2 (fun h => h3 (Or.inl h)) (fun h => h3 (Or.inr h))).1

theorem ecall_dispatch_witness :
    (step { registers := fun i => if i = 17 then 2 else if i = 10 then 65 else 0
            pc := 0x10000
            mem := memory_of_words 0x10000 [0x00000073]
            predictor := none
            insns := 0
            jump_target := 0
            input := []
            output := []
            stderr := [] }).state.output
      = [] ++ [u32 (read_register (fun i => if i = 17 then 2 else if i = 10 then 65 else 0) 10)
          % 256] :=
  ((ecall_dispatch
    { registers := fun i => if i = 17 then 2 else if i = 10 then 65 else 0, pc := 0x10000,
      mem := memory_of_words 0x10000 [0x00000073], predictor := none, insns := 0,
      jump_target := 0, input := [], output := [], stderr := [] }
    (by decide)).2.2.2.1 (by decide)).2.2.2.2

/-! ## Undefined encodings -/

theorem step_op (s : State) (h : get_bits (memory_rd_w s.mem s.pc) 0 6 = 0x33) :
    (step s).state.registers
        = execute_r_type s.registers (get_bits (memory_rd_w s.mem s.pc) 7 11)
            (get_bits (memory_rd_w s.mem s.pc) 15 19) (get_bits (memory_rd_w s.mem s.pc) 20 24)
            (get_bits (memory_rd_w s.mem s.pc) 12 14) (get_bits (memory_rd_w s.mem s.pc) 25 31)
      ∧ (step s).state.pc = (s.pc + 4) % 2 ^ 32
      ∧ (step s).state.mem = s.mem
      ∧ (step s).state.insns = s.insns + 1
      ∧ (step s).exit
        = (if s.insns + 1 > 100000000 then StepExit.break_limit else StepExit.next) := by
  unfold step
  simp only [h]
  rw [step_finish_pc, step_finish_registers, step_finish_mem, step_finish_exit,
    step_finish_insns]
  exact ⟨rfl, rfl, rfl, rfl, rfl⟩

theorem step_system_other (s : State) (h : get_bits (memory_rd_w s.mem s.pc) 0 6 = 0x73)
    (hne : memory_rd_w s.mem s.pc ≠ 0x00000073) :
    (step s).state.registers = s.registers
      ∧ (step s).state.pc = (s.pc + 4) % 2 ^ 32
      ∧ (step s).state.mem = s.mem
      ∧ (step s).state.insns = s.insns + 1
      ∧ (step s).exit
        = (if s.insns + 1 > 100000000 then StepExit.break_limit else StepExit.next) := by
  unfold step
  simp only [h, hne, if_false]
  rw [step_finish_pc, step_finish_registers, step_finish_mem, step_finish_exit,
    step_finish_insns]
  exact ⟨rfl, rfl, rfl, rfl, rfl⟩

/-- `execute_r_type` writes 0 for every `(funct7, funct3)` without a case. -/
theorem execute_r_type_undefined (registers : Nat → Int) (rd rs1 rs2 funct3 funct7 : Nat)
    (h0 : funct7 ≠ 0x00) (h1 : funct7 ≠ 0x01)
    (h20 : funct7 = 0x20 → funct3 ≠ 0x0 ∧ funct3 ≠ 0x5) :
    execute_r_type registers rd rs1 rs2 funct3 funct7 = write_register registers rd 0 := by
  unfold execute_r_type
  simp only []
  rw [if_neg h0]
  by_cases h : funct7 = 0x20
  · obtain ⟨g0, g5⟩ := h20 h
    rw [if_pos h]
    split
    · exact absurd rfl g0
    · exact absurd rfl g5
    · rfl
  · rw [if_neg h, if_neg h1]

/-- C30 fails as stated: the word 0x040000B3 has opcode 0x33 and funct7 = 0x02, an undefined
combination.  With 100,000,000 instructions already counted, the step on it exceeds the
instruction limit and leaves the loop by the `break` of the limit check, so the run does
not continue (the loop, allowed three more iterations, has executed just this one). -/
theorem undefined_encoding_counterexample :
    get_bits 0x040000B3 0 6 = 0x33 ∧ get_bits 0x040000B3 25 31 = 0x02
      ∧ memory_rd_w (memory_of_words 0x10000 [0x040000B3]) 0x10000 = 0x040000B3
      ∧ (step { registers := fun _ => 0
                pc := 0x10000
                mem := memory_of_words 0x10000 [0x040000B3]
                predictor := none
                insns := 100000000
                jump_target := 0
                input := []
                output := []
                stderr := [] }).exit = StepExit.break_limit
      ∧ (simulate_loop 3
            { registers := fun _ => 0
              pc := 0x10000
              mem := memory_of_words 0x10000 [0x040000B3]
              predictor := none
              insns := 100000000
              jump_target := 0
              input := []
              output := []
              stderr := [] }).insns = 100000001 := by
  refine ⟨by decide, by decide, by decide, by decide, by decide⟩

/-- C30 as amended: for every state whose fetched word `w` has opcode 0x33 and a
`(funct7, funct3)` outside the 18 defined combinations (funct7 is none of 0x00, 0x01, and
if it is 0x20 then funct3 is neither 0 nor 5), the step writes 0 to rd when rd is not 0,
leaves every other register and the memory unchanged and sets the PC to `current_pc + 4`;
for every word with opcode 0x73 other than 0x00000073 the step changes no register and no
memory and sets the PC to `current_pc + 4`.  In both cases the step does not return: the run
continues, unless this instruction is the one that takes `insns` above 100,000,000, where the
limit check ends the run. -/
theorem undefined_encodings (s : State) (w : Nat) (hw : memory_rd_w s.mem s.pc = w) :
    (get_bits w 0 6 = 0x33 →
      get_bits w 25 31 ≠ 0x00 → get_bits w 25 31 ≠ 0x01 →
      (get_bits w 25 31 = 0x20 → get_bits w 12 14 ≠ 0x0 ∧ get_bits w 12 14 ≠ 0x5) →
        (get_bits w 7 11 ≠ 0 → (step s).state.registers (get_bits w 7 11) = 0)
        ∧ (∀ i, i ≠ get_bits w 7 11 → (step s).state.registers i = s.registers i)
        ∧ (step s).state.pc = (s.pc + 4) % 2 ^ 32
        ∧ (step s).state.mem = s.mem
        ∧ (step s).exit
          = (if s.insns + 1 > 100000000 then StepExit.break_limit else StepExit.next)
        ∧ (s.insns < 100000000 → (step s).exit = StepExit.next))
    ∧ (get_bits w 0 6 = 0x73 → w ≠ 0x00000073 →
        (step s).state.registers = s.registers
        ∧ (step s).state.pc = (s.pc + 4) % 2 ^ 32
        ∧ (step s).state.mem = s.mem
        ∧ (step s).exit
          = (if s.insns + 1 > 100000000 then StepExit.break_limit else StepExit.next)
        ∧ (s.insns < 100000000 → (step s).exit = StepExit.next)) := by
  have hnext : s.insns < 100000000 →
      (if s.insns + 1 > 100000000 then StepExit.break_limit else StepExit.next)
        = StepExit.next := by
    intro h
    rw [if_neg (by omega)]
  constructor
  · intro hop h0 h1 h20
    obtain ⟨hregs, hpc, hmem, -, hexit⟩ := step_op s (by rw [hw]; exact hop)
    rw [hw, execute_r_type_undefined _ _ _ _ _ _ h0 h1 h20] at hregs
    have hrd32 : get_bits w 7 11 < 32 := get_bits_lt w 7 11
    refine ⟨?_, ?_, hpc, hmem, hexit, fun h => by rw [hexit]; exact hnext h⟩
    · intro hrd
      rw [hregs, write_register_self _ _ _ hrd hrd32]
    · intro i hi
      rw [hregs, write_register_other _ _ _ _ hi]
  · intro hop hne
    obtain ⟨hregs, hpc, hmem, -, hexit⟩ :=
      step_system_other s (by rw [hw]; exact hop) (by rw [hw]; exact hne)
    exact ⟨hregs, hpc, hmem, hexit, fun h => by rw [hexit]; exact hnext h⟩

theorem undefined_encodings_witness :
    (step { registers := fun i => if i = 1 then 7 else 0
            pc := 0x10000
            mem := memory_of_words 0x10000 [0x040000B3]
            predictor := none
            insns := 0
            jump_target := 0
            input := []
            output := []
            stderr := [] }).state.registers (get_bits 0x040000B3 7 11) = 0 :=
  ((undefined_encodings
    { registers := fun i => if i = 1 then 7 else 0, pc := 0x10000,
      mem := memory_of_words 0x10000 [0x040000B3], predictor := none, insns := 0,
      jump_target := 0, input := [], output := [], stderr := [] }
    0x040000B3 (by decide)).1 (by decide) (by decide) (by decide) (by decide)).1 (by decide)

/-! ## The instruction limit -/

/-- How a loop iteration can end, against the instruction count. -/
theorem step_exit_cases (s : State) :
    (step s).exit = StepExit.return_ecall ∨ (step s).exit = StepExit.return_unknown
      ∨ (step s).exit
        = (if s.insns + 1 > 100000000 then StepExit.break_limit else StepExit.next) := by
  have he : ∀ t : State, (handle_ecall t).1.insns = t.insns := by
    intro t
    unfold handle_ecall
    simp only []
    split
    · rfl
    · split
      · rfl
      · split <;> rfl
  unfold step
  simp only []
  split
  case h_10 =>
    split
    · split
      · exact Or.inl rfl
      · rw [step_finish_exit, he]; exact Or.inr (Or.inr rfl)
    · rw [step_finish_exit]; exact Or.inr (Or.inr rfl)
  case h_11 => exact Or.inr (Or.inl rfl)
  all_goals (rw [step_finish_exit]; exact Or.inr (Or.inr rfl))

theorem step_exit_next (s : State) (h : (step s).exit = StepExit.next) :
    s.insns + 1 ≤ 100000000 := by
  rcases step_exit_cases s with h1 | h1 | h1
  · rw [h1] at h; exact absurd h (by decide)
  · rw [h1] at h; exact absurd h (by decide)
  · rw [h1] at h
    by_contra hc
    rw [if_pos (by omega)] at h
    exact absurd h (by decide)

theorem step_exit_break (s : State) (h : (step s).exit = StepExit.break_limit) :
    s.insns + 1 > 100000000 := by
  rcases step_exit_cases s with h1 | h1 | h1
  · rw [h1] at h; exact absurd h (by decide)
  · rw [h1] at h; exact absurd h (by decide)
  · rw [h1] at h
    by_contra hc
    rw [if_neg hc] at h
    exact absurd h (by decide)

theorem simulate_loop_exit_succ (n : Nat) (s : State) :
    simulate_loop_exit (n + 1) s
      = (match (step s).exit with
        | StepExit.next => simulate_loop_exit n (step s).state
        | e => some e) := rfl

/-- The loop is always left once the iteration bound reaches what is missing up to
100000001 instructions. -/
theorem simulate_loop_exit_some (n : Nat) :
    ∀ s : State, 1 ≤ n → 100000001 ≤ s.insns + n →
      ∃ e, simulate_loop_exit n s = some e ∧ e ≠ StepExit.next := by
  induction n with
  | zero => intro s h; omega
  | succ n ih =>
    intro s _ hn
    rw [simulate_loop_exit_succ]
    cases hexit : (step s).exit with
    | next =>
      have h1 := step_exit_next s hexit
      have h2 := step_insns s
      exact ih (step s).state (by omega) (by omega)
    | return_ecall => exact ⟨_, rfl, by decide⟩
    | return_unknown => exact ⟨_, rfl, by decide⟩
    | break_limit => exact ⟨_, rfl, by decide⟩

/-- The instruction count after the loop, against the bound and the way it was left. -/
theorem simulate_loop_insns (n : Nat) :
    ∀ s : State, s.insns ≤ (simulate_loop n s).insns ∧ (simulate_loop n s).insns ≤ s.insns + n
      ∧ (simulate_loop_exit n s = some StepExit.break_limit →
          100000001 ≤ (simulate_loop n s).insns)
      ∧ (simulate_loop_exit n s = none → (simulate_loop n s).insns = s.insns + n
          ∧ (1 ≤ n → (simulate_loop n s).insns ≤ 100000000)) := by
  induction n with
  | zero =>
    intro s
    refine ⟨Nat.le_refl _, Nat.le_refl _, ?_, ?_⟩
    · intro h; exact absurd h (by simp [simulate_loop_exit])
    · intro _; exact ⟨rfl, fun h => by omega⟩
  | succ n ih =>
    intro s
    have h2 := step_insns s
    rw [simulate_loop_succ, simulate_loop_exit_succ]
    cases hexit : (step s).exit with
    | next =>
      obtain ⟨i1, i2, i3, i4⟩ := ih (step s).state
      have h1 := step_exit_next s hexit
      dsimp only
      refine ⟨by omega, by omega, i3, ?_⟩
      intro hnone
      obtain ⟨j1, j2⟩ := i4 hnone
      refine ⟨by omega, fun _ => ?_⟩
      by_cases hn : 1 ≤ n
      · exact j2 hn
      · omega
    | return_ecall =>
      refine ⟨by show s.insns ≤ (step s).state.insns; omega,
        by show (step s).state.insns ≤ s.insns + (n + 1); omega, ?_, ?_⟩
      · intro h; exact absurd (Option.some.inj h) (by decide)
      · intro h; exact absurd h (by simp)
    | return_unknown =>
      refine ⟨by show s.insns ≤ (step s).state.insns; omega,
        by show (step s).state.insns ≤ s.insns + (n + 1); omega, ?_, ?_⟩
      · intro h; exact absurd (Option.some.inj h) (by decide)
      · intro h; exact absurd h (by simp)
    | break_limit =>
      have h1 := step_exit_break s hexit
      refine ⟨by show s.insns ≤ (step s).state.insns; omega,
        by show (step s).state.insns ≤ s.insns + (n + 1); omega, ?_, ?_⟩
      · intro _
        show 100000001 ≤ (step s).state.insns
        omega
      · intro h; exact absurd h (by simp)

/-- Once the loop has been left, a larger iteration bound changes nothing. -/
theorem simulate_loop_fuel (n k : Nat) :
    ∀ (s : State) (e : StepExit), simulate_loop_exit n s = some e →
      simulate_loop (n + k) s = simulate_loop n s
        ∧ simulate_loop_exit (n + k) s = some e := by
  induction n with
  | zero => intro s e h; exact absurd h (by simp [simulate_loop_exit])
  | succ n ih =>
    intro s e h
    have hk : n + 1 + k = (n + k) + 1 := by omega
    rw [hk, simulate_loop_succ, simulate_loop_succ, simulate_loop_exit_succ]
    rw [simulate_loop_exit_succ] at h
    cases hexit : (step s).exit with
    | next =>
      rw [hexit] at h
      exact ih (step s).state e h
    | return_ecall => rw [hexit] at h; exact ⟨rfl, h⟩
    | return_unknown => rw [hexit] at h; exact ⟨rfl, h⟩
    | break_limit => rw [hexit] at h; exact ⟨rfl, h⟩

/-- C23: runaway guard.  For every memory image, entry address, predictor and input,
the loop of `simulate` is left within 100,000,001 iterations, by a return or by the `break`
of the limit check, so `simulate` terminates and a larger iteration bound gives the same
final state; the returned `insns` is at most 100,000,001; a run left by the limit check
(not ended by an ecall or an unknown opcode) ends with `insns = 100,000,001`, the first
value above 100,000,000; and in general an iteration breaks on the limit only with `insns`
above 100,000,000 and goes on to the next iteration only with `insns` at most 100,000,000. -/
theorem runaway_guard (mem : memory) (start_addr : Int)
    (predictor : Option branch_predictor_t) (input : List Nat) :
    (∃ e, simulate_loop_exit 100000001 (simulate_init mem start_addr predictor input) = some e
        ∧ (e = StepExit.return_ecall ∨ e = StepExit.return_unknown ∨ e = StepExit.break_limit))
    ∧ (∀ k, simulate_loop (100000001 + k) (simulate_init mem start_addr predictor input)
        = simulate mem start_addr predictor input)
    ∧ (simulate mem start_addr predictor input).insns ≤ 100000001
    ∧ (simulate_loop_exit 100000001 (simulate_init mem start_addr predictor input)
          = some StepExit.break_limit →
        (simulate mem start_addr predictor input).insns = 100000001)
    ∧ (∀ n, simulate_loop_exit n (simulate_init mem start_addr predictor input) = none →
        (simulate_loop n (simulate_init mem start_addr predictor input)).insns = n
        ∧ n ≤ 100000000)
    ∧ (∀ s : State, ((step s).exit = StepExit.break_limit → (step s).state.insns > 100000000)
        ∧ ((step s).exit = StepExit.next → (step s).state.insns ≤ 100000000)) := by
  have h0 : (simulate_init mem start_addr predictor input).insns = 0 := rfl
  obtain ⟨e, he, hne⟩ := simulate_loop_exit_some 100000001
    (simulate_init mem start_addr predictor input) (by decide) (by rw [h0])
  obtain ⟨i1, i2, i3, i4⟩ := simulate_loop_insns 100000001
    (simulate_init mem start_addr predictor input)
  refine ⟨⟨e, he, ?_⟩, ?_, ?_, ?_, ?_, ?_⟩
  · cases e with
    | next => exact absurd rfl hne
    | return_ecall => exact Or.inl rfl
    | return_unknown => exact Or.inr (Or.inl rfl)
    | break_limit => exact Or.inr (Or.inr rfl)
  · intro k
    exact (simulate_loop_fuel 100000001 k _ e he).1
  · show (simulate_loop 100000001 _).insns ≤ 100000001
    omega
  · intro hb
    have := i3 hb
    show (simulate_loop 100000001 _).insns = 100000001
    omega
  · intro n hnone
    obtain ⟨-, -, -, j4⟩ := simulate_loop_insns n
      (simulate_init mem start_addr predictor input)
    obtain ⟨k1, k2⟩ := j4 hnone
    rw [h0, Nat.zero_add] at k1
    refine ⟨k1, ?_⟩
    by_cases hn : 1 ≤ n
    · have := k2 hn
      omega
    · omega
  · intro s
    have h2 := step_insns s
    exact ⟨fun h => by have := step_exit_break s h; omega,
      fun h => by have := step_exit_next s h; omega⟩

theorem runaway_guard_witness :
    (simulate (memory_of_words 0x10000 [0x0000006F]) 0x10000 none []).insns ≤ 100000001 :=
  (runaway_guard (memory_of_words 0x10000 [0x0000006F]) 0x10000 none []).2.2.1

/-! ## End-to-end scenarios -/

theorem step_op_imm_frame (s : State) (h : get_bits (memory_rd_w s.mem s.pc) 0 6 = 0x13) :
    (step s).state.pc = (s.pc + 4) % 2 ^ 32
      ∧ (step s).state.mem = s.mem
      ∧ (step s).state.insns = s.insns + 1
      ∧ (step s).exit
        = (if s.insns + 1 > 100000000 then StepExit.break_limit else StepExit.next) := by
  unfold step
  simp only [h]
  rw [step_finish_pc, step_finish_mem, step_finish_exit, step_finish_insns]
  exact ⟨rfl, rfl, rfl, rfl⟩

/-- The encoding of `addi rd, rs1, imm` and what the decoder reads from it. -/
theorem addi_fields (rd rs1 : Nat) (imm : Int) (hrd : rd < 32) (hrs1 : rs1 < 32)
    (h1 : -2048 ≤ imm) (h2 : imm ≤ 2047) :
    get_bits ((imm % 4096).toNat * 2 ^ 20 + rs1 * 2 ^ 15 + rd * 2 ^ 7 + 0x13) 0 6 = 0x13
      ∧ get_bits ((imm % 4096).toNat * 2 ^ 20 + rs1 * 2 ^ 15 + rd * 2 ^ 7 + 0x13) 7 11 = rd
      ∧ get_bits ((imm % 4096).toNat * 2 ^ 20 + rs1 * 2 ^ 15 + rd * 2 ^ 7 + 0x13) 12 14 = 0
      ∧ get_bits ((imm % 4096).toNat * 2 ^ 20 + rs1 * 2 ^ 15 + rd * 2 ^ 7 + 0x13) 15 19 = rs1
      ∧ sign_extend
          (get_bits ((imm % 4096).toNat * 2 ^ 20 + rs1 * 2 ^ 15 + rd * 2 ^ 7 + 0x13) 20 31) 12
        = imm := by
  have hu : (imm % 4096).toNat < 4096 := by omega
  have hc : ((imm % 4096).toNat : Int) = imm % 4096 := by omega
  generalize (imm % 4096).toNat = u at hu hc
  have e20 : get_bits (u * 2 ^ 20 + rs1 * 2 ^ 15 + rd * 2 ^ 7 + 0x13) 20 31 = u := by
    rw [get_bits_eq]; norm_num; omega
  refine ⟨?_, ?_, ?_, ?_, ?_⟩
  · rw [get_bits_eq]; norm_num; omega
  · rw [get_bits_eq]; norm_num; omega
  · rw [get_bits_eq]; norm_num; omega
  · rw [get_bits_eq]; norm_num; omega
  · rw [e20, sign_extend_eq u 12 (by decide) (by decide) (by norm_num; omega)]
    norm_num
    split <;> omega

theorem execute_i_type_alu_addi (registers : Nat → Int) (rd rs1 : Nat) (imm : Int)
    (funct7 : Nat) :
    execute_i_type_alu registers rd rs1 0x0 imm funct7
      = write_register registers rd (wrap32 (read_register registers rs1 + imm)) := rfl

theorem execute_r_type_add (registers : Nat → Int) (rd rs1 rs2 : Nat) :
    execute_r_type registers rd rs1 rs2 0x0 0x00
      = write_register registers rd
          (wrap32 (read_register registers rs1 + read_register registers rs2)) := rfl

/-- One loop iteration on `addi rd, rs1, imm`. -/
theorem step_addi (s : State) (rd rs1 : Nat) (imm : Int) (hrd : rd < 32) (hrs1 : rs1 < 32)
    (h1 : -2048 ≤ imm) (h2 : imm ≤ 2047)
    (hw : memory_rd_w s.mem s.pc
      = (imm % 4096).toNat * 2 ^ 20 + rs1 * 2 ^ 15 + rd * 2 ^ 7 + 0x13) :
    (step s).state.registers
        = write_register s.registers rd (wrap32 (read_register s.registers rs1 + imm))
      ∧ (step s).state.pc = (s.pc + 4) % 2 ^ 32
      ∧ (step s).state.mem = s.mem
      ∧ (step s).state.insns = s.insns + 1
      ∧ (step s).exit
        = (if s.insns + 1 > 100000000 then StepExit.break_limit else StepExit.next) := by
  obtain ⟨f1, f2, f3, f4, f5⟩ := addi_fields rd rs1 imm hrd hrs1 h1 h2
  rw [← hw] at f1 f2 f3 f4 f5
  obtain ⟨g1, g2, g3, g4⟩ := step_op_imm_frame s f1
  refine ⟨?_, g1, g2, g3, g4⟩
  rw [step_op_imm s f1, f2, f3, f4, if_neg (by decide), f5, execute_i_type_alu_addi]

theorem simulate_loop_next (n : Nat) (s : State) (h : (step s).exit = StepExit.next) :
    simulate_loop (n + 1) s = simulate_loop n (step s).state
      ∧ simulate_loop_exit (n + 1) s = simulate_loop_exit n (step s).state := by
  rw [simulate_loop_succ, simulate_loop_exit_succ, h]
  exact ⟨rfl, rfl⟩

theorem simulate_loop_stop (n : Nat) (s : State) (h : (step s).exit ≠ StepExit.next) :
    simulate_loop (n + 1) s = (step s).state
      ∧ simulate_loop_exit (n + 1) s = some (step s).exit := by
  rw [simulate_loop_succ, simulate_loop_exit_succ]
  cases hexit : (step s).exit with
  | next => exact absurd hexit h
  | return_ecall => exact ⟨rfl, rfl⟩
  | return_unknown => exact ⟨rfl, rfl⟩
  | break_limit => exact ⟨rfl, rfl⟩

/-- C24: end-to-end scenario 1.  For all `a`, `b` in [-2048, 2047], every memory that holds
from the entry address the encodings of `addi x1, x0, a`, `addi x2, x0, b`,
`add x3, x1, x2` (0x002081B3) and `ecall` (0x00000073), and every predictor and input:
`simulate` leaves the loop by the return of the ecall case at the fourth instruction, with
`insns = 4`, `x1 = a`, `x2 = b` and `x3 = a + b`. -/
theorem scenario_addi_add_ecall (mem : memory) (start_addr : Int)
    (predictor : Option branch_predictor_t) (input : List Nat) (a b : Int)
    (ha1 : -2048 ≤ a) (ha2 : a ≤ 2047) (hb1 : -2048 ≤ b) (hb2 : b ≤ 2047)
    (h1 : memory_rd_w mem (u32 start_addr) = (a % 4096).toNat * 2 ^ 20 + 0x00000093)
    (h2 : memory_rd_w mem ((u32 start_addr + 4) % 2 ^ 32)
      = (b % 4096).toNat * 2 ^ 20 + 0x00000113)
    (h3 : memory_rd_w mem ((u32 start_addr + 8) % 2 ^ 32) = 0x002081B3)
    (h4 : memory_rd_w mem ((u32 start_addr + 12) % 2 ^ 32) = 0x00000073) :
    simulate_loop_exit 100000001 (simulate_init mem start_addr predictor input)
        = some StepExit.return_ecall
    ∧ (simulate mem start_addr predictor input).insns = 4
    ∧ (simulate mem start_addr predictor input).registers 1 = a
    ∧ (simulate mem start_addr predictor input).registers 2 = b
    ∧ (simulate mem start_addr predictor input).registers 3 = a + b := by
  -- first instruction
  have w1 : memory_rd_w (simulate_init mem start_addr predictor input).mem
      (simulate_init mem start_addr predictor input).pc
      = (a % 4096).toNat * 2 ^ 20 + 0 * 2 ^ 15 + 1 * 2 ^ 7 + 0x13 := by
    show memory_rd_w mem (u32 start_addr) = _
    rw [h1]
    omega
  obtain ⟨r1, p1, m1, i1, e1⟩ := step_addi _ 1 0 a (by decide) (by decide) ha1 ha2 w1
  generalize hs1 : (step (simulate_init mem start_addr predictor input)).state = s1
    at r1 p1 m1 i1
  have p1' : s1.pc = (u32 start_addr + 4) % 2 ^ 32 := p1
  have m1' : s1.mem = mem := m1
  have i1' : s1.insns = 1 := i1
  have x1 : (step (simulate_init mem start_addr predictor input)).exit = StepExit.next := by
    rw [e1]; rfl
  have r1' : s1.registers = write_register init_register 1 a := by
    rw [r1]
    show write_register init_register 1 (wrap32 (read_register init_register 0 + a)) = _
    have : read_register init_register 0 + a = a := by
      show (0 : Int) + a = a
      omega
    rw [this, wrap32_of_range a (by omega) (by omega)]
  -- second instruction
  have w2 : memory_rd_w s1.mem s1.pc
      = (b % 4096).toNat * 2 ^ 20 + 0 * 2 ^ 15 + 2 * 2 ^ 7 + 0x13 := by
    rw [m1', p1', h2]
    omega
  obtain ⟨r2, p2, m2, i2, e2⟩ := step_addi s1 2 0 b (by decide) (by decide) hb1 hb2 w2
  have x2 : (step s1).exit = StepExit.next := by
    rw [e2, i1']; rfl
  generalize hs2 : (step s1).state = s2 at r2 p2 m2 i2
  have p2' : s2.pc = (u32 start_addr + 8) % 2 ^ 32 := by rw [p2, p1']; omega
  have m2' : s2.mem = mem := by rw [m2, m1']
  have i2' : s2.insns = 2 := by rw [i2, i1']
  have r2' : s2.registers = write_register (write_register init_register 1 a) 2 b := by
    rw [r2, r1']
    have : read_register (write_register init_register 1 a) 0 + b = b := by
      show write_register init_register 1 a 0 + b = b
      rw [write_register_zero]
      show (0 : Int) + b = b
      omega
    rw [this, wrap32_of_range b (by omega) (by omega)]
  have v1 : s2.registers 1 = a := by
    rw [r2', write_register_other _ _ _ _ (by decide),
      write_register_self _ _ _ (by decide) (by decide)]
  have v2 : s2.registers 2 = b := by
    rw [r2', write_register_self _ _ _ (by decide) (by decide)]
  -- third instruction
  have w3 : memory_rd_w s2.mem s2.pc = 0x002081B3 := by rw [m2', p2', h3]
  obtain ⟨r3, p3, m3, i3, e3⟩ := step_op s2 (by rw [w3]; decide)
  rw [w3] at r3
  have x3 : (step s2).exit = StepExit.next := by
    rw [e3, i2']; rfl
  generalize hs3 : (step s2).state = s3 at r3 p3 m3 i3
  have p3' : s3.pc = (u32 start_addr + 12) % 2 ^ 32 := by rw [p3, p2']; omega
  have m3' : s3.mem = mem := by rw [m3, m2']
  have i3' : s3.insns = 3 := by rw [i3, i2']
  have r3' : s3.registers = write_register s2.registers 3 (a + b) := by
    rw [r3]
    show execute_r_type s2.registers 3 1 2 0x0 0x00 = _
    rw [execute_r_type_add]
    show write_register s2.registers 3 (wrap32 (s2.registers 1 + s2.registers 2)) = _
    rw [v1, v2, wrap32_of_range (a + b) (by omega) (by omega)]
  -- fourth instruction
  have w4 : memory_rd_w s3.mem s3.pc = 0x00000073 := by rw [m3', p3', h4]
  have hx17 : read_register s3.registers 17 = 0 := by
    show s3.registers 17 = 0
    rw [r3', write_register_other _ _ _ _ (by decide), r2',
      write_register_other _ _ _ _ (by decide), write_register_other _ _ _ _ (by decide)]
    rfl
  obtain ⟨-, -, k4, -, -⟩ := ecall_dispatch s3 w4
  obtain ⟨x4, r4, -⟩ := k4 (by rw [hx17]; decide) (by rw [hx17]; decide)
    (by rw [hx17]; decide) (by rw [hx17]; decide)
  have i4 := step_insns s3
  -- the loop
  have l1 := simulate_loop_next 100000000 _ x1
  have l2 := simulate_loop_next 99999999 s1 x2
  have l3 := simulate_loop_next 99999998 s2 x3
  have l4 := simulate_loop_stop 99999997 s3 (by rw [x4]; decide)
  rw [hs1] at l1
  rw [hs2] at l2
  rw [hs3] at l3
  have hfinal : simulate mem start_addr predictor input = (step s3).state := by
    show simulate_loop 100000001 _ = _
    rw [l1.1, l2.1, l3.1, l4.1]
  have hexit : simulate_loop_exit 100000001 (simulate_init mem start_addr predictor input)
      = some StepExit.return_ecall := by
    rw [l1.2, l2.2, l3.2, l4.2, x4]
  refine ⟨hexit, ?_, ?_, ?_, ?_⟩
  · rw [hfinal, i4, i3']
  · rw [hfinal, r4, r3', write_register_other _ _ _ _ (by decide), v1]
  · rw [hfinal, r4, r3', write_register_other _ _ _ _ (by decide), v2]
  · rw [hfinal, r4, r3', write_register_self _ _ _ (by decide) (by decide)]

theorem scenario_addi_add_ecall_witness :
    (simulate (memory_of_words 0x10000 [0x00500093, 0x00700113, 0x002081B3, 0x00000073])
        0x10000 none []).insns = 4
      ∧ (simulate (memory_of_words 0x10000 [0x00500093, 0x00700113, 0x002081B3, 0x00000073])
        0x10000 none []).registers 3 = 5 + 7 :=
  have h := scenario_addi_add_ecall
    (memory_of_words 0x10000 [0x00500093, 0x00700113, 0x002081B3, 0x00000073]) 0x10000 none []
    5 7 (by decide) (by decide) (by decide) (by decide) (by decide) (by decide) (by decide)
    (by decide)
  ⟨h.2.1, h.2.2.2.2⟩

theorem step_lui (s : State) (h : get_bits (memory_rd_w s.mem s.pc) 0 6 = 0x37) :
    (step s).state.registers
        = write_register s.registers (get_bits (memory_rd_w s.mem s.pc) 7 11)
            (i32 ((get_bits (memory_rd_w s.mem s.pc) 12 31 <<< 12) % 2 ^ 32))
      ∧ (step s).state.pc = (s.pc + 4) % 2 ^ 32
      ∧ (step s).state.mem = s.mem
      ∧ (step s).state.insns = s.insns + 1
      ∧ (step s).exit
        = (if s.insns + 1 > 100000000 then StepExit.break_limit else StepExit.next) := by
  unfold step
  simp only [h]
  rw [step_finish_pc, step_finish_registers, step_finish_mem, step_finish_exit,
    step_finish_insns]
  exact ⟨rfl, rfl, rfl, rfl, rfl⟩

/-- The encoding of `lui rd, imm20` and what the decoder reads from it. -/
theorem lui_fields (rd hi : Nat) (hrd : rd < 32) (hhi : hi < 2 ^ 20) :
    get_bits (hi * 2 ^ 12 + rd * 2 ^ 7 + 0x37) 0 6 = 0x37
      ∧ get_bits (hi * 2 ^ 12 + rd * 2 ^ 7 + 0x37) 7 11 = rd
      ∧ get_bits (hi * 2 ^ 12 + rd * 2 ^ 7 + 0x37) 12 31 = hi := by
  refine ⟨?_, ?_, ?_⟩
  · rw [get_bits_eq]; norm_num; omega
  · rw [get_bits_eq]; norm_num; omega
  · rw [get_bits_eq]; norm_num; omega

/-- C25: lui/addi constant construction.  For every 32-bit value `v`, with `lo` the
sign-extended low 12 bits of `v` and `hi = ((v - lo) >> 12) mod 2 ^ 20`, and every state
(below the instruction limit) whose memory holds the encodings of `lui x1, hi` at the PC and
`addi x1, x1, lo` at PC + 4: the first step writes the pattern `hi << 12` to x1, the second
adds the sign-extended immediate modulo `2 ^ 32`, and after the two steps x1 holds the
pattern `v`. -/
theorem lui_addi_constant (s : State) (v : Nat) (lo : Int) (hi : Nat) (hv : v < 2 ^ 32)
    (hlo : lo = (if v % 4096 < 2048 then ((v % 4096 : Nat) : Int)
      else ((v % 4096 : Nat) : Int) - 4096))
    (hhi : (hi : Int) = (((v : Int) - lo) / 4096) % 2 ^ 20)
    (hins : s.insns + 2 ≤ 100000000)
    (h1 : memory_rd_w s.mem s.pc = hi * 2 ^ 12 + 0x000000B7)
    (h2 : memory_rd_w s.mem ((s.pc + 4) % 2 ^ 32)
      = (lo % 4096).toNat * 2 ^ 20 + 0x00008093) :
    u32 ((step s).state.registers 1) = hi * 2 ^ 12
    ∧ (step s).exit = StepExit.next
    ∧ u32 ((step (step s).state).state.registers 1)
        = u32 (((u32 ((step s).state.registers 1) : Nat) : Int) + lo)
    ∧ u32 ((step (step s).state).state.registers 1) = v
    ∧ u32 ((simulate_loop 2 s).registers 1) = v := by
  have hhi20 : hi < 2 ^ 20 := by omega
  have hlo1 : -2048 ≤ lo := by rw [hlo]; split <;> omega
  have hlo2 : lo ≤ 2047 := by rw [hlo]; split <;> omega
  -- lui
  have w1 : memory_rd_w s.mem s.pc = hi * 2 ^ 12 + 1 * 2 ^ 7 + 0x37 := by rw [h1]; omega
  obtain ⟨f1, f2, f3⟩ := lui_fields 1 hi (by decide) hhi20
  rw [← w1] at f1 f2 f3
  obtain ⟨r1, p1, m1, i1, e1⟩ := step_lui s f1
  rw [f2, f3] at r1
  have x1 : (step s).exit = StepExit.next := by
    rw [e1, if_neg (by omega)]
  have hshift : (hi <<< 12) % 2 ^ 32 = hi * 2 ^ 12 := by
    rw [Nat.shiftLeft_eq]
    omega
  rw [hshift] at r1
  have v1 : (step s).state.registers 1 = i32 (hi * 2 ^ 12) := by
    rw [r1, write_register_self _ _ _ (by decide) (by decide)]
  have u1 : u32 ((step s).state.registers 1) = hi * 2 ^ 12 := by
    rw [v1]
    exact i32_of_lt _ (by omega)
  -- addi
  have w2 : memory_rd_w (step s).state.mem (step s).state.pc
      = (lo % 4096).toNat * 2 ^ 20 + 1 * 2 ^ 15 + 1 * 2 ^ 7 + 0x13 := by
    rw [m1, p1, h2]
    omega
  obtain ⟨r2, -, -, -, e2⟩ := step_addi (step s).state 1 1 lo (by decide) (by decide)
    hlo1 hlo2 w2
  have x2 : (step (step s).state).exit = StepExit.next := by
    rw [e2, i1, if_neg (by omega)]
  have v2 : (step (step s).state).state.registers 1
      = wrap32 ((step s).state.registers 1 + lo) := by
    rw [r2, write_register_self _ _ _ (by decide) (by decide)]
    rfl
  have u2 : u32 ((step (step s).state).state.registers 1)
      = u32 (((u32 ((step s).state.registers 1) : Nat) : Int) + lo) := by
    rw [v2]
    generalize (step s).state.registers 1 = x
    unfold wrap32 i32 u32
    split <;> omega
  have u3 : u32 ((step (step s).state).state.registers 1) = v := by
    rw [u2, u1]
    unfold u32
    have hlo' := hlo
    split at hlo' <;> omega
  refine ⟨u1, x1, u2, u3, ?_⟩
  have l1 := (simulate_loop_next 1 s x1).1
  have l2 := (simulate_loop_next 0 (step s).state x2).1
  rw [l1, l2]
  exact u3

theorem lui_addi_constant_witness :
    u32 ((simulate_loop 2
      (simulate_init (memory_of_words 0x10000 [0xABCDE0B7, 0xFFF08093]) 0x10000 none
        [])).registers 1) = 0xABCDDFFF :=
  (lui_addi_constant
    (simulate_init (memory_of_words 0x10000 [0xABCDE0B7, 0xFFF08093]) 0x10000 none [])
    0xABCDDFFF (-1) 0xABCDE (by decide) (by decide) (by decide) (by decide) (by decide)
    (by decide)).2.2.2.2

/-! ## Trace notes -/

/-- The locals and the exit of an iteration on one of the seven register-writing opcodes. -/
theorem step_reg_written (s : State)
    (h : get_bits (memory_rd_w s.mem s.pc) 0 6 ∈ [0x33, 0x13, 0x03, 0x6F, 0x67, 0x37, 0x17]) :
    (step s).locals.reg_written = ((get_bits (memory_rd_w s.mem s.pc) 7 11 : Nat) : Int)
      ∧ (step s).locals.reg_value
        = read_register (step s).state.registers (get_bits (memory_rd_w s.mem s.pc) 7 11)
      ∧ (step s).locals.mem_written = 0
      ∧ (step s).locals.branch_taken = -1
      ∧ (step s).exit
        = (if s.insns + 1 > 100000000 then StepExit.break_limit else StepExit.next) := by
  simp only [List.mem_cons, List.mem_singleton, List.not_mem_nil, or_false] at h
  unfold step
  simp only []
  split
  case h_4 heq => rw [heq] at h; exact absurd h (by decide)
  case h_5 heq => rw [heq] at h; exact absurd h (by decide)
  case h_10 heq => rw [heq] at h; exact absurd h (by decide)
  case h_11 h1 h2 h3 h4 h5 h6 h7 h8 h9 h10 =>
    rcases h with h | h | h | h | h | h | h
    · exact absurd h h1
    · exact absurd h h2
    · exact absurd h h3
    · exact absurd h h6
    · exact absurd h h7
    · exact absurd h h8
    · exact absurd h h9
  all_goals
    rw [step_finish_locals, step_finish_registers, step_finish_exit]
    exact ⟨rfl, rfl, rfl, rfl, rfl⟩

/-- On every other opcode the local `reg_written` keeps its initial value -1. -/
theorem step_reg_not_written (s : State)
    (h : get_bits (memory_rd_w s.mem s.pc) 0 6 ∉ [0x33, 0x13, 0x03, 0x6F, 0x67, 0x37, 0x17]) :
    (step s).locals.reg_written = -1 := by
  simp only [List.mem_cons, List.mem_singleton, List.not_mem_nil, not_or, or_false] at h
  obtain ⟨h1, h2, h3, h6, h7, h8, h9⟩ := h
  unfold step
  simp only []
  split
  case h_1 heq => exact absurd heq h1
  case h_2 heq => exact absurd heq h2
  case h_3 heq => exact absurd heq h3
  case h_6 heq => exact absurd heq h6
  case h_7 heq => exact absurd heq h7
  case h_8 heq => exact absurd heq h8
  case h_9 heq => exact absurd heq h9
  case h_4 => rw [step_finish_locals]
  case h_5 => rw [step_finish_locals]
  case h_10 =>
    split
    · split
      · rfl
      · rw [step_finish_locals]
    · rw [step_finish_locals]
  case h_11 => rfl

/-- C26 fails as stated: the nop 0x00000013 (`addi x0, x0, 0`, rd = 0) sets
`reg_written = rd = 0`, which passes the test `reg_written >= 0`, so its trace line carries
the register note `R[ 0] <- 00000000`. -/
theorem trace_register_note_counterexample :
    get_bits 0x00000013 0 6 = 0x13 ∧ get_bits 0x00000013 7 11 = 0
      ∧ memory_rd_w (memory_of_words 0x10000 [0x00000013]) 0x10000 = 0x00000013
      ∧ trace_notes (step (simulate_init (memory_of_words 0x10000 [0x00000013]) 0x10000
          none [])) = [TraceNote.reg_write 0 0] := by
  refine ⟨by decide, by decide, by decide, by decide⟩

/-- C26 as amended: with a log file given, the trace line of an executed instruction
carries a register note exactly when the opcode is one of OP, OP-IMM, LOAD, JAL, JALR, LUI,
AUIPC (0x33, 0x13, 0x03, 0x6F, 0x67, 0x37, 0x17), whatever rd is; the note is then the only
one on the line and shows rd with the post-step value `read_register(rd)`, which for rd = 0
is `R[0] <- 0`.  For every other opcode the line carries no register note. -/
theorem trace_register_note (s : State) (w : Nat) (hw : memory_rd_w s.mem s.pc = w) :
    (get_bits w 0 6 ∈ [0x33, 0x13, 0x03, 0x6F, 0x67, 0x37, 0x17] →
        trace_notes (step s)
          = [TraceNote.reg_write ((get_bits w 7 11 : Nat) : Int)
              (u32 (read_register (step s).state.registers (get_bits w 7 11)))])
    ∧ (get_bits w 0 6 ∈ [0x33, 0x13, 0x03, 0x6F, 0x67, 0x37, 0x17] →
        get_bits w 7 11 = 0 → s.registers 0 = 0 →
        trace_notes (step s) = [TraceNote.reg_write 0 0])
    ∧ (get_bits w 0 6 ∉ [0x33, 0x13, 0x03, 0x6F, 0x67, 0x37, 0x17] →
        ∀ n v, TraceNote.reg_write n v ∉ trace_notes (step s)) := by
  have key : get_bits w 0 6 ∈ [0x33, 0x13, 0x03, 0x6F, 0x67, 0x37, 0x17] →
      trace_notes (step s)
        = [TraceNote.reg_write ((get_bits w 7 11 : Nat) : Int)
            (u32 (read_register (step s).state.registers (get_bits w 7 11)))] := by
    intro h
    obtain ⟨l1, l2, l3, l4, l5⟩ := step_reg_written s (by rw [hw]; exact h)
    rw [hw] at l1 l2
    unfold trace_notes
    rw [l5, l1, l2, l3, l4]
    have hnn : ((get_bits w 7 11 : Nat) : Int) ≥ 0 := by omega
    split
    · rename_i hx
      split at hx <;> exact absurd hx (by decide)
    · rename_i hx
      split at hx <;> exact absurd hx (by decide)
    · rw [if_pos hnn, if_neg (by decide), if_neg (by decide)]
      rfl
  refine ⟨key, ?_, ?_⟩
  · intro h hrd h0
    rw [key h, hrd, read_register_zero, step_registers_zero, h0]
    rfl
  · intro h n v hmem
    have hrw := step_reg_not_written s (by rw [hw]; exact h)
    unfold trace_notes at hmem
    rw [hrw] at hmem
    split at hmem
    · exact absurd hmem (List.not_mem_nil _)
    · exact absurd hmem (List.not_mem_nil _)
    · rw [if_neg (by decide)] at hmem
      simp only [List.nil_append, List.mem_append] at hmem
      rcases hmem with h1 | h1
      · split at h1
        · simp at h1
        · simp at h1
      · split at h1
        · simp at h1
        · simp at h1

theorem trace_register_note_witness :
    trace_notes (step (simulate_init (memory_of_words 0x10000 [0x00500093]) 0x10000 none []))
      = [TraceNote.reg_write ((get_bits 0x00500093 7 11 : Nat) : Int)
          (u32 (read_register
            (step (simulate_init (memory_of_words 0x10000 [0x00500093]) 0x10000
              none [])).state.registers (get_bits 0x00500093 7 11)))] :=
  (trace_register_note
    (simulate_init (memory_of_words 0x10000 [0x00500093]) 0x10000 none [])
    0x00500093 (by decide)).1 (by decide)

/-! ## The division identity -/

/-- The truncating remainder is smaller in magnitude than a non-zero divisor and has the
sign of the dividend (or is 0). -/
theorem tmod_props (a b : Int) (hb : b ≠ 0) :
    (Int.tmod a b).natAbs < b.natAbs ∧ (0 ≤ a → 0 ≤ Int.tmod a b)
      ∧ (a ≤ 0 → Int.tmod a b ≤ 0) := by
  cases a with
  | ofNat m =>
    cases b with
    | ofNat n =>
      have hn : 0 < n := by
        rcases Nat.eq_zero_or_pos n with h | h
        · exact absurd (by rw [h]; rfl) hb
        · exact h
      have e : Int.tmod (Int.ofNat m) (Int.ofNat n) = ((m % n : Nat) : Int) := rfl
      have := Nat.mod_lt m hn
      rw [e]
      refine ⟨?_, ?_, ?_⟩
      · show ((m % n : Nat) : Int).natAbs < ((n : Nat) : Int).natAbs
        omega
      · intro _; omega
      · intro h
        have hm : m = 0 := by
          have h' : ((m : Nat) : Int) ≤ 0 := h
          omega
        subst hm
        simp
    | negSucc n =>
      have e : Int.tmod (Int.ofNat m) (Int.negSucc n) = ((m % (n + 1) : Nat) : Int) := rfl
      have := Nat.mod_lt m (Nat.succ_pos n)
      rw [e]
      refine ⟨?_, ?_, ?_⟩
      · show ((m % (n + 1) : Nat) : Int).natAbs < (Int.negSucc n).natAbs
        rw [Int.natAbs_negSucc, Int.natAbs_ofNat]
        exact this
      · intro _; omega
      · intro h
        have hm : m = 0 := by
          have h' : ((m : Nat) : Int) ≤ 0 := h
          omega
        subst hm
        simp
  | negSucc m =>
    cases b with
    | ofNat n =>
      have hn : 0 < n := by
        rcases Nat.eq_zero_or_pos n with h | h
        · exact absurd (by rw [h]; rfl) hb
        · exact h
      have e : Int.tmod (Int.negSucc m) (Int.ofNat n) = -(((m + 1) % n : Nat) : Int) := rfl
      have := Nat.mod_lt (m + 1) hn
      rw [e]
      refine ⟨?_, ?_, ?_⟩
      · show (-(((m + 1) % n : Nat) : Int)).natAbs < ((n : Nat) : Int).natAbs
        omega
      · intro h
        exact absurd h (by simp [Int.negSucc_not_nonneg])
      · intro _; omega
    | negSucc n =>
      have e : Int.tmod (Int.negSucc m) (Int.negSucc n)
          = -(((m + 1) % (n + 1) : Nat) : Int) := rfl
      have := Nat.mod_lt (m + 1) (Nat.succ_pos n)
      rw [e]
      refine ⟨?_, ?_, ?_⟩
      · show (-(((m + 1) % (n + 1) : Nat) : Int)).natAbs < (Int.negSucc n).natAbs
        rw [Int.natAbs_negSucc, Int.natAbs_neg, Int.natAbs_ofNat]
        exact this
      · intro h
        exact absurd h (by simp [Int.negSucc_not_nonneg])
      · intro _; omega

/-- C27: division identity.  For `int32_t` register values `a` (rs1) and `b` (rs2),
including `b = 0` and the pair `INT32_MIN`, -1, and a destination `rd` in 1..31, the values
`execute_r_type` writes satisfy `div * b + rem = a` modulo `2 ^ 32` and, on the unsigned
patterns, `divu * b + remu = a` modulo `2 ^ 32`; and whenever `b != 0`, `|rem| < |b|`, `rem`
is 0 or has the sign of `a`, and `remu < b` as unsigned values. -/
theorem division_identity (registers : Nat → Int) (rd rs1 rs2 : Nat) (a b : Int)
    (hrd : rd ≠ 0) (hrd32 : rd < 32)
    (ha : read_register registers rs1 = a) (hb : read_register registers rs2 = b)
    (ha1 : -2 ^ 31 ≤ a) (ha2 : a < 2 ^ 31) (hb1 : -2 ^ 31 ≤ b) (hb2 : b < 2 ^ 31) :
    u32 (execute_r_type registers rd rs1 rs2 0x4 0x01 rd * b
          + execute_r_type registers rd rs1 rs2 0x6 0x01 rd) = u32 a
    ∧ (u32 (execute_r_type registers rd rs1 rs2 0x5 0x01 rd) * u32 b
          + u32 (execute_r_type registers rd rs1 rs2 0x7 0x01 rd)) % 2 ^ 32 = u32 a
    ∧ (b ≠ 0 →
        (execute_r_type registers rd rs1 rs2 0x6 0x01 rd).natAbs < b.natAbs
        ∧ (execute_r_type registers rd rs1 rs2 0x6 0x01 rd = 0
            ∨ (0 < a ∧ 0 < execute_r_type registers rd rs1 rs2 0x6 0x01 rd)
            ∨ (a < 0 ∧ execute_r_type registers rd rs1 rs2 0x6 0x01 rd < 0))
        ∧ u32 (execute_r_type registers rd rs1 rs2 0x7 0x01 rd) < u32 b) := by
  have hmin : i32 0x80000000 = -2 ^ 31 := i32_int_min
  have hub : u32 b = 0 ↔ b = 0 := by
    unfold u32
    omega
  have hua := u32_lt a
  rw [execute_r_type_div, execute_r_type_divu, execute_r_type_rem, execute_r_type_remu,
    write_register_self _ _ _ hrd hrd32, write_register_self _ _ _ hrd hrd32,
    write_register_self _ _ _ hrd hrd32, write_register_self _ _ _ hrd hrd32, ha, hb, hmin]
  by_cases h0 : b = 0
  · have hu0 : u32 b = 0 := hub.mpr h0
    rw [if_pos h0, if_pos h0, if_pos hu0, if_pos hu0, hu0, h0]
    refine ⟨?_, ?_, fun h => absurd rfl h⟩
    · congr 1
      omega
    · rw [Nat.mul_zero, Nat.zero_add]
      exact Nat.mod_eq_of_lt hua
  · have hu0 : ¬ (u32 b = 0) := fun h => h0 (hub.mp h)
    have hpos : 0 < u32 b := Nat.pos_of_ne_zero hu0
    rw [if_neg h0, if_neg h0, if_neg hu0, if_neg hu0,
      i32_of_lt _ (lt_of_le_of_lt (Nat.div_le_self _ _) hua),
      i32_of_lt _ (lt_of_le_of_lt (Nat.mod_le _ _) hua)]
    have hunsigned : (u32 a / u32 b * u32 b + u32 a % u32 b) % 2 ^ 32 = u32 a := by
      rw [Nat.div_add_mod']
      exact Nat.mod_eq_of_lt hua
    have hremu : u32 a % u32 b < u32 b := Nat.mod_lt _ hpos
    by_cases hov : a = -2 ^ 31 ∧ b = -1
    · rw [if_pos hov, if_pos hov]
      obtain ⟨h1, h2⟩ := hov
      refine ⟨?_, hunsigned, fun _ => ⟨?_, Or.inl rfl, hremu⟩⟩
      · rw [h1, h2]
        decide
      · rw [h2]
        decide
    · rw [if_neg hov, if_neg hov]
      obtain ⟨t1, t2, t3⟩ := tmod_props a b h0
      refine ⟨?_, hunsigned, fun _ => ⟨t1, ?_, hremu⟩⟩
      · rw [Int.tdiv_add_tmod']
      · by_cases hr : Int.tmod a b = 0
        · exact Or.inl hr
        · by_cases hapos : 0 ≤ a
          · have := t2 hapos
            refine Or.inr (Or.inl ⟨?_, by omega⟩)
            by_contra hc
            have ha0 : a = 0 := by omega
            rw [ha0, Int.zero_tmod] at hr
            exact hr rfl
          · have := t3 (by omega)
            exact Or.inr (Or.inr ⟨by omega, by omega⟩)

theorem division_identity_witness :
    u32 (execute_r_type (fun i => if i = 2 then -7 else if i = 3 then 2 else 0) 1 2 3 0x4 0x01 1
          * 2
        + execute_r_type (fun i => if i = 2 then -7 else if i = 3 then 2 else 0) 1 2 3 0x6 0x01
          1) = u32 (-7) :=
  (division_identity (fun i => if i = 2 then -7 else if i = 3 then 2 else 0) 1 2 3 (-7) 2
    (by decide) (by decide) (by decide) (by decide) (by decide) (by decide) (by decide)
    (by decide)).1

/-! ## Table index safety -/

/-- What a sequence of calls preserves of a record: variant, table size, table length,
`history_bits`, and the history staying below `2 ^ history_bits`. -/
theorem predictor_run_shape (p : branch_predictor_t) (events : List BranchEvent)
    (h : p.global_history < 2 ^ p.history_bits) :
    ∃ q, predictor_run (some p) events = some q
      ∧ q.type = p.type ∧ q.table_size = p.table_size ∧ q.history_bits = p.history_bits
      ∧ q.table.length = p.table.length ∧ q.global_history < 2 ^ q.history_bits := by
  refine predictor_run_induct
    (fun q => q.type = p.type ∧ q.table_size = p.table_size ∧ q.history_bits = p.history_bits
      ∧ q.table.length = p.table.length ∧ q.global_history < 2 ^ q.history_bits)
    ?_ events p ⟨rfl, rfl, rfl, rfl, h⟩
  intro r pc target taken hr
  obtain ⟨q, hq, hty, hts, hbits, hlen⟩ := predictor_update_frame r pc target taken
  obtain ⟨q2, hq2, hlt⟩ := predictor_update_history r pc target taken hr.2.2.2.2
  rw [hq] at hq2
  cases hq2
  exact ⟨q, hq, hty.trans hr.1, hts.trans hr.2.1, hbits.trans hr.2.2.1,
    hlen.trans hr.2.2.2.1, hlt⟩

theorem predictor_create_history (type : predictor_type_t) :
    (predictor_create type).global_history < 2 ^ (predictor_create type).history_bits := by
  rw [(predictor_create_table type).2.2.2.2.1]
  exact Nat.two_pow_pos _

theorem predictor_create_gshare_bits (type : predictor_type_t) (h : is_gshare type) :
    2 ^ (predictor_create type).history_bits = (predictor_create type).table_size := by
  rcases h with h | h | h | h <;> subst h <;> decide

/-- C28: table index safety.  For every bimodal or gshare predictor returned by
`predictor_create`, after every finite sequence of `predictor_update` calls and for every
pc, the index computed by `predictor_predict` and `predictor_update` is below `table_size`,
which is the length of the table, so the access is in bounds; for gshare both XOR operands
are below `2 ^ history_bits = table_size` and the final `% table_size` is the identity. -/
theorem table_index_safety (type : predictor_type_t) (events : List BranchEvent) (pc : Nat) :
    (is_bimodal type →
      ∃ q, predictor_run (some (predictor_create type)) events = some q
        ∧ q.table.length = q.table_size
        ∧ pc % q.table_size < q.table_size)
    ∧ (is_gshare type →
      ∃ q, predictor_run (some (predictor_create type)) events = some q
        ∧ q.table.length = q.table_size
        ∧ 2 ^ q.history_bits = q.table_size
        ∧ (pc >>> 2) &&& ((1 <<< q.history_bits) - 1) < 2 ^ q.history_bits
        ∧ q.global_history &&& ((1 <<< q.history_bits) - 1) < 2 ^ q.history_bits
        ∧ gshare_index q pc
          = ((pc >>> 2) &&& ((1 <<< q.history_bits) - 1))
              ^^^ (q.global_history &&& ((1 <<< q.history_bits) - 1))
        ∧ gshare_index q pc < q.table_size) := by
  obtain ⟨q, hq, hty, hts, hbits, hlen, hgh⟩ :=
    predictor_run_shape (predictor_create type) events (predictor_create_history type)
  obtain ⟨clen, -, cts, -, -, -, -⟩ := predictor_create_table type
  have hlen' : q.table.length = q.table_size := by rw [hlen, hts, clen, cts]
  constructor
  · intro hb
    obtain ⟨-, hpos, -, -⟩ := predictor_create_bimodal type hb 0
    refine ⟨q, hq, hlen', ?_⟩
    rw [hts]
    exact Nat.mod_lt _ hpos
  · intro hg
    have hpow : 2 ^ q.history_bits = q.table_size := by
      rw [hbits, hts]
      exact predictor_create_gshare_bits type hg
    have hx : ((pc >>> 2) &&& ((1 <<< q.history_bits) - 1))
        ^^^ (q.global_history &&& ((1 <<< q.history_bits) - 1)) < 2 ^ q.history_bits :=
      Nat.xor_lt_two_pow (and_mask_lt _ _) (and_mask_lt _ _)
    have hidx : gshare_index q pc
        = ((pc >>> 2) &&& ((1 <<< q.history_bits) - 1))
            ^^^ (q.global_history &&& ((1 <<< q.history_bits) - 1)) := by
      unfold gshare_index
      simp only []
      rw [← hpow]
      exact Nat.mod_eq_of_lt hx
    refine ⟨q, hq, hlen', hpow, and_mask_lt _ _, and_mask_lt _ _, hidx, ?_⟩
    rw [hidx, ← hpow]
    exact hx

theorem table_index_safety_witness :
    ∃ q, predictor_run (some (predictor_create PRED_GSHARE_256))
          [⟨0x10074, 0x10060, 1⟩] = some q
      ∧ q.table.length = q.table_size
      ∧ 2 ^ q.history_bits = q.table_size
      ∧ (0xFFFFFFFC >>> 2) &&& ((1 <<< q.history_bits) - 1) < 2 ^ q.history_bits
      ∧ q.global_history &&& ((1 <<< q.history_bits) - 1) < 2 ^ q.history_bits
      ∧ gshare_index q 0xFFFFFFFC
        = ((0xFFFFFFFC >>> 2) &&& ((1 <<< q.history_bits) - 1))
            ^^^ (q.global_history &&& ((1 <<< q.history_bits) - 1))
      ∧ gshare_index q 0xFFFFFFFC < q.table_size :=
  (table_index_safety PRED_GSHARE_256 [⟨0x10074, 0x10060, 1⟩] 0xFFFFFFFC).2 (by decide)

/-! ## Bimodal table utilisation -/

/-- A run of calls at 4-aligned pcs on a bimodal record whose table size is a multiple of 4
leaves every counter at an index that is not a multiple of 4 untouched. -/
theorem bimodal_run_unaligned (events : List BranchEvent) :
    ∀ p : branch_predictor_t, is_bimodal p.type → p.table_size % 4 = 0 →
      (∀ e ∈ events, e.pc % 4 = 0) →
      ∃ q, predictor_run (some p) events = some q
        ∧ ∀ j, j % 4 ≠ 0 → q.table.getD j 0 = p.table.getD j 0 := by
  induction events with
  | nil => intro p _ _ _; exact ⟨p, rfl, fun _ _ => rfl⟩
  | cons e es ih =>
    intro p hty hsz hpc
    obtain ⟨q, hq, hqty, hqts, -, -⟩ := predictor_update_frame p e.pc e.target e.taken
    obtain ⟨q2, hq2, htab, -⟩ := predictor_update_bimodal p e.pc e.target e.taken hty
    rw [hq] at hq2
    cases hq2
    obtain ⟨r, hr, hrj⟩ := ih q (by rw [hqty]; exact hty) (by rw [hqts]; exact hsz)
      (fun x hx => hpc x (List.mem_cons_of_mem _ hx))
    refine ⟨r, by rw [predictor_run_cons, hq]; exact hr, ?_⟩
    intro j hj
    have he : e.pc % 4 = 0 := hpc e (List.mem_cons_self _ _)
    have hidx : (e.pc % p.table_size) % 4 = 0 := by
      rw [Nat.mod_mod_of_dvd _ (Nat.dvd_of_mod_eq_zero hsz)]
      exact he
    have hne : j ≠ e.pc % p.table_size := fun h => hj (by rw [h]; exact hidx)
    rw [hrj j hj, htab, getD_set_ne _ _ _ _ hne]

/-- C29: bimodal table utilisation.  For every bimodal predictor returned by
`predictor_create`, with `N` its table size, and every sequence of `predictor_update` calls
whose pcs are all multiples of 4: every counter at an index that is not a multiple of 4
still holds its initial value 2, and every index used, `pc mod N`, is `4 * k` for some
`k < N / 4`; so at most `N / 4` of the `N` counters are ever read or modified. -/
theorem bimodal_table_utilisation (type : predictor_type_t) (hty : is_bimodal type)
    (events : List BranchEvent) (hpc : ∀ e ∈ events, e.pc % 4 = 0) :
    ∃ q, predictor_run (some (predictor_create type)) events = some q
      ∧ (∀ j, j < get_table_size type → j % 4 ≠ 0 → q.table.getD j 0 = 2)
      ∧ (∀ e ∈ events, ∃ k, k < get_table_size type / 4
          ∧ e.pc % get_table_size type = 4 * k) := by
  obtain ⟨clen, call, cts, ctype, -, -, -⟩ := predictor_create_table type
  have hN : get_table_size type % 4 = 0 := by
    rcases hty with h | h | h | h <;> rw [h] <;> decide
  have hpos : 0 < get_table_size type := by
    rcases hty with h | h | h | h <;> rw [h] <;> decide
  obtain ⟨q, hq, hqj⟩ := bimodal_run_unaligned events (predictor_create type)
    (by rw [ctype]; exact hty) (by rw [cts]; exact hN) hpc
  refine ⟨q, hq, ?_, ?_⟩
  · intro j hj hj4
    rw [hqj j hj4, List.getD_eq_getElem _ 0 (by rw [clen]; exact hj)]
    exact call _ (List.getElem_mem _)
  · intro e he
    have h4 : (e.pc % get_table_size type) % 4 = 0 := by
      rw [Nat.mod_mod_of_dvd _ (Nat.dvd_of_mod_eq_zero hN)]
      exact hpc e he
    have hlt : e.pc % get_table_size type < get_table_size type := Nat.mod_lt _ hpos
    refine ⟨e.pc % get_table_size type / 4, ?_, ?_⟩
    · omega
    · omega

theorem bimodal_table_utilisation_witness :
    ∃ q, predictor_run (some (predictor_create PRED_BIMODAL_256))
          [⟨0x10074, 0x10060, 1⟩, ⟨0x10078, 0x10060, 0⟩] = some q
      ∧ (∀ j, j < get_table_size PRED_BIMODAL_256 → j % 4 ≠ 0 → q.table.getD j 0 = 2)
      ∧ (∀ e ∈ [(⟨0x10074, 0x10060, 1⟩ : BranchEvent), ⟨0x10078, 0x10060, 0⟩],
          ∃ k, k < get_table_size PRED_BIMODAL_256 / 4
            ∧ e.pc % get_table_size PRED_BIMODAL_256 = 4 * k) :=
  bimodal_table_utilisation PRED_BIMODAL_256 (by decide)
    [⟨0x10074, 0x10060, 1⟩, ⟨0x10078, 0x10060, 0⟩] (by decide)

/-! ## Alignment of the program counter over a run -/

theorem u32_add_mod4 (n : Nat) (x : Int) (hn : n % 4 = 0) :
    u32 (i32 n + x) % 4 = 0 ↔ x % 4 = 0 := by
  unfold u32 i32
  split <;> omega

theorem u32_add_mod4_cases (n : Nat) (x : Int) (hn : n % 4 = 0) (hx : x % 2 = 0) :
    u32 (i32 n + x) % 4 = 0 ∨ u32 (i32 n + x) % 4 = 2 := by
  unfold u32 i32
  split <;> omega

theorem jalr_target_mod4 (y : Int) :
    ((u32 y &&& 0xFFFFFFFE) % 4 = 0 ↔ y % 4 < 2)
      ∧ ((u32 y &&& 0xFFFFFFFE) % 4 = 0 ∨ (u32 y &&& 0xFFFFFFFE) % 4 = 2) := by
  rw [and_clear_bit0 _ (u32_lt y)]
  unfold u32
  omega

theorem step_jal_pc (s : State) (h : get_bits (memory_rd_w s.mem s.pc) 0 6 = 0x6F) :
    (step s).state.pc
      = u32 (i32 s.pc + sign_extend
          ((get_bits (memory_rd_w s.mem s.pc) 31 31 <<< 20)
            ||| (get_bits (memory_rd_w s.mem s.pc) 12 19 <<< 12)
            ||| (get_bits (memory_rd_w s.mem s.pc) 20 20 <<< 11)
            ||| (get_bits (memory_rd_w s.mem s.pc) 21 30 <<< 1)) 21) := by
  unfold step
  simp only [h]
  rw [step_finish_pc]

/-- While the loop is running after `k` iterations, the state after `k + 1` iterations is
the outcome of one more step. -/
theorem simulate_loop_step (k : Nat) :
    ∀ s : State, simulate_loop_exit k s = none →
      simulate_loop (k + 1) s = (step (simulate_loop k s)).state := by
  induction k with
  | zero =>
    intro s _
    rw [simulate_loop_succ]
    cases (step s).exit <;> rfl
  | succ k ih =>
    intro s h
    cases hexit : (step s).exit with
    | next =>
      obtain ⟨e1, e2⟩ := simulate_loop_next k s hexit
      obtain ⟨e3, _⟩ := simulate_loop_next (k + 1) s hexit
      rw [e2] at h
      rw [e3, e1]
      exact ih _ h
    | return_ecall =>
      have := (simulate_loop_stop k s (by rw [hexit]; decide)).2
      rw [this] at h; exact absurd h (by simp)
    | return_unknown =>
      have := (simulate_loop_stop k s (by rw [hexit]; decide)).2
      rw [this] at h; exact absurd h (by simp)
    | break_limit =>
      have := (simulate_loop_stop k s (by rw [hexit]; decide)).2
      rw [this] at h; exact absurd h (by simp)

/-- One step from a 4-aligned PC, opcode by opcode. -/
theorem step_pc_mod4 (s : State) (hs : s.pc % 4 = 0) :
    ((step s).state.pc % 4 = 0 ∨ (step s).state.pc % 4 = 2)
      ∧ (get_bits (memory_rd_w s.mem s.pc) 0 6 = 0x63 → (step s).locals.branch_taken = 0 →
          (step s).state.pc = (s.pc + 4) % 2 ^ 32 ∧ (step s).state.pc % 4 = 0)
      ∧ (get_bits (memory_rd_w s.mem s.pc) 0 6 = 0x63 → (step s).locals.branch_taken = 1 →
          ((step s).state.pc % 4 = 0 ↔ branch_imm (memory_rd_w s.mem s.pc) % 4 = 0))
      ∧ (get_bits (memory_rd_w s.mem s.pc) 0 6 = 0x6F →
          ((step s).state.pc % 4 = 0 ↔
            sign_extend
              ((get_bits (memory_rd_w s.mem s.pc) 31 31 <<< 20)
                ||| (get_bits (memory_rd_w s.mem s.pc) 12 19 <<< 12)
                ||| (get_bits (memory_rd_w s.mem s.pc) 20 20 <<< 11)
                ||| (get_bits (memory_rd_w s.mem s.pc) 21 30 <<< 1)) 21 % 4 = 0))
      ∧ (get_bits (memory_rd_w s.mem s.pc) 0 6 = 0x67 →
          ((step s).state.pc % 4 = 0 ↔
            (read_register s.registers (get_bits (memory_rd_w s.mem s.pc) 15 19)
              + sign_extend (get_bits (memory_rd_w s.mem s.pc) 20 31) 12) % 4 < 2)) := by
  have hseq : (s.pc + 4) % 2 ^ 32 % 4 = 0 := by omega
  have hbr : get_bits (memory_rd_w s.mem s.pc) 0 6 = 0x63 →
      ((step s).locals.branch_taken = 1 ∨ (step s).locals.branch_taken = 0)
      ∧ ((step s).locals.branch_taken = 1 →
          (step s).state.pc = u32 (i32 s.pc + branch_imm (memory_rd_w s.mem s.pc)))
      ∧ ((step s).locals.branch_taken = 0 → (step s).state.pc = (s.pc + 4) % 2 ^ 32) := by
    intro hop
    obtain ⟨hpc, hbt, _, _, _⟩ := step_branch s hop
    obtain ⟨e1, e2, e3⟩ := execute_branch_eq s.registers ((s.pc + 4) % 2 ^ 32)
      (get_bits (memory_rd_w s.mem s.pc) 15 19) (get_bits (memory_rd_w s.mem s.pc) 20 24)
      (get_bits (memory_rd_w s.mem s.pc) 12 14) (branch_imm (memory_rd_w s.mem s.pc)) s.pc
    rw [hpc, hbt, u32_i32_add]
    exact ⟨e1, e2, e3⟩
  refine ⟨?_, ?_, ?_, ?_, ?_⟩
  · by_cases h1 : get_bits (memory_rd_w s.mem s.pc) 0 6 = 0x63
    · obtain ⟨b1, b2, b3⟩ := hbr h1
      rcases b1 with b | b
      · rw [b2 b]
        exact u32_add_mod4_cases _ _ hs (branch_imm_even _)
      · rw [b3 b]
        exact Or.inl hseq
    · by_cases h2 : get_bits (memory_rd_w s.mem s.pc) 0 6 = 0x6F
      · rw [step_jal_pc s h2]
        obtain ⟨j1, j2⟩ := jal_field (memory_rd_w s.mem s.pc)
        exact u32_add_mod4_cases _ _ hs
          (sign_extend_even _ 21 (by decide) (by decide) j2 j1)
      · by_cases h3 : get_bits (memory_rd_w s.mem s.pc) 0 6 = 0x67
        · rw [(step_jalr s h3).1]
          exact (jalr_target_mod4 _).2
        · rw [step_pc_sequential s h1 h2 h3]
          exact Or.inl hseq
  · intro h1 hb
    have := (hbr h1).2.2 hb
    exact ⟨this, by rw [this]; exact hseq⟩
  · intro h1 hb
    rw [(hbr h1).2.1 hb]
    exact u32_add_mod4 _ _ hs
  · intro h2
    rw [step_jal_pc s h2]
    exact u32_add_mod4 _ _ hs
  · intro h3
    rw [(step_jalr s h3).1]
    exact (jalr_target_mod4 _).1

/-- One step from a 4-aligned PC ends 4-aligned exactly when it is not a taken branch or a
JAL with an immediate off the multiples of 4, nor a JALR whose sum is 2 or 3 modulo 4. -/
theorem step_pc_aligned_iff (s : State) (w : Nat) (hs : s.pc % 4 = 0)
    (hw : memory_rd_w s.mem s.pc = w) :
    (step s).state.pc % 4 = 0 ↔
      ((get_bits w 0 6 = 0x63 → (step s).locals.branch_taken = 1 → branch_imm w % 4 = 0)
        ∧ (get_bits w 0 6 = 0x6F →
            sign_extend
              ((get_bits w 31 31 <<< 20) ||| (get_bits w 12 19 <<< 12)
                ||| (get_bits w 20 20 <<< 11) ||| (get_bits w 21 30 <<< 1)) 21 % 4 = 0)
        ∧ (get_bits w 0 6 = 0x67 →
            (read_register s.registers (get_bits w 15 19)
              + sign_extend (get_bits w 20 31) 12) % 4 < 2)) := by
  subst hw
  obtain ⟨_, m2, m3, m4, m5⟩ := step_pc_mod4 s hs
  constructor
  · intro hpc
    exact ⟨fun h1 hb => (m3 h1 hb).mp hpc, fun h2 => (m4 h2).mp hpc, fun h3 => (m5 h3).mp hpc⟩
  · rintro ⟨g1, g2, g3⟩
    by_cases h1 : get_bits (memory_rd_w s.mem s.pc) 0 6 = 0x63
    · obtain ⟨_, hbt, _, _, _⟩ := step_branch s h1
      obtain ⟨e1, _, _⟩ := execute_branch_eq s.registers ((s.pc + 4) % 2 ^ 32)
        (get_bits (memory_rd_w s.mem s.pc) 15 19) (get_bits (memory_rd_w s.mem s.pc) 20 24)
        (get_bits (memory_rd_w s.mem s.pc) 12 14) (branch_imm (memory_rd_w s.mem s.pc)) s.pc
      rw [← hbt] at e1
      rcases e1 with b | b
      · exact (m3 h1 b).mpr (g1 h1 b)
      · exact (m2 h1 b).2
    · by_cases h2 : get_bits (memory_rd_w s.mem s.pc) 0 6 = 0x6F
      · exact (m4 h2).mpr (g2 h2)
      · by_cases h3 : get_bits (memory_rd_w s.mem s.pc) 0 6 = 0x67
        · exact (m5 h3).mpr (g3 h3)
        · rw [step_pc_sequential s h1 h2 h3]
          omega

/-- The PC stays 4-aligned over the first `n` iterations exactly when none of the executed
ones is a misaligning transfer. -/
theorem simulate_loop_pc_aligned_iff (s0 : State) (h0 : s0.pc % 4 = 0) (n : Nat) :
    (∀ k, k ≤ n → (simulate_loop k s0).pc % 4 = 0) ↔
      (∀ k, k < n → ∀ (s : State) (w : Nat), simulate_loop k s0 = s →
        memory_rd_w s.mem s.pc = w → simulate_loop_exit k s0 = none →
        ((get_bits w 0 6 = 0x63 → (step s).locals.branch_taken = 1 → branch_imm w % 4 = 0)
          ∧ (get_bits w 0 6 = 0x6F →
              sign_extend
                ((get_bits w 31 31 <<< 20) ||| (get_bits w 12 19 <<< 12)
                  ||| (get_bits w 20 20 <<< 11) ||| (get_bits w 21 30 <<< 1)) 21 % 4 = 0)
          ∧ (get_bits w 0 6 = 0x67 →
              (read_register s.registers (get_bits w 15 19)
                + sign_extend (get_bits w 20 31) 12) % 4 < 2))) := by
  constructor
  · intro hall k hk s w hs hw hrun
    subst hs
    have h1 := hall (k + 1) (by omega)
    rw [simulate_loop_step k s0 hrun] at h1
    exact (step_pc_aligned_iff _ w (hall k (by omega)) hw).mp h1
  · intro hgood k
    induction k with
    | zero => intro _; exact h0
    | succ k ih =>
      intro hk
      have hk0 := ih (by omega)
      cases hrun : simulate_loop_exit k s0 with
      | none =>
        rw [simulate_loop_step k s0 hrun]
        exact (step_pc_aligned_iff _ _ hk0 rfl).mpr (hgood k (by omega) _ _ rfl rfl hrun)
      | some e =>
        rw [(simulate_loop_fuel k 1 s0 e hrun).1]
        exact hk0

/-- C18 as amended: for every run of `simulate` whose entry address is a multiple of 4,
(1) the PC is a multiple of 2 at the start of every step (after any number of loop
iterations) and in the final state; (2) a step that starts at a multiple of 4 and whose
opcode is not BRANCH (0x63), JAL (0x6F) or JALR (0x67) ends at `current_pc + 4`, again a
multiple of 4; (3) any step that starts at a multiple of 4 ends at a PC that is 0 or 2
modulo 4: a branch not taken ends at `current_pc + 4`, a taken branch and a JAL end at a
multiple of 4 exactly when their immediate is a multiple of 4, and a JALR exactly when the
sum `rs1 + imm` is 0 or 1 modulo 4; (4) hence the PC is a multiple of 4 after each of the
first `n` iterations exactly when none of the steps executed among them is a taken branch
or a JAL whose immediate is not a multiple of 4, or a JALR whose sum is 2 or 3 modulo 4;
(5) and a run in which no executed step is such a transfer has a PC that is a multiple of 4
at the start of every step and in the final state. -/
theorem pc_alignment (mem : memory) (start_addr : Int)
    (predictor : Option branch_predictor_t) (input : List Nat) (h : start_addr % 4 = 0) :
    (∀ n, (simulate_loop n (simulate_init mem start_addr predictor input)).pc % 2 = 0)
    ∧ (simulate mem start_addr predictor input).pc % 2 = 0
    ∧ (∀ s : State, s.pc % 4 = 0 →
        get_bits (memory_rd_w s.mem s.pc) 0 6 ≠ 0x63 →
        get_bits (memory_rd_w s.mem s.pc) 0 6 ≠ 0x6F →
        get_bits (memory_rd_w s.mem s.pc) 0 6 ≠ 0x67 →
        (step s).state.pc = (s.pc + 4) % 2 ^ 32 ∧ (step s).state.pc % 4 = 0)
    ∧ (∀ (s : State) (w : Nat), s.pc % 4 = 0 → memory_rd_w s.mem s.pc = w →
        ((step s).state.pc % 4 = 0 ∨ (step s).state.pc % 4 = 2)
        ∧ (get_bits w 0 6 = 0x63 → (step s).locals.branch_taken = 0 →
            (step s).state.pc = (s.pc + 4) % 2 ^ 32 ∧ (step s).state.pc % 4 = 0)
        ∧ (get_bits w 0 6 = 0x63 → (step s).locals.branch_taken = 1 →
            ((step s).state.pc % 4 = 0 ↔ branch_imm w % 4 = 0))
        ∧ (get_bits w 0 6 = 0x6F →
            ((step s).state.pc % 4 = 0 ↔
              sign_extend
                ((get_bits w 31 31 <<< 20) ||| (get_bits w 12 19 <<< 12)
                  ||| (get_bits w 20 20 <<< 11) ||| (get_bits w 21 30 <<< 1)) 21 % 4 = 0))
        ∧ (get_bits w 0 6 = 0x67 →
            ((step s).state.pc % 4 = 0 ↔
              (read_register s.registers (get_bits w 15 19)
                + sign_extend (get_bits w 20 31) 12) % 4 < 2)))
    ∧ (∀ n,
        (∀ k, k ≤ n →
          (simulate_loop k (simulate_init mem start_addr predictor input)).pc % 4 = 0) ↔
        (∀ k, k < n → ∀ (s : State) (w : Nat),
          simulate_loop k (simulate_init mem start_addr predictor input) = s →
          memory_rd_w s.mem s.pc = w →
          simulate_loop_exit k (simulate_init mem start_addr predictor input) = none →
          ((get_bits w 0 6 = 0x63 → (step s).locals.branch_taken = 1 →
              branch_imm w % 4 = 0)
            ∧ (get_bits w 0 6 = 0x6F →
                sign_extend
                  ((get_bits w 31 31 <<< 20) ||| (get_bits w 12 19 <<< 12)
                    ||| (get_bits w 20 20 <<< 11) ||| (get_bits w 21 30 <<< 1)) 21 % 4 = 0)
            ∧ (get_bits w 0 6 = 0x67 →
                (read_register s.registers (get_bits w 15 19)
                  + sign_extend (get_bits w 20 31) 12) % 4 < 2))))
    ∧ ((∀ (k : Nat) (s : State) (w : Nat),
          simulate_loop k (simulate_init mem start_addr predictor input) = s →
          memory_rd_w s.mem s.pc = w →
          simulate_loop_exit k (simulate_init mem start_addr predictor input) = none →
          ((get_bits w 0 6 = 0x63 → (step s).locals.branch_taken = 1 →
              branch_imm w % 4 = 0)
            ∧ (get_bits w 0 6 = 0x6F →
                sign_extend
                  ((get_bits w 31 31 <<< 20) ||| (get_bits w 12 19 <<< 12)
                    ||| (get_bits w 20 20 <<< 11) ||| (get_bits w 21 30 <<< 1)) 21 % 4 = 0)
            ∧ (get_bits w 0 6 = 0x67 →
                (read_register s.registers (get_bits w 15 19)
                  + sign_extend (get_bits w 20 31) 12) % 4 < 2))) →
        (∀ n, (simulate_loop n (simulate_init mem start_addr predictor input)).pc % 4 = 0)
          ∧ (simulate mem start_addr predictor input).pc % 4 = 0) := by
  have h2 : (simulate_init mem start_addr predictor input).pc % 2 = 0 := by
    show u32 start_addr % 2 = 0
    unfold u32
    omega
  have h4 : (simulate_init mem start_addr predictor input).pc % 4 = 0 := by
    show u32 start_addr % 4 = 0
    unfold u32
    omega
  refine ⟨fun n => simulate_loop_pc_even n _ h2, simulate_loop_pc_even _ _ h2, ?_, ?_,
    fun n => simulate_loop_pc_aligned_iff _ h4 n, ?_⟩
  · intro s hs h1 h2 h3
    have hpc := step_pc_sequential s h1 h2 h3
    refine ⟨hpc, ?_⟩
    rw [hpc]
    omega
  · intro s w hs hw
    subst hw
    exact step_pc_mod4 s hs
  · intro hgood
    have hall : ∀ n, (simulate_loop n (simulate_init mem start_addr predictor input)).pc % 4
        = 0 := fun n =>
      (simulate_loop_pc_aligned_iff _ h4 n).mpr (fun k _ s w hs hw hrun => hgood k s w hs hw hrun)
        n (le_refl n)
    exact ⟨hall, hall 100000001⟩

/-- The program `jal x0, 8` (0x0080006F) at the entry address 0x10000: the immediate is a
multiple of 4, so the second step starts at the 4-aligned PC 0x10008. -/
theorem pc_alignment_witness :
    (0x10000 : Int) % 4 = 0
      ∧ ∀ k, k ≤ 1 → (simulate_loop k
          (simulate_init (memory_of_words 0x10000 [0x0080006F]) 0x10000 none [])).pc % 4 = 0 :=
  ⟨by decide,
    ((pc_alignment (memory_of_words 0x10000 [0x0080006F]) 0x10000 none []
        (by decide)).2.2.2.2.1 1).mpr (by
      intro k hk s w hs hw _
      obtain rfl : k = 0 := by omega
      subst hs
      subst hw
      decide)⟩

end Sim
